import Mathlib

/-!
Shallow embedding of the winres resource-set codec: the in-memory
resource directory model (type → resource → language → data), its
mutation operations, the layout planner and encoder for the rsrc
section, and the decoder.  Go maps are modelled as association lists,
machine integers as `Nat` with explicit `% 2^w` truncation at the
points where the code converts to fixed-width values, and the byte
stream as `List Nat`.
-/

namespace Winres

/-! ### Byte-level helpers (little-endian encoding, as produced by binary.Write) -/

/-- Little-endian bytes of a `uint16` value (the Go code truncates on conversion). -/
def le16 (n : Nat) : List Nat := [n % 256, n / 256 % 256]

/-- Little-endian bytes of a `uint32` value. -/
def le32 (n : Nat) : List Nat := [n % 256, n / 256 % 256, n / 2 ^ 16 % 256, n / 2 ^ 24 % 256]

/-- `uint32(n) | 0x80000000`: setting the high bit of a 32-bit value.
For every `n`, `(n % 2^32) ||| 2^31 = n % 2^31 + 2^31`. -/
def orBit31 (n : Nat) : Nat := n % 2 ^ 31 + 2 ^ 31

/-- Serialize a list of `uint16` values, as `binary.Write` does for a `[]uint16`. -/
def u16Bytes : List Nat → List Nat
  | [] => []
  | n :: ns => le16 n ++ u16Bytes ns

/-! ### Identifier model

Modelled from the spec: the file `ident.go` defining `Identifier`, `ID`,
`Name`, `lessThan` and `checkIdentifier` is not part of the provided
sources; the spec describes a closed two-variant key type (a 16-bit
ordinal, 0 invalid, or a non-empty name compared code-unit-for-code-unit,
case-sensitive) with the total order: all names sort before all ordinals,
names lexicographically ascending, ordinals numerically ascending.
A `Name` is modelled as its list of UTF-16 code units. -/

/-- A resource name, as a list of UTF-16 code units. -/
abbrev Name := List Nat

/-- Modelled from the spec: an identifier is either a numeric ordinal (`ID`,
a 16-bit value in Go) or a name. -/
inductive Identifier where
  | id (n : Nat)
  | name (s : Name)
deriving DecidableEq

/-- Modelled from the spec: case-sensitive lexicographic strict order on names. -/
def ltName : Name → Name → Bool
  | [], [] => false
  | [], _ :: _ => true
  | _ :: _, [] => false
  | a :: as, b :: bs => if a < b then true else if b < a then false else ltName as bs

/-- Modelled from the spec: the total order used at every directory level.
Names sort before ordinals; names compare lexicographically ascending;
ordinals compare numerically ascending. -/
def Identifier.lessThan : Identifier → Identifier → Bool
  | .name a, .name b => ltName a b
  | .name _, .id _ => true
  | .id _, .name _ => false
  | .id a, .id b => a < b

def Identifier.isName : Identifier → Bool
  | .name _ => true
  | .id _ => false

/-- The ordinal value of an identifier (Go type assertion `ident.(ID)`;
only ever applied to ordinals). -/
def Identifier.idVal : Identifier → Nat
  | .id n => n
  | .name _ => 0

/-- The name of an identifier (Go type assertion `ident.(Name)`;
only ever applied to names). -/
def Identifier.nameVal : Identifier → Name
  | .name s => s
  | .id _ => []

/-- Errors surfaced by the model (Go uses error strings). -/
inductive WErr where
  | zeroID
  | emptyName
  | invalidResDir
  | dataEntryOutOfBounds
  | eof
deriving DecidableEq

/-- Modelled from the spec: a zero-valued ordinal or an empty name is
rejected as a type/resource identifier. -/
def checkIdentifier : Identifier → Except WErr Unit
  | .id 0 => .error .zeroID
  | .id _ => .ok ()
  | .name [] => .error .emptyName
  | .name _ => .ok ()

/-- Standard resource type IDs used by the codec. -/
def RT_CURSOR : Identifier := .id 1
def RT_ICON : Identifier := .id 3
def RT_GROUP_CURSOR : Identifier := .id 12
def RT_GROUP_ICON : Identifier := .id 14

/-! ### Association lists (the model of Go maps) -/

section AssocOps

variable {κ ν : Type} [DecidableEq κ]

/-- Map lookup. -/
def alookup (k : κ) : List (κ × ν) → Option ν
  | [] => none
  | (k', v) :: l => if k' = k then some v else alookup k l

/-- Map insert-or-replace (`m[k] = v`). -/
def aupsert (k : κ) (v : ν) : List (κ × ν) → List (κ × ν)
  | [] => [(k, v)]
  | (k', v') :: l => if k' = k then (k', v) :: l else (k', v') :: aupsert k v l

/-- Map deletion (`delete(m, k)`). -/
def aerase (k : κ) : List (κ × ν) → List (κ × ν)
  | [] => []
  | (k', v') :: l => if k' = k then l else (k', v') :: aerase k l

/-- The keys of a map. -/
def akeys (l : List (κ × ν)) : List κ := l.map Prod.fst

end AssocOps

/-! ### The resource-set data model -/

/-- A leaf payload. -/
structure DataEntry where
  Data : List Nat
deriving DecidableEq

/-- A resource entry: language ordinal → data, with a cached sort order
(`none` models the nil slice). -/
structure ResourceEntry where
  Data : List (Nat × DataEntry)
  OrderedKeys : Option (List Nat)
deriving DecidableEq

/-- A type entry: resource identifier → resource entry, with a cached sort
order and a cached count of leading name keys. -/
structure TypeEntry where
  Resources : List (Identifier × ResourceEntry)
  OrderedKeys : Option (List Identifier)
  NamesCount : Nat
deriving DecidableEq

/-- The root container, with the opportunistic icon/cursor id counters. -/
structure ResourceSet where
  Types : List (Identifier × TypeEntry)
  lastIconID : Nat
  lastCursorID : Nat
deriving DecidableEq

/-- The empty resource set. -/
def emptyRS : ResourceSet := ⟨[], 0, 0⟩

/-- `rs.Get`: returns the payload, or `none` when absent. -/
def ResourceSet.Get (rs : ResourceSet) (typeID resID : Identifier) (langID : Nat) :
    Option (List Nat) :=
  match alookup typeID rs.Types with
  | none => none
  | some te =>
    match alookup resID te.Resources with
    | none => none
    | some re =>
      match alookup langID re.Data with
      | none => none
      | some de => some de.Data

/-- `rs.delete`: remove one language variant, pruning empty nodes bottom-up. -/
def ResourceSet.delete (rs : ResourceSet) (typeID resID : Identifier) (langID : Nat) :
    ResourceSet :=
  match alookup typeID rs.Types with
  | none => rs
  | some te =>
    match alookup resID te.Resources with
    | none => rs
    | some re =>
      let re' : ResourceEntry := ⟨aerase langID re.Data, none⟩
      if re'.Data ≠ [] then
        { rs with Types := aupsert typeID { te with
            Resources := aupsert resID re' te.Resources } rs.Types }
      else
        let te' : TypeEntry := { te with Resources := aerase resID te.Resources,
                                         OrderedKeys := none }
        if te'.Resources ≠ [] then
          { rs with Types := aupsert typeID te' rs.Types }
        else
          { rs with Types := aerase typeID rs.Types }

/-- The opportunistic icon/cursor id counter update performed by `set` on
inserts under `RT_ICON` and `RT_CURSOR`. -/
def updateCounters (rs : ResourceSet) (typeID resID : Identifier) : ResourceSet :=
  if typeID = RT_ICON then
    match resID with
    | .id n => if rs.lastIconID < n then { rs with lastIconID := n } else rs
    | .name _ => rs
  else if typeID = RT_CURSOR then
    match resID with
    | .id n => if rs.lastCursorID < n then { rs with lastCursorID := n } else rs
    | .name _ => rs
  else rs

/-- `rs.set`: the only function that creates or modifies entries.
`none` data means deletion, as in `UpdateResource`. -/
def ResourceSet.set (rs : ResourceSet) (typeID resID : Identifier) (langID : Nat)
    (data : Option (List Nat)) : ResourceSet :=
  match data with
  | none => rs.delete typeID resID langID
  | some d =>
    let te := (alookup typeID rs.Types).getD ⟨[], none, 0⟩
    let te :=
      match alookup resID te.Resources with
      | some _ => te
      | none => { te with Resources := aupsert resID (⟨[], none⟩ : ResourceEntry) te.Resources,
                          OrderedKeys := none }
    let rs := updateCounters rs typeID resID
    let re := (alookup resID te.Resources).getD ⟨[], none⟩
    let re :=
      match alookup langID re.Data with
      | some _ => { re with Data := aupsert langID ⟨d⟩ re.Data }
      | none => { re with Data := aupsert langID ⟨d⟩ re.Data, OrderedKeys := none }
    let te' : TypeEntry := { te with Resources := aupsert resID re te.Resources }
    { rs with Types := aupsert typeID te' rs.Types }

/-- `rs.Set`: the public mutation, validating both identifiers first. -/
def ResourceSet.Set (rs : ResourceSet) (typeID resID : Identifier) (langID : Nat)
    (data : Option (List Nat)) : Except WErr ResourceSet :=
  match checkIdentifier resID with
  | .error e => .error e
  | .ok _ =>
    match checkIdentifier typeID with
    | .error e => .error e
    | .ok _ => .ok (rs.set typeID resID langID data)

/-! ### Ordering (ResourceSet.order, TypeEntry.Order, ResourceEntry.order)

Go sorts with `sort.Slice` and the strict order `lessThan`; on the
distinct keys of a map the sorted sequence is unique, so any sorting
algorithm is a faithful model.  `sort.Search` for the first ordinal in a
sorted sequence returns the number of leading names, modelled with
`takeWhile`. -/

/-- The reflexive order corresponding to `lessThan`. -/
def idLE (a b : Identifier) : Prop := b.lessThan a = false

instance : DecidableRel idLE := fun a b =>
  inferInstanceAs (Decidable (Identifier.lessThan b a = false))

/-- The reflexive order corresponding to `ltName` (`sort.Strings`). -/
def nameLE (a b : Name) : Prop := ltName b a = false

instance : DecidableRel nameLE := fun a b =>
  inferInstanceAs (Decidable (ltName b a = false))

/-- Sorting identifiers: names in case-sensitive ascending order, then IDs
in ascending order. -/
def sortIdents (l : List Identifier) : List Identifier := List.insertionSort idLE l

/-- Sorting names ascending (`sort.Strings`). -/
def sortNames (l : List Name) : List Name := List.insertionSort nameLE l

/-- Sorting language ordinals ascending. -/
def sortLangs (l : List Nat) : List Nat := List.insertionSort (· ≤ ·) l

/-- `re.order()`: computes the cached LCID order when absent. -/
def ResourceEntry.order (re : ResourceEntry) : ResourceEntry :=
  match re.OrderedKeys with
  | some _ => re
  | none => { re with OrderedKeys := some (sortLangs (akeys re.Data)) }

/-- `te.Order()`: computes the cached key order and leading-names count when
absent, ordering every owned resource entry as well; returns unchanged when
the cache is present. -/
def TypeEntry.Order (te : TypeEntry) : TypeEntry :=
  match te.OrderedKeys with
  | some _ => te
  | none =>
    let ks := sortIdents (akeys te.Resources)
    { Resources := te.Resources.map (fun p => (p.1, p.2.order)),
      OrderedKeys := some ks,
      NamesCount := (ks.takeWhile Identifier.isName).length }

/-- `rs.order(s)`: orders every type entry and produces the root ordered
keys and leading-names count (stored in the write state). -/
def ResourceSet.order (rs : ResourceSet) : ResourceSet × List Identifier × Nat :=
  let ks := sortIdents (akeys rs.Types)
  (⟨rs.Types.map (fun p => (p.1, p.2.Order)), rs.lastIconID, rs.lastCursorID⟩,
    ks, (ks.takeWhile Identifier.isName).length)

/-! ### Sizes and alignment -/

def sizeOfDirTable : Nat := 16
def sizeOfDirEntry : Nat := 8
def sizeOfDataEntry : Nat := 16
def dataAlignment : Nat := 8

/-- Go `(offset + dataAlignment - 1) &^ (dataAlignment - 1)`: clearing the
low three bits of a nonnegative value is subtracting its remainder mod 8. -/
def alignData (offset : Nat) : Nat :=
  (offset + dataAlignment - 1) - (offset + dataAlignment - 1) % dataAlignment

/-- Room taken by a payload including the trailing padding. -/
def DataEntry.paddedDataSize (de : DataEntry) : Nat := alignData de.Data.length

/-- Size of a type entry's directory table. -/
def TypeEntry.size (te : TypeEntry) : Nat :=
  sizeOfDirTable + te.Resources.length * sizeOfDirEntry

/-- Size of a resource entry's directory table. -/
def ResourceEntry.size (re : ResourceEntry) : Nat :=
  sizeOfDirTable + re.Data.length * sizeOfDirEntry

/-- Size of the whole directory region of the rsrc section (everything
before the name string table). -/
def ResourceSet.dirSize (rs : ResourceSet) : Nat :=
  sizeOfDirTable + rs.Types.length * sizeOfDirEntry +
    (rs.Types.map (fun t =>
      t.2.size +
        (t.2.Resources.map (fun r => r.2.size + r.2.Data.length * sizeOfDataEntry)).sum)).sum

/-- Number of resource data entries (one per (type, resource, language)). -/
def ResourceSet.numDataEntries (rs : ResourceSet) : Nat :=
  (rs.Types.map (fun t => (t.2.Resources.map (fun r => r.2.Data.length)).sum)).sum

/-- `rs.Count()`. -/
def ResourceSet.Count (rs : ResourceSet) : Nat := rs.numDataEntries

/-! ### Layout planner (`ResourceSet.prepare`) -/

/-- The temporary state used during `ResourceSet.write`. -/
structure state where
  offset : Nat
  relocAddr : List Nat
  nameOffset : List (Name × Nat)
  namesData : List Nat
  orderedKeys : List Identifier
  namesCount : Nat

/-- The names contributed by one (ordered) type entry: the type key when it
is a name, then the resource name keys. -/
def typeNames (p : Identifier × TypeEntry) : List Name :=
  (match p.1 with | .name n => [n] | .id _ => []) ++
    ((p.2.OrderedKeys.getD []).take p.2.NamesCount).map Identifier.nameVal

/-- Every name referenced in the tree (with repetitions; the Go code
collects them into a set). -/
def allNames (rs : ResourceSet) : List Name := (rs.Types.map typeNames).flatten

/-- Lays out the name string table: assigns every name its byte offset and
builds the table contents (`length` then the code units, per name). -/
def buildNames : List Name → Nat → List (Name × Nat) × List Nat
  | [], _ => ([], [])
  | n :: ns, off =>
    let rest := buildNames ns (off + (n.length + 1) * 2)
    ((n, off) :: rest.1, (n.length :: n) ++ rest.2)

/-- `rs.prepare()`: freezes the identifier order and lays out the name
string table; returns the initial write state and the resource set with its
caches computed (the Go method mutates the set in place). -/
def ResourceSet.prepare (rs : ResourceSet) : state × ResourceSet :=
  let o := rs.order
  let names := sortNames (allNames o.1).dedup
  let bn := buildNames names o.1.dirSize
  let sz := 2 * bn.2.length
  let nd := bn.2 ++ List.replicate ((alignData sz - sz) / 2) 0
  (⟨0, [], bn.1, nd, o.2.1, o.2.2⟩, o.1)

/-- Total size of the rsrc section content. -/
def ResourceSet.fullSize (rs : ResourceSet) : Nat :=
  let p := rs.prepare
  p.2.dirSize + 2 * p.1.namesData.length +
    (p.2.Types.map (fun t =>
      (t.2.Resources.map (fun r =>
        (r.2.Data.map (fun d => d.2.paddedDataSize)).sum)).sum)).sum

/-! ### Encoder (`ResourceSet.write`) -/

/-- Go map indexing with the zero value for missing keys. -/
def typesGet (rs : ResourceSet) (i : Identifier) : TypeEntry :=
  (alookup i rs.Types).getD ⟨[], none, 0⟩

def resGet (te : TypeEntry) (i : Identifier) : ResourceEntry :=
  (alookup i te.Resources).getD ⟨[], none⟩

def dataGet (re : ResourceEntry) (l : Nat) : DataEntry :=
  (alookup l re.Data).getD ⟨[]⟩

def nameOff (s : state) (n : Name) : Nat := (alookup n s.nameOffset).getD 0

/-- The 16-byte directory table header. -/
def writeDirectoryTable (numNameEntries numIDEntries : Nat) : List Nat :=
  le32 0 ++ le32 0 ++ le16 0 ++ le16 0 ++ le16 numNameEntries ++ le16 numIDEntries

/-- An 8-byte directory entry; the high bit of the id flags a name, the high
bit of the offset flags a subdirectory. -/
def writeDirectoryEntry (id offset : Nat) (isName isSubDir : Bool) : List Nat :=
  le32 (if isName then orBit31 id else id) ++ le32 (if isSubDir then orBit31 offset else offset)

/-- A 16-byte data entry (RVA, size, codepage = 0, reserved = 0). -/
def writeDataEntry (offset dataSize : Nat) : List Nat :=
  le32 offset ++ le32 dataSize ++ le32 0 ++ le32 0

/-- One run of directory entries pointing at subdirectories, advancing the
forward offset by the size of each referenced subtree. -/
def dirEntriesLoop (idv : Identifier → Nat) (isName : Bool) (sz : Identifier → Nat) :
    List Identifier → Nat → List Nat × Nat
  | [], off => ([], off)
  | i :: is, off =>
    let rest := dirEntriesLoop idv isName sz is (off + sz i)
    (writeDirectoryEntry (idv i) off isName true ++ rest.1, rest.2)

/-- `rs.writeTypeDir`: the root (type-level) directory. -/
def ResourceSet.writeTypeDir (rs : ResourceSet) (s : state) : List Nat × state :=
  let tbl := writeDirectoryTable s.namesCount (s.orderedKeys.length - s.namesCount)
  let off0 := s.offset + sizeOfDirTable + s.orderedKeys.length * sizeOfDirEntry
  let r1 := dirEntriesLoop (fun i => nameOff s i.nameVal) true (fun i => (typesGet rs i).size)
    (s.orderedKeys.take s.namesCount) off0
  let r2 := dirEntriesLoop Identifier.idVal false (fun i => (typesGet rs i).size)
    (s.orderedKeys.drop s.namesCount) r1.2
  (tbl ++ r1.1 ++ r2.1, { s with offset := r2.2 })

/-- `te.write`: one type's resource directory. -/
def TypeEntry.write (te : TypeEntry) (s : state) : List Nat × state :=
  let ks := te.OrderedKeys.getD []
  let tbl := writeDirectoryTable te.NamesCount (ks.length - te.NamesCount)
  let r1 := dirEntriesLoop (fun i => nameOff s i.nameVal) true (fun i => (resGet te i).size)
    (ks.take te.NamesCount) s.offset
  let r2 := dirEntriesLoop Identifier.idVal false (fun i => (resGet te i).size)
    (ks.drop te.NamesCount) r1.2
  (tbl ++ r1.1 ++ r2.1, { s with offset := r2.2 })

def resDirsLoop (rs : ResourceSet) : List Identifier → state → List Nat × state
  | [], s => ([], s)
  | t :: ts, s =>
    let a := (typesGet rs t).write s
    let b := resDirsLoop rs ts a.2
    (a.1 ++ b.1, b.2)

/-- `rs.writeResDirs`: all second-level directories, in type order. -/
def ResourceSet.writeResDirs (rs : ResourceSet) (s : state) : List Nat × state :=
  resDirsLoop rs s.orderedKeys s

/-- Leaf directory entries; each referenced offset is recorded in the
relocation list. -/
def langEntriesLoop : List Nat → Nat → List Nat × Nat × List Nat
  | [], off => ([], off, [])
  | lcid :: ls, off =>
    let rest := langEntriesLoop ls (off + sizeOfDataEntry)
    (writeDirectoryEntry lcid off false false ++ rest.1, rest.2.1, off :: rest.2.2)

/-- `re.write`: one resource's language directory. -/
def ResourceEntry.write (re : ResourceEntry) (s : state) : List Nat × state :=
  let tbl := writeDirectoryTable 0 re.Data.length
  let r := langEntriesLoop (re.OrderedKeys.getD []) s.offset
  (tbl ++ r.1, { s with offset := r.2.1, relocAddr := s.relocAddr ++ r.2.2 })

def langDirsInner (te : TypeEntry) : List Identifier → state → List Nat × state
  | [], s => ([], s)
  | r :: rk, s =>
    let a := (resGet te r).write s
    let b := langDirsInner te rk a.2
    (a.1 ++ b.1, b.2)

def langDirsLoop (rs : ResourceSet) : List Identifier → state → List Nat × state
  | [], s => ([], s)
  | t :: ts, s =>
    let te := typesGet rs t
    let a := langDirsInner te (te.OrderedKeys.getD []) s
    let b := langDirsLoop rs ts a.2
    (a.1 ++ b.1, b.2)

/-- `rs.writeLangDirs`: all third-level directories. -/
def ResourceSet.writeLangDirs (rs : ResourceSet) (s : state) : List Nat × state :=
  langDirsLoop rs s.orderedKeys s

/-- `de.write`: one 16-byte data index entry; the offset advances by the
padded data size. -/
def DataEntry.write (de : DataEntry) (s : state) : List Nat × state :=
  (writeDataEntry s.offset de.Data.length, { s with offset := s.offset + de.paddedDataSize })

def dataIndexLangs (re : ResourceEntry) : List Nat → state → List Nat × state
  | [], s => ([], s)
  | l :: ls, s =>
    let a := (dataGet re l).write s
    let b := dataIndexLangs re ls a.2
    (a.1 ++ b.1, b.2)

def dataIndexRes (te : TypeEntry) : List Identifier → state → List Nat × state
  | [], s => ([], s)
  | r :: rk, s =>
    let re := resGet te r
    let a := dataIndexLangs re (re.OrderedKeys.getD []) s
    let b := dataIndexRes te rk a.2
    (a.1 ++ b.1, b.2)

def dataIndexLoop (rs : ResourceSet) : List Identifier → state → List Nat × state
  | [], s => ([], s)
  | t :: ts, s =>
    let te := typesGet rs t
    let a := dataIndexRes te (te.OrderedKeys.getD []) s
    let b := dataIndexLoop rs ts a.2
    (a.1 ++ b.1, b.2)

/-- `rs.writeDataIndex`: the fourth level (data index entries). -/
def ResourceSet.writeDataIndex (rs : ResourceSet) (s : state) : List Nat × state :=
  dataIndexLoop rs s.orderedKeys s

/-- `de.writeData`: the payload followed by its zero padding. -/
def DataEntry.writeData (de : DataEntry) : List Nat :=
  de.Data ++ List.replicate (de.paddedDataSize - de.Data.length) 0

def dataLangs (re : ResourceEntry) : List Nat → List Nat
  | [] => []
  | l :: ls => (dataGet re l).writeData ++ dataLangs re ls

def dataRes (te : TypeEntry) : List Identifier → List Nat
  | [] => []
  | r :: rk =>
    let re := resGet te r
    dataLangs re (re.OrderedKeys.getD []) ++ dataRes te rk

def dataLoop (rs : ResourceSet) : List Identifier → List Nat
  | [] => []
  | t :: ts =>
    let te := typesGet rs t
    dataRes te (te.OrderedKeys.getD []) ++ dataLoop rs ts

/-- `rs.writeData`: all payloads with padding, in canonical order. -/
def ResourceSet.writeData (rs : ResourceSet) (s : state) : List Nat :=
  dataLoop rs s.orderedKeys

/-- `rs.write`: the whole rsrc section content, the relocation address
list, and the resource set as left by the in-place cache computation. -/
def ResourceSet.write (rs : ResourceSet) : List Nat × List Nat × ResourceSet :=
  let p := rs.prepare
  let rs' := p.2
  let a := rs'.writeTypeDir p.1
  let b := rs'.writeResDirs a.2
  let c := rs'.writeLangDirs b.2
  let s3 := { c.2 with offset := c.2.offset + 2 * c.2.namesData.length }
  let d := rs'.writeDataIndex s3
  let e := u16Bytes d.2.namesData
  let f := rs'.writeData d.2
  (a.1 ++ b.1 ++ c.1 ++ d.1 ++ e ++ f, d.2.relocAddr, rs')

/-- `rs.bytes()`: the serialized section and the relocation list. -/
def ResourceSet.bytes (rs : ResourceSet) : List Nat × List Nat :=
  ((rs.write).1, (rs.write).2.1)

/-- The resource set after a serialization, with the caches the Go code
computed in place during `prepare`. -/
def ResourceSet.afterWrite (rs : ResourceSet) : ResourceSet := (rs.write).2.2

/-! ### Decoder (`ResourceSet.read`)

The `bytes.Reader` with `Seek` is modelled by random access into the
section byte list; `binaryRead` (little-endian `binary.Read`, from the
repository's utility file, not under the provided sources) fails with an
EOF error when fewer bytes remain than the read requires. -/

/-- Little-endian `uint16` from two bytes. -/
def decodeU16 : List Nat → Nat
  | [a, b] => a % 256 + b % 256 * 256
  | _ => 0

/-- Little-endian `uint32` from four bytes. -/
def decodeU32 : List Nat → Nat
  | [a, b, c, d] => a % 256 + b % 256 * 256 + c % 256 * 2 ^ 16 + d % 256 * 2 ^ 24
  | _ => 0

/-- `n` consecutive `uint16` values starting at `off`. -/
def u16sAt (B : List Nat) : Nat → Nat → List Nat
  | _, 0 => []
  | off, n + 1 => decodeU16 ((B.drop off).take 2) :: u16sAt B (off + 2) n

/-- A parsed directory entry during decoding. -/
structure dirEntry where
  ident : Identifier
  offset : Nat
  leaf : Bool
deriving DecidableEq

/-- `readName`: a 16-bit length followed by that many UTF-16 code units. -/
def readName (B : List Nat) (off : Nat) : Except WErr Name :=
  if off + 2 ≤ B.length then
    let len := decodeU16 ((B.drop off).take 2)
    if off + 2 + 2 * len ≤ B.length then .ok (u16sAt B (off + 2) len)
    else .error .eof
  else .error .eof

/-- Parsing one run of 8-byte directory entries starting at `e`, validating
the subdirectory flag against the expected depth and rejecting named
identifiers at the leaf level. -/
def parseEntries (leaf : Bool) (B : List Nat) : Nat → Nat → Except WErr (List dirEntry)
  | _, 0 => .ok []
  | e, n + 1 => do
    let idF := decodeU32 ((B.drop e).take 4)
    let offF := decodeU32 ((B.drop (e + 4)).take 4)
    if leaf ≠ decide (offF < 2 ^ 31) then .error .invalidResDir
    else if leaf ∧ 2 ^ 31 ≤ idF then .error .invalidResDir
    else do
      let ident ←
        if idF < 2 ^ 31 then pure (Identifier.id (idF % 2 ^ 16))
        else (readName B (idF % 2 ^ 31)).map Identifier.name
      let rest ← parseEntries leaf B (e + 8) n
      pure (⟨ident, offF % 2 ^ 31, false⟩ :: rest)

/-- `de.readDirTable`: the 16-byte table header at `de.offset`, then its
entries (the Go code reads all entry bytes before validating them). -/
def dirEntry.readDirTable (de : dirEntry) (B : List Nat) : Except WErr (List dirEntry) :=
  if de.offset + 16 ≤ B.length then
    let nName := decodeU16 ((B.drop (de.offset + 12)).take 2)
    let nID := decodeU16 ((B.drop (de.offset + 14)).take 2)
    if de.offset + 16 + 8 * (nName + nID) ≤ B.length then
      parseEntries de.leaf B (de.offset + 16) (nName + nID)
    else .error .eof
  else .error .eof

/-- `walk`: reads one directory table and folds the callback over its
entries, aborting on the first error. -/
def walkList (f : dirEntry → ResourceSet → Except WErr ResourceSet) :
    List dirEntry → ResourceSet → Except WErr ResourceSet
  | [], rs => .ok rs
  | e :: es, rs => do
    let rs' ← f e rs
    walkList f es rs'

def dirEntry.walk (de : dirEntry) (B : List Nat) (rs : ResourceSet)
    (f : dirEntry → ResourceSet → Except WErr ResourceSet) : Except WErr ResourceSet := do
  let entries ← de.readDirTable B
  walkList f entries rs

/-- `de.readData`: reads a 16-byte data record, translates the RVA to a
section-local offset, and rejects out-of-bounds payload ranges. -/
def dirEntry.readData (de : dirEntry) (sec : List Nat) (baseAddress : Nat) :
    Except WErr (List Nat) :=
  if de.offset + 16 ≤ sec.length then
    let rva := decodeU32 ((sec.drop de.offset).take 4)
    let size := decodeU32 ((sec.drop (de.offset + 4)).take 4)
    if rva < baseAddress ∨ (rva - baseAddress) + size > sec.length then
      .error .dataEntryOutOfBounds
    else
      .ok ((sec.drop (rva - baseAddress)).take size)
  else .error .eof

/-- `rs.read`: reconstructs the model from a section, walking the tree
exactly three levels deep with an optional type filter (`ID 0` = none). -/
def ResourceSet.read (rs : ResourceSet) (sec : List Nat) (baseAddress : Nat)
    (typeID : Identifier) : Except WErr ResourceSet :=
  dirEntry.walk ⟨.id 0, 0, false⟩ sec rs (fun typeEntry rs =>
    if typeID ≠ .id 0 ∧ typeEntry.ident ≠ typeID ∧
        (typeEntry.ident ≠ RT_ICON ∨ typeID ≠ RT_GROUP_ICON) ∧
        (typeEntry.ident ≠ RT_CURSOR ∨ typeID ≠ RT_GROUP_CURSOR) then
      .ok rs
    else
      typeEntry.walk sec rs (fun resourceEntry rs =>
        dirEntry.walk { resourceEntry with leaf := true } sec rs (fun langEntry rs => do
          let data ← langEntry.readData sec baseAddress
          rs.Set typeEntry.ident resourceEntry.ident (langEntry.ident.idVal % 2 ^ 16)
            (some data))))

/-! ### Order-theoretic facts about the identifier order -/

theorem ltName_irrefl : ∀ a : Name, ltName a a = false
  | [] => rfl
  | x :: xs => by simp [ltName, ltName_irrefl xs]

theorem ltName_trans : ∀ {a b c : Name},
    ltName a b = true → ltName b c = true → ltName a c = true
  | [], b, c, hab, hbc => by
    cases b <;> cases c <;> simp_all [ltName]
  | x :: xs, [], c, hab, _ => by simp [ltName] at hab
  | x :: xs, y :: ys, [], _, hbc => by simp [ltName] at hbc
  | x :: xs, y :: ys, z :: zs, hab, hbc => by
    simp only [ltName] at hab hbc ⊢
    split_ifs at hab hbc ⊢ <;>
      first
        | rfl
        | omega
        | exact ltName_trans hab hbc
        | simp_all

theorem ltName_eq_of_not : ∀ {a b : Name},
    ltName a b = false → ltName b a = false → a = b
  | [], [], _, _ => rfl
  | [], _ :: _, hab, _ => by simp [ltName] at hab
  | _ :: _, [], _, hba => by simp [ltName] at hba
  | x :: xs, y :: ys, hab, hba => by
    simp only [ltName] at hab hba
    split_ifs at hab hba <;> first
      | omega
      | exact congrArg₂ (· :: ·) (by omega) (ltName_eq_of_not hab hba)

theorem ltName_asymm {a b : Name} (h : ltName a b = true) : ltName b a = false := by
  by_contra hba
  have hba' : ltName b a = true := by
    cases hx : ltName b a <;> simp [hx] at hba ⊢
  have := ltName_trans h hba'
  rw [ltName_irrefl] at this
  exact Bool.false_ne_true this

theorem lessThan_irrefl : ∀ a : Identifier, a.lessThan a = false
  | .id n => by simp [Identifier.lessThan]
  | .name s => by simp [Identifier.lessThan, ltName_irrefl]

theorem lessThan_trans : ∀ {a b c : Identifier},
    a.lessThan b = true → b.lessThan c = true → a.lessThan c = true
  | .id _, .id _, .id _, hab, hbc => by
    simp [Identifier.lessThan] at hab hbc ⊢; omega
  | .id _, .id _, .name _, _, hbc => by simp [Identifier.lessThan] at hbc
  | .id _, .name _, _, hab, _ => by simp [Identifier.lessThan] at hab
  | .name _, .id _, .id _, _, _ => by simp [Identifier.lessThan]
  | .name _, .id _, .name _, _, hbc => by simp [Identifier.lessThan] at hbc
  | .name _, .name _, .id _, _, _ => by simp [Identifier.lessThan]
  | .name _, .name _, .name _, hab, hbc => by
    simp only [Identifier.lessThan] at hab hbc ⊢
    exact ltName_trans hab hbc

theorem lessThan_eq_of_not : ∀ {a b : Identifier},
    a.lessThan b = false → b.lessThan a = false → a = b
  | .id _, .id _, hab, hba => by
    simp [Identifier.lessThan] at hab hba; congr 1; omega
  | .id _, .name _, _, hba => by simp [Identifier.lessThan] at hba
  | .name _, .id _, hab, _ => by simp [Identifier.lessThan] at hab
  | .name _, .name _, hab, hba => by
    simp only [Identifier.lessThan] at hab hba
    exact congrArg Identifier.name (ltName_eq_of_not hab hba)

theorem lessThan_asymm {a b : Identifier} (h : a.lessThan b = true) :
    b.lessThan a = false := by
  by_contra hba
  have hba' : b.lessThan a = true := by
    cases hx : b.lessThan a <;> simp [hx] at hba ⊢
  have := lessThan_trans h hba'
  rw [lessThan_irrefl] at this
  exact Bool.false_ne_true this

instance : IsTotal Identifier idLE :=
  ⟨fun a b => by
    unfold idLE
    cases h : Identifier.lessThan b a with
    | false => exact Or.inl rfl
    | true => exact Or.inr (lessThan_asymm h)⟩

instance : IsTrans Identifier idLE :=
  ⟨fun a b c hab hbc => by
    unfold idLE at *
    cases hca : Identifier.lessThan c a with
    | false => rfl
    | true =>
      cases hbc' : Identifier.lessThan b c with
      | true => rw [lessThan_trans hbc' hca] at hab; exact hab
      | false =>
        have : b = c := lessThan_eq_of_not hbc' hbc
        rw [← this] at hca
        rw [hca] at hab
        exact hab⟩

instance : IsAntisymm Identifier idLE :=
  ⟨fun _ _ hab hba => lessThan_eq_of_not hba hab⟩

instance : IsTotal Name nameLE :=
  ⟨fun a b => by
    unfold nameLE
    cases h : ltName b a with
    | false => exact Or.inl rfl
    | true => exact Or.inr (ltName_asymm h)⟩

instance : IsTrans Name nameLE :=
  ⟨fun a b c hab hbc => by
    unfold nameLE at *
    cases hca : ltName c a with
    | false => rfl
    | true =>
      cases hbc' : ltName b c with
      | true => rw [ltName_trans hbc' hca] at hab; exact hab
      | false =>
        have : b = c := ltName_eq_of_not hbc' hbc
        rw [← this] at hca
        rw [hca] at hab
        exact hab⟩

instance : IsAntisymm Name nameLE :=
  ⟨fun _ _ hab hba => ltName_eq_of_not hba hab⟩

theorem sortIdents_sorted (l : List Identifier) : List.Sorted idLE (sortIdents l) :=
  List.sorted_insertionSort idLE l

theorem sortIdents_perm (l : List Identifier) : List.Perm (sortIdents l) l :=
  List.perm_insertionSort idLE l

/-- Sorting is invariant under permutation: the sorted key sequence depends
only on the key set. -/
theorem sortIdents_eq_of_perm {l₁ l₂ : List Identifier} (h : List.Perm l₁ l₂) :
    sortIdents l₁ = sortIdents l₂ :=
  List.eq_of_perm_of_sorted
    ((sortIdents_perm l₁).trans (h.trans (sortIdents_perm l₂).symm))
    (sortIdents_sorted l₁) (sortIdents_sorted l₂)

theorem sortNames_sorted (l : List Name) : List.Sorted nameLE (sortNames l) :=
  List.sorted_insertionSort nameLE l

theorem sortNames_perm (l : List Name) : List.Perm (sortNames l) l :=
  List.perm_insertionSort nameLE l

theorem sortNames_eq_of_perm {l₁ l₂ : List Name} (h : List.Perm l₁ l₂) :
    sortNames l₁ = sortNames l₂ :=
  List.eq_of_perm_of_sorted
    ((sortNames_perm l₁).trans (h.trans (sortNames_perm l₂).symm))
    (sortNames_sorted l₁) (sortNames_sorted l₂)

theorem sortLangs_sorted (l : List Nat) : List.Sorted (· ≤ ·) (sortLangs l) :=
  List.sorted_insertionSort (· ≤ ·) l

theorem sortLangs_perm (l : List Nat) : List.Perm (sortLangs l) l :=
  List.perm_insertionSort (· ≤ ·) l

theorem sortLangs_eq_of_perm {l₁ l₂ : List Nat} (h : List.Perm l₁ l₂) :
    sortLangs l₁ = sortLangs l₂ :=
  List.eq_of_perm_of_sorted
    ((sortLangs_perm l₁).trans (h.trans (sortLangs_perm l₂).symm))
    (sortLangs_sorted l₁) (sortLangs_sorted l₂)

/-! ### Association list lemmas -/

section AssocLemmas

variable {κ ν : Type} [DecidableEq κ]

theorem alookup_aupsert_self (k : κ) (v : ν) :
    ∀ l : List (κ × ν), alookup k (aupsert k v l) = some v
  | [] => by simp [alookup, aupsert]
  | (k', v') :: l => by
    by_cases h : k' = k
    · simp [alookup, aupsert, h]
    · simp [alookup, aupsert, h, alookup_aupsert_self k v l]

theorem alookup_aupsert_ne {k k' : κ} (v : ν) (hne : k' ≠ k) :
    ∀ l : List (κ × ν), alookup k' (aupsert k v l) = alookup k' l
  | [] => by simp [alookup, aupsert, Ne.symm hne]
  | (k₀, v₀) :: l => by
    by_cases h : k₀ = k
    · subst h
      simp [alookup, aupsert, Ne.symm hne]
    · simp only [aupsert, if_neg h, alookup]
      by_cases h' : k₀ = k'
      · simp [h']
      · simp [h', alookup_aupsert_ne v hne l]

theorem alookup_aerase_ne {k k' : κ} (hne : k' ≠ k) :
    ∀ l : List (κ × ν), alookup k' (aerase k l) = alookup k' l
  | [] => by simp [aerase]
  | (k₀, v₀) :: l => by
    by_cases h : k₀ = k
    · subst h
      simp [aerase, alookup, Ne.symm hne]
    · simp only [aerase, if_neg h, alookup]
      by_cases h' : k₀ = k'
      · simp [h']
      · simp [h', alookup_aerase_ne hne l]

theorem akeys_aerase (k : κ) :
    ∀ l : List (κ × ν), akeys (aerase k l) = (akeys l).erase k
  | [] => by simp [aerase, akeys]
  | (k₀, v₀) :: l => by
    by_cases h : k₀ = k
    · subst h
      simp [aerase, akeys, List.erase_cons_head]
    · have ih := akeys_aerase k l
      show akeys (if k₀ = k then l else (k₀, v₀) :: aerase k l) = _
      rw [if_neg h]
      show k₀ :: akeys (aerase k l) = (k₀ :: akeys l).erase k
      rw [List.erase_cons_tail, ih]
      exact not_beq_of_ne h

theorem alookup_none_iff (k : κ) :
    ∀ l : List (κ × ν), alookup k l = none ↔ k ∉ akeys l
  | [] => by simp [alookup, akeys]
  | (k₀, v₀) :: l => by
    by_cases h : k₀ = k
    · simp [alookup, akeys, h]
    · simp [alookup, akeys, h, alookup_none_iff k l, Ne.symm h]

theorem alookup_aerase_self {k : κ} {l : List (κ × ν)} (hnd : (akeys l).Nodup) :
    alookup k (aerase k l) = none := by
  induction l with
  | nil => simp [aerase, alookup]
  | cons p l ih =>
    obtain ⟨k₀, v₀⟩ := p
    rw [akeys, List.map_cons] at hnd
    by_cases h : k₀ = k
    · subst h
      rw [aerase, if_pos rfl, alookup_none_iff]
      exact (List.nodup_cons.mp hnd).1
    · rw [aerase, if_neg h, alookup, if_neg h]
      exact ih (List.nodup_cons.mp hnd).2

theorem alookup_mem {k : κ} {v : ν} :
    ∀ {l : List (κ × ν)}, alookup k l = some v → (k, v) ∈ l
  | [], h => by simp [alookup] at h
  | (k₀, v₀) :: l, h => by
    by_cases hk : k₀ = k
    · subst hk
      rw [alookup, if_pos rfl, Option.some_inj] at h
      subst h
      exact List.mem_cons_self _ _
    · rw [alookup, if_neg hk] at h
      exact List.mem_cons_of_mem _ (alookup_mem h)

theorem mem_alookup {k : κ} {v : ν} {l : List (κ × ν)} (hnd : (akeys l).Nodup)
    (hm : (k, v) ∈ l) : alookup k l = some v := by
  induction l with
  | nil => simp at hm
  | cons p l ih =>
    obtain ⟨k₀, v₀⟩ := p
    rw [akeys, List.map_cons] at hnd
    rcases List.mem_cons.mp hm with h | h
    · injection h with h1 h2
      subst h1
      subst h2
      rw [alookup, if_pos rfl]
    · have hk : k₀ ≠ k := by
        rintro rfl
        exact (List.nodup_cons.mp hnd).1 (List.mem_map.mpr ⟨(k₀, v), h, rfl⟩)
      rw [alookup, if_neg hk]
      exact ih (List.nodup_cons.mp hnd).2 h

/-- Lookup in a map depends only on the entry set: permuted maps with
distinct keys agree everywhere. -/
theorem alookup_eq_of_perm {l₁ l₂ : List (κ × ν)} (hnd : (akeys l₁).Nodup)
    (hp : List.Perm l₁ l₂) (k : κ) : alookup k l₁ = alookup k l₂ := by
  have hnd₂ : (akeys l₂).Nodup := (hp.map Prod.fst).nodup_iff.mp hnd
  cases h : alookup k l₁ with
  | none =>
    rw [alookup_none_iff] at h
    have : k ∉ akeys l₂ := fun hm => h ((hp.map Prod.fst).mem_iff.mpr hm)
    exact ((alookup_none_iff k l₂).mpr this).symm
  | some v =>
    exact (mem_alookup hnd₂ (hp.mem_iff.mp (alookup_mem h))).symm

theorem akeys_aupsert_mem {k : κ} (v : ν) :
    ∀ {l : List (κ × ν)}, k ∈ akeys l → akeys (aupsert k v l) = akeys l
  | [], h => by simp [akeys] at h
  | (k₀, v₀) :: l, h => by
    by_cases hk : k₀ = k
    · simp [aupsert, hk, akeys]
    · have hm : k ∈ akeys l := by
        rcases List.mem_cons.mp (show k ∈ k₀ :: akeys l from h) with h' | h'
        · exact absurd h'.symm hk
        · exact h'
      show akeys (if k₀ = k then (k₀, v) :: l else (k₀, v₀) :: aupsert k v l) = _
      rw [if_neg hk]
      show k₀ :: akeys (aupsert k v l) = k₀ :: akeys l
      rw [akeys_aupsert_mem v hm]

theorem akeys_aupsert_not_mem {k : κ} (v : ν) :
    ∀ {l : List (κ × ν)}, k ∉ akeys l → akeys (aupsert k v l) = akeys l ++ [k]
  | [], _ => by simp [aupsert, akeys]
  | (k₀, v₀) :: l, h => by
    have hk : k₀ ≠ k := fun he => h (by simp [akeys, he])
    have h' : k ∉ akeys l := fun hm => h (by simp [akeys] at hm ⊢; exact Or.inr hm)
    show akeys (if k₀ = k then (k₀, v) :: l else (k₀, v₀) :: aupsert k v l) = _
    rw [if_neg hk]
    show k₀ :: akeys (aupsert k v l) = (k₀ :: akeys l) ++ [k]
    rw [akeys_aupsert_not_mem v h', List.cons_append]

theorem akeys_aupsert_nodup {k : κ} (v : ν) {l : List (κ × ν)}
    (hnd : (akeys l).Nodup) : (akeys (aupsert k v l)).Nodup := by
  by_cases h : k ∈ akeys l
  · rw [akeys_aupsert_mem v h]; exact hnd
  · rw [akeys_aupsert_not_mem v h]
    exact List.Nodup.append hnd (List.nodup_singleton k)
      (fun a ha hma => h (by rwa [List.mem_singleton.mp hma] at ha))

theorem akeys_aerase_nodup (k : κ) {l : List (κ × ν)}
    (hnd : (akeys l).Nodup) : (akeys (aerase k l)).Nodup := by
  rw [akeys_aerase]
  exact hnd.erase k

end AssocLemmas

/-! ### Membership helpers for map updates -/

section MemLemmas

variable {κ ν : Type} [DecidableEq κ]

theorem mem_aupsert {p : κ × ν} {k : κ} {v : ν} :
    ∀ {l : List (κ × ν)}, p ∈ aupsert k v l → p = (k, v) ∨ p ∈ l
  | [], h => by simpa [aupsert] using h
  | (k₀, v₀) :: l, h => by
    by_cases hk : k₀ = k
    · rw [aupsert, if_pos hk] at h
      rcases List.mem_cons.mp h with h' | h'
      · exact Or.inl (by rw [h', hk])
      · exact Or.inr (List.mem_cons_of_mem _ h')
    · rw [aupsert, if_neg hk] at h
      rcases List.mem_cons.mp h with h' | h'
      · exact Or.inr (h' ▸ List.mem_cons_self _ _)
      · rcases mem_aupsert h' with h'' | h''
        · exact Or.inl h''
        · exact Or.inr (List.mem_cons_of_mem _ h'')

theorem mem_aerase {p : κ × ν} {k : κ} :
    ∀ {l : List (κ × ν)}, p ∈ aerase k l → p ∈ l
  | [], h => by simpa [aerase] using h
  | (k₀, v₀) :: l, h => by
    by_cases hk : k₀ = k
    · rw [aerase, if_pos hk] at h
      exact List.mem_cons_of_mem _ h
    · rw [aerase, if_neg hk] at h
      rcases List.mem_cons.mp h with h' | h'
      · exact h' ▸ List.mem_cons_self _ _
      · exact List.mem_cons_of_mem _ (mem_aerase h')

theorem alookup_mem_akeys {k : κ} {v : ν} {l : List (κ × ν)}
    (h : alookup k l = some v) : k ∈ akeys l :=
  List.mem_map.mpr ⟨(k, v), alookup_mem h, rfl⟩

end MemLemmas

/-! ### Structural invariants of the data model -/

/-- Each level of the map never holds duplicate keys (Go maps cannot). -/
def ResourceSet.keysNodup (rs : ResourceSet) : Prop :=
  (akeys rs.Types).Nodup ∧ ∀ p ∈ rs.Types, (akeys p.2.Resources).Nodup ∧
    ∀ q ∈ p.2.Resources, (akeys q.2.Data).Nodup

/-- The pruning invariant: no type entry with an empty resource mapping and
no resource entry with an empty language mapping. -/
def ResourceSet.noEmpty (rs : ResourceSet) : Prop :=
  ∀ p ∈ rs.Types, p.2.Resources ≠ [] ∧ ∀ q ∈ p.2.Resources, q.2.Data ≠ []

/-- A type-level cache, when present, lists exactly the current resource
keys in identifier order, and the cached count is the number of leading
name keys. -/
def TypeEntry.cacheOK (te : TypeEntry) : Prop :=
  ∀ ks, te.OrderedKeys = some ks →
    ks = sortIdents (akeys te.Resources) ∧
    te.NamesCount = (ks.takeWhile Identifier.isName).length

/-- A resource-level cache, when present, lists exactly the current
language keys in ascending order. -/
def ResourceEntry.cacheOK (re : ResourceEntry) : Prop :=
  ∀ ks, re.OrderedKeys = some ks → ks = sortLangs (akeys re.Data)

/-- All caches present anywhere in the set are accurate. -/
def ResourceSet.cacheOK (rs : ResourceSet) : Prop :=
  ∀ p ∈ rs.Types, p.2.cacheOK ∧ ∀ q ∈ p.2.Resources, q.2.cacheOK

theorem updateCounters_Types (rs : ResourceSet) (t r : Identifier) :
    (updateCounters rs t r).Types = rs.Types := by
  unfold updateCounters
  split
  · split
    · split <;> rfl
    · rfl
  · split
    · split
      · split <;> rfl
      · rfl
    · rfl

/-- The new type entry installed by an insert/replace. -/
def setTE (rs : ResourceSet) (t r : Identifier) (l : Nat) (d : List Nat) : TypeEntry :=
  let te := (alookup t rs.Types).getD ⟨[], none, 0⟩
  let te1 :=
    match alookup r te.Resources with
    | some _ => te
    | none => { te with Resources := aupsert r (⟨[], none⟩ : ResourceEntry) te.Resources,
                        OrderedKeys := none }
  let re := (alookup r te1.Resources).getD ⟨[], none⟩
  let re1 :=
    match alookup l re.Data with
    | some _ => { re with Data := aupsert l (⟨d⟩ : DataEntry) re.Data }
    | none => { re with Data := aupsert l (⟨d⟩ : DataEntry) re.Data, OrderedKeys := none }
  { te1 with Resources := aupsert r re1 te1.Resources }

theorem set_some_Types (rs : ResourceSet) (t r : Identifier) (l : Nat) (d : List Nat) :
    (rs.set t r l (some d)).Types = aupsert t (setTE rs t r l d) rs.Types := by
  simp only [ResourceSet.set, setTE]
  rw [updateCounters_Types]

theorem aupsert_aupsert_self {κ ν : Type} [DecidableEq κ] (k : κ) (v w : ν) :
    ∀ l : List (κ × ν), aupsert k v (aupsert k w l) = aupsert k v l
  | [] => by simp [aupsert]
  | (k₀, v₀) :: l => by
    by_cases h : k₀ = k
    · simp [aupsert, h]
    · simp [aupsert, h, aupsert_aupsert_self k v w l]

/-- A nonempty-key variant of `mem_aupsert`: in a duplicate-free map, an
entry of the updated map is the new pair or an old entry with another key. -/
theorem mem_aupsert_nodup {κ ν : Type} [DecidableEq κ] {p : κ × ν} {k : κ} {v : ν} :
    ∀ {l : List (κ × ν)}, (akeys l).Nodup → p ∈ aupsert k v l →
      p = (k, v) ∨ (p ∈ l ∧ p.1 ≠ k)
  | [], _, h => by
    rw [aupsert] at h
    exact Or.inl (List.mem_singleton.mp h)
  | (k₀, v₀) :: l, hnd, h => by
    have hnd' : (akeys l).Nodup := (List.nodup_cons.mp hnd).2
    have hk₀ : k₀ ∉ akeys l := (List.nodup_cons.mp hnd).1
    by_cases hk : k₀ = k
    · subst hk
      rw [aupsert, if_pos rfl] at h
      rcases List.mem_cons.mp h with h' | h'
      · exact Or.inl h'
      · refine Or.inr ⟨List.mem_cons_of_mem _ h', fun he => ?_⟩
        exact hk₀ (he ▸ List.mem_map.mpr ⟨p, h', rfl⟩)
    · rw [aupsert, if_neg hk] at h
      rcases List.mem_cons.mp h with h' | h'
      · exact Or.inr ⟨h' ▸ List.mem_cons_self _ _, by rw [h']; exact hk⟩
      · rcases mem_aupsert_nodup hnd' h' with h'' | ⟨hm, hne⟩
        · exact Or.inl h''
        · exact Or.inr ⟨List.mem_cons_of_mem _ hm, hne⟩

theorem aupsert_ne_nil {κ ν : Type} [DecidableEq κ] (k : κ) (v : ν) :
    ∀ l : List (κ × ν), aupsert k v l ≠ []
  | [] => by simp [aupsert]
  | (k₀, v₀) :: l => by
    by_cases h : k₀ = k <;> simp [aupsert, h]

/-! ### Shape of `set` and `delete` -/

theorem setTE_new_type {rs : ResourceSet} {t : Identifier} (r : Identifier) (l : Nat)
    (d : List Nat) (ht : alookup t rs.Types = none) :
    setTE rs t r l d =
      ⟨[(r, ⟨[(l, ⟨d⟩)], none⟩)], none, 0⟩ := by
  unfold setTE
  rw [ht]
  simp [alookup, aupsert, alookup_aupsert_self]

theorem setTE_new_res {rs : ResourceSet} {t r : Identifier} {te : TypeEntry} (l : Nat)
    (d : List Nat) (ht : alookup t rs.Types = some te)
    (hr : alookup r te.Resources = none) :
    setTE rs t r l d =
      ⟨aupsert r (⟨[(l, ⟨d⟩)], none⟩ : ResourceEntry) te.Resources, none, te.NamesCount⟩ := by
  unfold setTE
  rw [ht]
  simp only [Option.getD_some, hr]
  rw [alookup_aupsert_self]
  simp only [Option.getD_some, alookup]
  show TypeEntry.mk (aupsert r _ (aupsert r _ te.Resources)) none te.NamesCount = _
  rw [aupsert_aupsert_self]
  simp [aupsert]

theorem setTE_new_lang {rs : ResourceSet} {t r : Identifier} {te : TypeEntry}
    {re : ResourceEntry} {l : Nat} (d : List Nat) (ht : alookup t rs.Types = some te)
    (hr : alookup r te.Resources = some re) (hl : alookup l re.Data = none) :
    setTE rs t r l d =
      ⟨aupsert r (⟨aupsert l ⟨d⟩ re.Data, none⟩ : ResourceEntry) te.Resources,
        te.OrderedKeys, te.NamesCount⟩ := by
  unfold setTE
  rw [ht]
  simp only [Option.getD_some, hr, hl]

theorem setTE_replace {rs : ResourceSet} {t r : Identifier} {te : TypeEntry}
    {re : ResourceEntry} {l : Nat} {de : DataEntry} (d : List Nat)
    (ht : alookup t rs.Types = some te) (hr : alookup r te.Resources = some re)
    (hl : alookup l re.Data = some de) :
    setTE rs t r l d =
      ⟨aupsert r (⟨aupsert l ⟨d⟩ re.Data, re.OrderedKeys⟩ : ResourceEntry) te.Resources,
        te.OrderedKeys, te.NamesCount⟩ := by
  unfold setTE
  rw [ht]
  simp only [Option.getD_some, hr, hl]

theorem delete_noop_type {rs : ResourceSet} {t r : Identifier} {l : Nat}
    (ht : alookup t rs.Types = none) : rs.delete t r l = rs := by
  unfold ResourceSet.delete
  rw [ht]

theorem delete_noop_res {rs : ResourceSet} {t r : Identifier} {l : Nat} {te : TypeEntry}
    (ht : alookup t rs.Types = some te) (hr : alookup r te.Resources = none) :
    rs.delete t r l = rs := by
  unfold ResourceSet.delete
  simp only [ht, hr]

theorem delete_lang {rs : ResourceSet} {t r : Identifier} {l : Nat} {te : TypeEntry}
    {re : ResourceEntry} (ht : alookup t rs.Types = some te)
    (hr : alookup r te.Resources = some re) (hne : aerase l re.Data ≠ []) :
    rs.delete t r l =
      ⟨aupsert t
          (⟨aupsert r (⟨aerase l re.Data, none⟩ : ResourceEntry) te.Resources,
            te.OrderedKeys, te.NamesCount⟩ : TypeEntry) rs.Types,
        rs.lastIconID, rs.lastCursorID⟩ := by
  unfold ResourceSet.delete
  simp only [ht, hr, ne_eq]
  rw [if_pos hne]

theorem delete_res {rs : ResourceSet} {t r : Identifier} {l : Nat} {te : TypeEntry}
    {re : ResourceEntry} (ht : alookup t rs.Types = some te)
    (hr : alookup r te.Resources = some re) (hemp : aerase l re.Data = [])
    (hne : aerase r te.Resources ≠ []) :
    rs.delete t r l =
      ⟨aupsert t (⟨aerase r te.Resources, none, te.NamesCount⟩ : TypeEntry) rs.Types,
        rs.lastIconID, rs.lastCursorID⟩ := by
  unfold ResourceSet.delete
  simp only [ht, hr, hemp, ne_eq]
  rw [if_neg (by simp), if_pos hne]

theorem delete_type {rs : ResourceSet} {t r : Identifier} {l : Nat} {te : TypeEntry}
    {re : ResourceEntry} (ht : alookup t rs.Types = some te)
    (hr : alookup r te.Resources = some re) (hemp : aerase l re.Data = [])
    (hemp2 : aerase r te.Resources = []) :
    rs.delete t r l = ⟨aerase t rs.Types, rs.lastIconID, rs.lastCursorID⟩ := by
  unfold ResourceSet.delete
  simp only [ht, hr, hemp, hemp2, ne_eq]
  rw [if_neg (by simp), if_neg (by simp)]

/-! ### Preservation of structural invariants by `set` -/

theorem aerase_eq_nil {κ ν : Type} [DecidableEq κ] {k : κ} :
    ∀ {l : List (κ × ν)}, aerase k l = [] → l = [] ∨ ∃ v, l = [(k, v)]
  | [], _ => Or.inl rfl
  | (k₀, v₀) :: l, h => by
    by_cases hk : k₀ = k
    · subst hk
      rw [aerase, if_pos rfl] at h
      exact Or.inr ⟨v₀, by rw [h]⟩
    · rw [aerase, if_neg hk] at h
      exact absurd h (List.cons_ne_nil _ _)

theorem keysNodup_setTE {rs : ResourceSet} (t r : Identifier) (l : Nat) (d : List Nat)
    (hnd : rs.keysNodup) :
    (akeys (setTE rs t r l d).Resources).Nodup ∧
      ∀ q ∈ (setTE rs t r l d).Resources, (akeys q.2.Data).Nodup := by
  cases ht : alookup t rs.Types with
  | none =>
    rw [setTE_new_type r l d ht]
    constructor
    · simp [akeys]
    · intro q hq
      rw [List.mem_singleton.mp hq]
      simp [akeys]
  | some te =>
    have hte := hnd.2 _ (alookup_mem ht)
    cases hr : alookup r te.Resources with
    | none =>
      rw [setTE_new_res l d ht hr]
      constructor
      · exact akeys_aupsert_nodup _ hte.1
      · intro q hq
        rcases mem_aupsert hq with h | h
        · rw [h]; simp [akeys]
        · exact hte.2 q h
    | some re =>
      have hre := hte.2 _ (alookup_mem hr)
      cases hl : alookup l re.Data with
      | none =>
        rw [setTE_new_lang d ht hr hl]
        constructor
        · exact akeys_aupsert_nodup _ hte.1
        · intro q hq
          rcases mem_aupsert hq with h | h
          · rw [h]; exact akeys_aupsert_nodup _ hre
          · exact hte.2 q h
      | some de =>
        rw [setTE_replace d ht hr hl]
        constructor
        · exact akeys_aupsert_nodup _ hte.1
        · intro q hq
          rcases mem_aupsert hq with h | h
          · rw [h]; exact akeys_aupsert_nodup _ hre
          · exact hte.2 q h

theorem keysNodup_set (rs : ResourceSet) (t r : Identifier) (l : Nat)
    (d : Option (List Nat)) (hnd : rs.keysNodup) : (rs.set t r l d).keysNodup := by
  cases d with
  | some d =>
    have hTE := keysNodup_setTE t r l d hnd
    constructor
    · rw [set_some_Types]
      exact akeys_aupsert_nodup _ hnd.1
    · intro p hp
      rw [set_some_Types] at hp
      rcases mem_aupsert hp with h | h
      · rw [h]; exact hTE
      · exact hnd.2 p h
  | none =>
    show (rs.delete t r l).keysNodup
    cases ht : alookup t rs.Types with
    | none => rw [delete_noop_type ht]; exact hnd
    | some te =>
      have hte := hnd.2 _ (alookup_mem ht)
      cases hr : alookup r te.Resources with
      | none => rw [delete_noop_res ht hr]; exact hnd
      | some re =>
        have hre := hte.2 _ (alookup_mem hr)
        by_cases hemp : aerase l re.Data = []
        · by_cases hemp2 : aerase r te.Resources = []
          · rw [delete_type ht hr hemp hemp2]
            refine ⟨akeys_aerase_nodup t hnd.1, fun p hp => hnd.2 p (mem_aerase hp)⟩
          · rw [delete_res ht hr hemp hemp2]
            constructor
            · exact akeys_aupsert_nodup _ hnd.1
            · intro p hp
              rcases mem_aupsert hp with h | h
              · rw [h]
                exact ⟨akeys_aerase_nodup r hte.1,
                  fun q hq => hte.2 q (mem_aerase hq)⟩
              · exact hnd.2 p h
        · rw [delete_lang ht hr hemp]
          constructor
          · exact akeys_aupsert_nodup _ hnd.1
          · intro p hp
            rcases mem_aupsert hp with h | h
            · rw [h]
              refine ⟨akeys_aupsert_nodup _ hte.1, fun q hq => ?_⟩
              rcases mem_aupsert hq with h' | h'
              · rw [h']
                exact akeys_aerase_nodup l hre
              · exact hte.2 q h'
            · exact hnd.2 p h

theorem noEmpty_setTE {rs : ResourceSet} (t r : Identifier) (l : Nat) (d : List Nat)
    (hne : rs.noEmpty) :
    (setTE rs t r l d).Resources ≠ [] ∧
      ∀ q ∈ (setTE rs t r l d).Resources, q.2.Data ≠ [] := by
  cases ht : alookup t rs.Types with
  | none =>
    rw [setTE_new_type r l d ht]
    exact ⟨List.cons_ne_nil _ _, fun q hq => by rw [List.mem_singleton.mp hq]; simp⟩
  | some te =>
    have hte := hne _ (alookup_mem ht)
    cases hr : alookup r te.Resources with
    | none =>
      rw [setTE_new_res l d ht hr]
      refine ⟨aupsert_ne_nil _ _ _, fun q hq => ?_⟩
      rcases mem_aupsert hq with h | h
      · rw [h]; simp
      · exact hte.2 q h
    | some re =>
      cases hl : alookup l re.Data with
      | none =>
        rw [setTE_new_lang d ht hr hl]
        refine ⟨aupsert_ne_nil _ _ _, fun q hq => ?_⟩
        rcases mem_aupsert hq with h | h
        · rw [h]; exact aupsert_ne_nil _ _ _
        · exact hte.2 q h
      | some de =>
        rw [setTE_replace d ht hr hl]
        refine ⟨aupsert_ne_nil _ _ _, fun q hq => ?_⟩
        rcases mem_aupsert hq with h | h
        · rw [h]; exact aupsert_ne_nil _ _ _
        · exact hte.2 q h

theorem noEmpty_set (rs : ResourceSet) (t r : Identifier) (l : Nat)
    (d : Option (List Nat)) (hne : rs.noEmpty) : (rs.set t r l d).noEmpty := by
  cases d with
  | some d =>
    intro p hp
    rw [set_some_Types] at hp
    rcases mem_aupsert hp with h | h
    · rw [h]; exact noEmpty_setTE t r l d hne
    · exact hne p h
  | none =>
    show (rs.delete t r l).noEmpty
    cases ht : alookup t rs.Types with
    | none => rw [delete_noop_type ht]; exact hne
    | some te =>
      have hte := hne _ (alookup_mem ht)
      cases hr : alookup r te.Resources with
      | none => rw [delete_noop_res ht hr]; exact hne
      | some re =>
        by_cases hemp : aerase l re.Data = []
        · by_cases hemp2 : aerase r te.Resources = []
          · rw [delete_type ht hr hemp hemp2]
            exact fun p hp => hne p (mem_aerase hp)
          · rw [delete_res ht hr hemp hemp2]
            intro p hp
            rcases mem_aupsert hp with h | h
            · rw [h]
              exact ⟨hemp2, fun q hq => hte.2 q (mem_aerase hq)⟩
            · exact hne p h
        · rw [delete_lang ht hr hemp]
          intro p hp
          rcases mem_aupsert hp with h | h
          · rw [h]
            refine ⟨aupsert_ne_nil _ _ _, fun q hq => ?_⟩
            rcases mem_aupsert hq with h' | h'
            · rw [h']; exact hemp
            · exact hte.2 q h'
          · exact hne p h

theorem cacheOK_setTE {rs : ResourceSet} (t r : Identifier) (l : Nat) (d : List Nat)
    (hok : rs.cacheOK) :
    (setTE rs t r l d).cacheOK ∧ ∀ q ∈ (setTE rs t r l d).Resources, q.2.cacheOK := by
  cases ht : alookup t rs.Types with
  | none =>
    rw [setTE_new_type r l d ht]
    refine ⟨fun ks h => by simp at h, fun q hq => ?_⟩
    rw [List.mem_singleton.mp hq]
    exact fun ks h => by simp at h
  | some te =>
    have hte := hok _ (alookup_mem ht)
    cases hr : alookup r te.Resources with
    | none =>
      rw [setTE_new_res l d ht hr]
      refine ⟨fun ks h => by simp at h, fun q hq => ?_⟩
      rcases mem_aupsert hq with h | h
      · rw [h]; exact fun ks h' => by simp at h'
      · exact hte.2 q h
    | some re =>
      have hre := hte.2 _ (alookup_mem hr)
      have hkeys : akeys (aupsert r (⟨aupsert l (⟨d⟩ : DataEntry) re.Data, none⟩ :
          ResourceEntry) te.Resources) = akeys te.Resources :=
        akeys_aupsert_mem _ (alookup_mem_akeys hr)
      have hkeys2 : akeys (aupsert r (⟨aupsert l (⟨d⟩ : DataEntry) re.Data,
          re.OrderedKeys⟩ : ResourceEntry) te.Resources) = akeys te.Resources :=
        akeys_aupsert_mem _ (alookup_mem_akeys hr)
      cases hl : alookup l re.Data with
      | none =>
        rw [setTE_new_lang d ht hr hl]
        refine ⟨fun ks h => ?_, fun q hq => ?_⟩
        · obtain ⟨h1, h2⟩ := hte.1 ks h
          refine ⟨?_, h2⟩
          rw [h1]
          show sortIdents (akeys te.Resources) =
            sortIdents (akeys (aupsert r (⟨aupsert l (⟨d⟩ : DataEntry) re.Data,
              none⟩ : ResourceEntry) te.Resources))
          rw [hkeys]
        · rcases mem_aupsert hq with h | h
          · rw [h]; exact fun ks h' => by simp at h'
          · exact hte.2 q h
      | some de =>
        rw [setTE_replace d ht hr hl]
        refine ⟨fun ks h => ?_, fun q hq => ?_⟩
        · obtain ⟨h1, h2⟩ := hte.1 ks h
          refine ⟨?_, h2⟩
          rw [h1]
          show sortIdents (akeys te.Resources) =
            sortIdents (akeys (aupsert r (⟨aupsert l (⟨d⟩ : DataEntry) re.Data,
              re.OrderedKeys⟩ : ResourceEntry) te.Resources))
          rw [hkeys2]
        · rcases mem_aupsert hq with h | h
          · rw [h]
            intro ks h'
            have := hre ks h'
            rw [this]
            show sortLangs (akeys re.Data) =
              sortLangs (akeys (aupsert l (⟨d⟩ : DataEntry) re.Data))
            rw [akeys_aupsert_mem _ (alookup_mem_akeys hl)]
          · exact hte.2 q h

theorem cacheOK_set (rs : ResourceSet) (t r : Identifier) (l : Nat)
    (d : Option (List Nat)) (hok : rs.cacheOK) : (rs.set t r l d).cacheOK := by
  cases d with
  | some d =>
    intro p hp
    rw [set_some_Types] at hp
    rcases mem_aupsert hp with h | h
    · rw [h]; exact cacheOK_setTE t r l d hok
    · exact hok p h
  | none =>
    show (rs.delete t r l).cacheOK
    cases ht : alookup t rs.Types with
    | none => rw [delete_noop_type ht]; exact hok
    | some te =>
      have hte := hok _ (alookup_mem ht)
      cases hr : alookup r te.Resources with
      | none => rw [delete_noop_res ht hr]; exact hok
      | some re =>
        by_cases hemp : aerase l re.Data = []
        · by_cases hemp2 : aerase r te.Resources = []
          · rw [delete_type ht hr hemp hemp2]
            exact fun p hp => hok p (mem_aerase hp)
          · rw [delete_res ht hr hemp hemp2]
            intro p hp
            rcases mem_aupsert hp with h | h
            · rw [h]
              exact ⟨fun ks h' => by simp at h',
                fun q hq => hte.2 q (mem_aerase hq)⟩
            · exact hok p h
        · rw [delete_lang ht hr hemp]
          intro p hp
          rcases mem_aupsert hp with h | h
          · rw [h]
            refine ⟨fun ks h' => ?_, fun q hq => ?_⟩
            · obtain ⟨h1, h2⟩ := hte.1 ks h'
              refine ⟨?_, h2⟩
              rw [h1]
              show sortIdents (akeys te.Resources) =
                sortIdents (akeys (aupsert r (⟨aerase l re.Data, none⟩ :
                  ResourceEntry) te.Resources))
              rw [akeys_aupsert_mem _ (alookup_mem_akeys hr)]
            · rcases mem_aupsert hq with h' | h'
              · rw [h']; exact fun ks hk => by simp at hk
              · exact hte.2 q h'
          · exact hok p h

/-! ### Point-wise behavior of `set` and `delete` on `Get` -/

theorem Get_eq (rs : ResourceSet) (t r : Identifier) (l : Nat) :
    rs.Get t r l =
      (alookup t rs.Types).bind (fun te => (alookup r te.Resources).bind
        (fun re => (alookup l re.Data).map (fun de => de.Data))) := by
  unfold ResourceSet.Get
  cases alookup t rs.Types with
  | none => rfl
  | some te =>
    show (match alookup r te.Resources with
      | none => none
      | some re =>
        match alookup l re.Data with
        | none => none
        | some de => some de.Data) =
      (alookup r te.Resources).bind fun re => (alookup l re.Data).map fun de => de.Data
    cases alookup r te.Resources with
    | none => rfl
    | some re =>
      show (match alookup l re.Data with
        | none => none
        | some de => some de.Data) =
        (alookup l re.Data).map fun de => de.Data
      cases alookup l re.Data with
      | none => rfl
      | some de => rfl

theorem Get_set_some_self (rs : ResourceSet) (t r : Identifier) (l : Nat) (d : List Nat) :
    (rs.set t r l (some d)).Get t r l = some d := by
  rw [Get_eq, set_some_Types, alookup_aupsert_self, Option.some_bind]
  cases ht : alookup t rs.Types with
  | none =>
    rw [setTE_new_type r l d ht]
    simp [alookup, alookup_aupsert_self]
  | some te =>
    cases hr : alookup r te.Resources with
    | none =>
      rw [setTE_new_res l d ht hr]
      show (alookup r (aupsert r _ te.Resources)).bind _ = some d
      rw [alookup_aupsert_self, Option.some_bind]
      simp [alookup]
    | some re =>
      cases hl : alookup l re.Data with
      | none =>
        rw [setTE_new_lang d ht hr hl]
        show (alookup r (aupsert r _ te.Resources)).bind _ = some d
        rw [alookup_aupsert_self, Option.some_bind]
        show (alookup l (aupsert l (⟨d⟩ : DataEntry) re.Data)).map _ = some d
        rw [alookup_aupsert_self, Option.map_some']
      | some de =>
        rw [setTE_replace d ht hr hl]
        show (alookup r (aupsert r _ te.Resources)).bind _ = some d
        rw [alookup_aupsert_self, Option.some_bind]
        show (alookup l (aupsert l (⟨d⟩ : DataEntry) re.Data)).map _ = some d
        rw [alookup_aupsert_self, Option.map_some']

theorem Get_set_some_ne (rs : ResourceSet) {t r : Identifier} {l : Nat} (d : List Nat)
    {t' r' : Identifier} {l' : Nat} (hne : ¬(t' = t ∧ r' = r ∧ l' = l)) :
    (rs.set t r l (some d)).Get t' r' l' = rs.Get t' r' l' := by
  rw [Get_eq, Get_eq, set_some_Types]
  by_cases htt : t' = t
  case neg => rw [alookup_aupsert_ne _ htt]
  case pos =>
    subst htt
    rw [alookup_aupsert_self, Option.some_bind]
    cases ht : alookup t' rs.Types with
    | none =>
      rw [setTE_new_type r l d ht, Option.none_bind]
      by_cases hrr : r' = r
      · subst hrr
        show (alookup r' [(r', (⟨[(l, ⟨d⟩)], none⟩ : ResourceEntry))]).bind _ = none
        rw [show alookup r' [(r', (⟨[(l, ⟨d⟩)], none⟩ : ResourceEntry))] =
          some (⟨[(l, ⟨d⟩)], none⟩ : ResourceEntry) from by simp [alookup]]
        rw [Option.some_bind]
        have hll : l' ≠ l := fun he => hne ⟨rfl, rfl, he⟩
        simp [alookup, Ne.symm hll]
      · show (alookup r' [(r, (⟨[(l, ⟨d⟩)], none⟩ : ResourceEntry))]).bind _ = none
        simp [alookup, Ne.symm hrr]
    | some te =>
      rw [Option.some_bind]
      have hshape : ∃ reNew, setTE rs t' r l d =
          (⟨aupsert r reNew te.Resources, (setTE rs t' r l d).OrderedKeys,
            (setTE rs t' r l d).NamesCount⟩ : TypeEntry) ∧
          reNew.Data = aupsert l (⟨d⟩ : DataEntry)
            ((alookup r te.Resources).getD (⟨[], none⟩ : ResourceEntry)).Data := by
        cases hr : alookup r te.Resources with
        | none => exact ⟨_, by rw [setTE_new_res l d ht hr], by simp [aupsert]⟩
        | some re =>
          cases hl : alookup l re.Data with
          | none => exact ⟨_, by rw [setTE_new_lang d ht hr hl], rfl⟩
          | some de => exact ⟨_, by rw [setTE_replace d ht hr hl], rfl⟩
      obtain ⟨reNew, hsh, hdat⟩ := hshape
      rw [hsh]
      by_cases hrr : r' = r
      · subst hrr
        show (alookup r' (aupsert r' reNew te.Resources)).bind _ = _
        rw [alookup_aupsert_self, Option.some_bind, hdat]
        have hll : l' ≠ l := fun he => hne ⟨rfl, rfl, he⟩
        rw [alookup_aupsert_ne _ hll]
        cases hr : alookup r' te.Resources with
        | none => simp [alookup]
        | some re => rfl
      · show (alookup r' (aupsert r reNew te.Resources)).bind _ = _
        rw [alookup_aupsert_ne _ hrr]

theorem Get_delete_self (rs : ResourceSet) (t r : Identifier) (l : Nat)
    (hnd : rs.keysNodup) : (rs.set t r l none).Get t r l = none := by
  show (rs.delete t r l).Get t r l = none
  rw [Get_eq]
  cases ht : alookup t rs.Types with
  | none => rw [delete_noop_type ht, ht, Option.none_bind]
  | some te =>
    have hte := hnd.2 _ (alookup_mem ht)
    cases hr : alookup r te.Resources with
    | none => rw [delete_noop_res ht hr, ht, Option.some_bind, hr, Option.none_bind]
    | some re =>
      have hre := hte.2 _ (alookup_mem hr)
      by_cases hemp : aerase l re.Data = []
      · by_cases hemp2 : aerase r te.Resources = []
        · rw [delete_type ht hr hemp hemp2]
          show (alookup t (aerase t rs.Types)).bind _ = none
          rw [alookup_aerase_self hnd.1, Option.none_bind]
        · rw [delete_res ht hr hemp hemp2]
          show (alookup t (aupsert t _ rs.Types)).bind _ = none
          rw [alookup_aupsert_self, Option.some_bind]
          show (alookup r (aerase r te.Resources)).bind _ = none
          rw [alookup_aerase_self hte.1, Option.none_bind]
      · rw [delete_lang ht hr hemp]
        show (alookup t (aupsert t _ rs.Types)).bind _ = none
        rw [alookup_aupsert_self, Option.some_bind]
        show (alookup r (aupsert r (⟨aerase l re.Data, none⟩ : ResourceEntry)
          te.Resources)).bind _ = none
        rw [alookup_aupsert_self, Option.some_bind]
        show (alookup l (aerase l re.Data)).map _ = none
        rw [alookup_aerase_self hre, Option.map_none']

theorem Get_delete_ne (rs : ResourceSet) {t r : Identifier} {l : Nat}
    {t' r' : Identifier} {l' : Nat} (hnd : rs.keysNodup)
    (hne : ¬(t' = t ∧ r' = r ∧ l' = l)) :
    (rs.set t r l none).Get t' r' l' = rs.Get t' r' l' := by
  show (rs.delete t r l).Get t' r' l' = rs.Get t' r' l'
  cases ht : alookup t rs.Types with
  | none => rw [delete_noop_type ht]
  | some te =>
    have hte := hnd.2 _ (alookup_mem ht)
    cases hr : alookup r te.Resources with
    | none => rw [delete_noop_res ht hr]
    | some re =>
      have hre := hte.2 _ (alookup_mem hr)
      rw [Get_eq, Get_eq]
      by_cases hemp : aerase l re.Data = []
      · by_cases hemp2 : aerase r te.Resources = []
        · rw [delete_type ht hr hemp hemp2]
          by_cases htt : t' = t
          · subst htt
            show (alookup t' (aerase t' rs.Types)).bind _ = _
            rw [alookup_aerase_self hnd.1, ht, Option.none_bind, Option.some_bind]
            rcases aerase_eq_nil hemp2 with hres | ⟨re₀, hres⟩
            · rw [hres]
              simp [alookup]
            · have hre₀ : re₀ = re := by
                rw [hres] at hr
                simpa [alookup] using hr
              rw [hres]
              by_cases hrr : r' = r
              · subst hrr
                rw [show alookup r' [(r', re₀)] = some re₀ from by simp [alookup],
                  Option.some_bind, hre₀]
                rcases aerase_eq_nil hemp with hdat | ⟨de₀, hdat⟩
                · rw [hdat]
                  simp [alookup]
                · rw [hdat]
                  have hll : l' ≠ l := fun he => hne ⟨rfl, rfl, he⟩
                  simp [alookup, Ne.symm hll]
              · rw [show alookup r' [(r, re₀)] = none from by
                  simp [alookup, Ne.symm hrr], Option.none_bind]
          · show (alookup t' (aerase t rs.Types)).bind _ = _
            rw [alookup_aerase_ne htt]
        · rw [delete_res ht hr hemp hemp2]
          by_cases htt : t' = t
          · subst htt
            show (alookup t' (aupsert t' _ rs.Types)).bind _ = _
            rw [alookup_aupsert_self, ht, Option.some_bind, Option.some_bind]
            by_cases hrr : r' = r
            · subst hrr
              show (alookup r' (aerase r' te.Resources)).bind _ = _
              rw [alookup_aerase_self hte.1, hr, Option.none_bind, Option.some_bind]
              rcases aerase_eq_nil hemp with hdat | ⟨de₀, hdat⟩
              · rw [hdat]
                simp [alookup]
              · rw [hdat]
                have hll : l' ≠ l := fun he => hne ⟨rfl, rfl, he⟩
                simp [alookup, Ne.symm hll]
            · show (alookup r' (aerase r te.Resources)).bind _ = _
              rw [alookup_aerase_ne hrr]
          · show (alookup t' (aupsert t _ rs.Types)).bind _ = _
            rw [alookup_aupsert_ne _ htt]
      · rw [delete_lang ht hr hemp]
        by_cases htt : t' = t
        · subst htt
          show (alookup t' (aupsert t' _ rs.Types)).bind _ = _
          rw [alookup_aupsert_self, ht, Option.some_bind, Option.some_bind]
          by_cases hrr : r' = r
          · subst hrr
            show (alookup r' (aupsert r' (⟨aerase l re.Data, none⟩ : ResourceEntry)
              te.Resources)).bind _ = _
            rw [alookup_aupsert_self, hr, Option.some_bind, Option.some_bind]
            have hll : l' ≠ l := fun he => hne ⟨rfl, rfl, he⟩
            show (alookup l' (aerase l re.Data)).map _ = _
            rw [alookup_aerase_ne hll]
          · show (alookup r' (aupsert r _ te.Resources)).bind _ = _
            rw [alookup_aupsert_ne _ hrr]
        · show (alookup t' (aupsert t _ rs.Types)).bind _ = _
          rw [alookup_aupsert_ne _ htt]

/-! ### Canonical (logical) content of a resource set

The canonical nested listing of a set's content: the triples with their
payloads, in the identifier order used for serialization, ignoring caches
and counters.  Two sets with the same canonical content hold the same set
of (type, id, language) triples with the same payload bytes. -/

def ResourceSet.canon (rs : ResourceSet) :
    List (Identifier × List (Identifier × List (Nat × List Nat))) :=
  (sortIdents (akeys rs.Types)).map (fun t =>
    (t,
      (sortIdents (akeys (typesGet rs t).Resources)).map (fun r =>
        (r,
          (sortLangs (akeys (resGet (typesGet rs t) r).Data)).map (fun l =>
            (l, (dataGet (resGet (typesGet rs t) r) l).Data))))))

instance : DecidableEq (Identifier × List (Nat × List Nat)) := inferInstance

instance : DecidableEq (Identifier × List (Identifier × List (Nat × List Nat))) :=
  inferInstance

instance (rs : ResourceSet) : Decidable rs.keysNodup := by
  unfold ResourceSet.keysNodup
  infer_instance

instance (rs : ResourceSet) : Decidable rs.noEmpty := by
  unfold ResourceSet.noEmpty
  infer_instance

/-! ### Names sort before ordinals in a sorted identifier sequence -/

theorem idLE_id_of_id {a b : Identifier} (ha : a.isName = false) (h : idLE a b) :
    b.isName = false := by
  cases b with
  | id n => rfl
  | name s =>
    cases a with
    | id m => simp [idLE, Identifier.lessThan] at h
    | name s' => simp [Identifier.isName] at ha

theorem sorted_split : ∀ ks : List Identifier, ks.Sorted idLE →
    ks = ks.filter Identifier.isName ++ ks.filter (fun i => !i.isName) ∧
      ks.takeWhile Identifier.isName = ks.filter Identifier.isName
  | [], _ => by simp
  | a :: ks, h => by
    have ha := List.rel_of_sorted_cons h
    have ih := sorted_split ks (List.Sorted.of_cons h)
    cases hn : a.isName with
    | true =>
      constructor
      · rw [List.filter_cons_of_pos (by simp [hn]), List.filter_cons_of_neg (by simp [hn]),
          List.cons_append]
        exact congrArg (a :: ·) ih.1
      · rw [List.takeWhile_cons_of_pos hn, List.filter_cons_of_pos (by simp [hn])]
        exact congrArg (a :: ·) ih.2
    | false =>
      have hids : ∀ b ∈ ks, b.isName = false := fun b hb =>
        idLE_id_of_id hn (ha b hb)
      have hfil : ks.filter Identifier.isName = [] :=
        List.filter_eq_nil.mpr (fun b hb => by simp [hids b hb])
      have hfil2 : ks.filter (fun i => !i.isName) = ks :=
        List.filter_eq_self.mpr (fun b hb => by simp [hids b hb])
      constructor
      · rw [List.filter_cons_of_neg (by simp [hn]),
          List.filter_cons_of_pos (by simp [hn]), hfil, hfil2]
        simp
      · rw [List.takeWhile_cons_of_neg (by simp [hn]),
          List.filter_cons_of_neg (by simp [hn]), hfil]

/-- Arithmetic and length facts about one padded payload, shared by the
alignment claim and the layout lemmas. -/
theorem paddedDataSize_props (de : DataEntry) :
    de.paddedDataSize % 8 = 0 ∧ de.Data.length ≤ de.paddedDataSize ∧
    de.paddedDataSize - de.Data.length < 8 ∧
    de.writeData.length = de.paddedDataSize := by
  have h := Nat.div_add_mod (de.Data.length + 7) 8
  have hm : (de.Data.length + 7) % 8 < 8 := Nat.mod_lt _ (by omega)
  have hps : de.paddedDataSize =
      (de.Data.length + 7) - (de.Data.length + 7) % 8 := rfl
  refine ⟨?_, ?_, ?_, ?_⟩
  · rw [hps, show de.Data.length + 7 - (de.Data.length + 7) % 8 =
      8 * ((de.Data.length + 7) / 8) from by omega]
    exact Nat.mul_mod_right 8 _
  · omega
  · omega
  · show (de.Data ++ List.replicate (de.paddedDataSize - de.Data.length) 0).length = _
    rw [List.length_append, List.length_replicate]
    omega

theorem writeData_length (de : DataEntry) :
    de.writeData.length = de.paddedDataSize := (paddedDataSize_props de).2.2.2

/-! ### Claim theorems -/

/-- C9: for every payload stored in the set, its padded size is a multiple
of 8, at least the payload length, and exceeds it by less than 8; the
serialized form of the payload is the payload followed by exactly
`paddedSize - len(payload)` zero bytes. -/
theorem c9_alignment_invariant (de : DataEntry) :
    de.paddedDataSize % 8 = 0 ∧ de.Data.length ≤ de.paddedDataSize ∧
    de.paddedDataSize - de.Data.length < 8 ∧
    de.writeData = de.Data ++ List.replicate (de.paddedDataSize - de.Data.length) 0 ∧
    de.writeData.length = de.paddedDataSize := by
  have h := paddedDataSize_props de
  exact ⟨h.1, h.2.1, h.2.2.1, rfl, h.2.2.2⟩

/-- C7: a `Set` call whose type or resource identifier is invalid (a
zero-valued ordinal or an empty name) returns an error; since the
validation happens before `set` is called, no state is produced — the
model's `Set` yields no updated resource set, mirroring the untouched Go
receiver (no entry created, replaced or deleted, no counter update). -/
theorem c7_invalid_identifier_rejected (rs : ResourceSet) (t r : Identifier) (l : Nat)
    (d : Option (List Nat))
    (h : t = .id 0 ∨ t = .name [] ∨ r = .id 0 ∨ r = .name []) :
    ∃ e, rs.Set t r l d = .error e := by
  unfold ResourceSet.Set
  rcases h with h | h | h | h
  · subst h
    cases hc : checkIdentifier r with
    | error e => exact ⟨e, rfl⟩
    | ok u => exact ⟨.zeroID, rfl⟩
  · subst h
    cases hc : checkIdentifier r with
    | error e => exact ⟨e, rfl⟩
    | ok u => exact ⟨.emptyName, rfl⟩
  · subst h
    exact ⟨.zeroID, rfl⟩
  · subst h
    exact ⟨.emptyName, rfl⟩

/-- Witness for C7 at a concrete input. -/
theorem c7_invalid_identifier_rejected_witness :
    ((Identifier.id 0 = Identifier.id 0 ∨ Identifier.id 0 = Identifier.name [] ∨
        Identifier.id 1 = Identifier.id 0 ∨ Identifier.id 1 = Identifier.name []) ∧
      ∃ e, emptyRS.Set (.id 0) (.id 1) 0 (some [1]) = .error e) :=
  ⟨Or.inl rfl, c7_invalid_identifier_rejected emptyRS (.id 0) (.id 1) 0 (some [1])
    (Or.inl rfl)⟩

/-- C5: when a 16-byte data record read during decoding has
`RVA - baseAddress` negative or `localOffset + size` beyond the section
buffer, `readData` fails with the out-of-bounds (malformed input) error; no
payload is produced, and the model's reads never leave the buffer. -/
theorem c5_read_data_rejects_out_of_bounds (de : dirEntry) (sec : List Nat) (base : Nat)
    (h16 : de.offset + 16 ≤ sec.length)
    (hoob : decodeU32 ((sec.drop de.offset).take 4) < base ∨
      (decodeU32 ((sec.drop de.offset).take 4) - base) +
        decodeU32 ((sec.drop (de.offset + 4)).take 4) > sec.length) :
    de.readData sec base = .error .dataEntryOutOfBounds := by
  unfold dirEntry.readData
  rw [if_pos h16, if_pos hoob]

/-- Witness for C5: a record whose size field exceeds the buffer length. -/
theorem c5_read_data_rejects_out_of_bounds_witness :
    ((0 : Nat) + 16 ≤ ([0, 0, 0, 0, 17, 0, 0, 0, 0, 0, 0, 0, 0, 0, 0, 0] :
        List Nat).length ∧
      (decodeU32 ((([0, 0, 0, 0, 17, 0, 0, 0, 0, 0, 0, 0, 0, 0, 0, 0] :
          List Nat).drop 0).take 4) < 0 ∨
        (decodeU32 ((([0, 0, 0, 0, 17, 0, 0, 0, 0, 0, 0, 0, 0, 0, 0, 0] :
          List Nat).drop 0).take 4) - 0) +
          decodeU32 ((([0, 0, 0, 0, 17, 0, 0, 0, 0, 0, 0, 0, 0, 0, 0, 0] :
            List Nat).drop (0 + 4)).take 4) >
          ([0, 0, 0, 0, 17, 0, 0, 0, 0, 0, 0, 0, 0, 0, 0, 0] : List Nat).length)) ∧
    (dirEntry.mk (.id 0) 0 true).readData
      [0, 0, 0, 0, 17, 0, 0, 0, 0, 0, 0, 0, 0, 0, 0, 0] 0 =
      .error .dataEntryOutOfBounds :=
  ⟨⟨by decide, by decide⟩,
    c5_read_data_rejects_out_of_bounds (dirEntry.mk (.id 0) 0 true) _ 0
      (by decide) (by decide)⟩

/-- C6: the set never contains a type entry with an empty resource mapping
nor a resource entry with an empty language mapping: this holds for the
empty set, is preserved by every `set` (insert, replace or delete), and
deleting the only language variant of the only resource under a type
removes the type identifier from the set entirely. -/
theorem c6_no_empty_nodes :
    emptyRS.noEmpty ∧
    (∀ (rs : ResourceSet) (t r : Identifier) (l : Nat) (d : Option (List Nat)),
      rs.noEmpty → (rs.set t r l d).noEmpty) ∧
    (∀ (rs : ResourceSet) (t r : Identifier) (l : Nat) (te : TypeEntry)
      (re : ResourceEntry), rs.keysNodup →
      alookup t rs.Types = some te → te.Resources = [(r, re)] →
      (∃ de, re.Data = [(l, de)]) →
      alookup t (rs.set t r l none).Types = none) := by
  refine ⟨fun p hp => absurd hp (by simp [emptyRS]), noEmpty_set, ?_⟩
  intro rs t r l te re hnd ht hres ⟨de, hdat⟩
  have hr : alookup r te.Resources = some re := by
    rw [hres]
    simp [alookup]
  have hemp : aerase l re.Data = [] := by
    rw [hdat]
    simp [aerase]
  have hemp2 : aerase r te.Resources = [] := by
    rw [hres]
    simp [aerase]
  show alookup t (rs.delete t r l).Types = none
  rw [delete_type ht hr hemp hemp2]
  exact alookup_aerase_self hnd.1

/-- Witness for C6: deleting the single variant of the single resource of
type 1 removes type 1 from the set. -/
theorem c6_no_empty_nodes_witness :
    alookup (Identifier.id 1)
      ((emptyRS.set (.id 1) (.id 1) 0 (some [1])).set (.id 1) (.id 1) 0 none).Types =
      none :=
  c6_no_empty_nodes.2.2 (emptyRS.set (.id 1) (.id 1) 0 (some [1])) (.id 1) (.id 1) 0
    (⟨[(.id 1, ⟨[(0, ⟨[1]⟩)], none⟩)], none, 0⟩ : TypeEntry)
    (⟨[(0, ⟨[1]⟩)], none⟩ : ResourceEntry)
    (by decide) (by decide) (by decide) ⟨⟨[1]⟩, by decide⟩

/-- C3: the ordered key sequence frozen for every directory level places
all names before all ordinals, names in case-sensitive lexicographic
ascending order and ordinals in ascending order, and the number recorded
as the name-entry count equals the number of leading name entries: at the
root (`ResourceSet.order`), at the type level (`TypeEntry.Order`, when the
cache is recomputed), and at the language level (`ResourceEntry.order`,
ordinals only). -/
theorem c3_ordering_law (rs : ResourceSet) (te : TypeEntry) (re : ResourceEntry)
    (hte : te.OrderedKeys = none) (hre : re.OrderedKeys = none) :
    ((rs.order).2.1.Sorted idLE ∧
      (rs.order).2.1 = (rs.order).2.1.filter Identifier.isName ++
        (rs.order).2.1.filter (fun i => !i.isName) ∧
      (rs.order).2.2 = ((rs.order).2.1.filter Identifier.isName).length) ∧
    (∃ ks, (te.Order).OrderedKeys = some ks ∧ ks.Sorted idLE ∧
      ks = ks.filter Identifier.isName ++ ks.filter (fun i => !i.isName) ∧
      (te.Order).NamesCount = (ks.filter Identifier.isName).length) ∧
    (∃ ls, (re.order).OrderedKeys = some ls ∧ ls.Sorted (· ≤ ·)) := by
  have hroot := sorted_split (sortIdents (akeys rs.Types))
    (sortIdents_sorted (akeys rs.Types))
  have htyp := sorted_split (sortIdents (akeys te.Resources))
    (sortIdents_sorted (akeys te.Resources))
  refine ⟨⟨sortIdents_sorted _, hroot.1, ?_⟩, ?_, ?_⟩
  · show ((sortIdents (akeys rs.Types)).takeWhile Identifier.isName).length = _
    rw [hroot.2]
    rfl
  · refine ⟨sortIdents (akeys te.Resources), ?_, sortIdents_sorted _, htyp.1, ?_⟩
    · unfold TypeEntry.Order
      rw [hte]
    · unfold TypeEntry.Order
      rw [hte]
      show ((sortIdents (akeys te.Resources)).takeWhile Identifier.isName).length = _
      rw [htyp.2]
  · refine ⟨sortLangs (akeys re.Data), ?_, sortLangs_sorted _⟩
    unfold ResourceEntry.order
    rw [hre]

/-- A concrete mixed root level for the C3 witness. -/
def rsW3 : ResourceSet :=
  ⟨[(.name [67], ⟨[], none, 0⟩), (.id 4, ⟨[], none, 0⟩)], 3, 4⟩

/-- A concrete mixed type level for the C3 witness. -/
def teW3 : TypeEntry :=
  ⟨[(.id 7, ⟨[], none⟩), (.name [66], ⟨[], none⟩), (.id 2, ⟨[], none⟩),
    (.name [65], ⟨[], none⟩)], none, 5⟩

/-- A concrete language level for the C3 witness. -/
def reW3 : ResourceEntry := ⟨[(9, ⟨[1]⟩), (0, ⟨[2]⟩)], none⟩

/-- Witness for C3 on concrete levels with mixed names and ordinals. -/
theorem c3_ordering_law_witness :
    (teW3.OrderedKeys = none ∧ reW3.OrderedKeys = none) ∧
    (((rsW3.order).2.1.Sorted idLE ∧
      (rsW3.order).2.1 = (rsW3.order).2.1.filter Identifier.isName ++
        (rsW3.order).2.1.filter (fun i => !i.isName) ∧
      (rsW3.order).2.2 = ((rsW3.order).2.1.filter Identifier.isName).length) ∧
    (∃ ks, (teW3.Order).OrderedKeys = some ks ∧ ks.Sorted idLE ∧
      ks = ks.filter Identifier.isName ++ ks.filter (fun i => !i.isName) ∧
      (teW3.Order).NamesCount = (ks.filter Identifier.isName).length) ∧
    (∃ ls, (reW3.order).OrderedKeys = some ls ∧ ls.Sorted (· ≤ ·))) :=
  ⟨⟨rfl, rfl⟩, c3_ordering_law rsW3 teW3 reW3 rfl rfl⟩

/-- C10: cache accuracy is an invariant of mutation: it holds for the
empty set and is preserved by every `set` call; a replacement of an
existing triple's payload leaves both levels' caches untouched, while a
`set` that changes a level's key set leaves that level's cache cleared. -/
theorem c10_cache_invariant :
    emptyRS.cacheOK ∧
    (∀ (rs : ResourceSet) (t r : Identifier) (l : Nat) (d : Option (List Nat)),
      rs.cacheOK → (rs.set t r l d).cacheOK) ∧
    (∀ (rs : ResourceSet) (t r : Identifier) (l : Nat) (d : List Nat) (te : TypeEntry)
      (re : ResourceEntry) (de : DataEntry),
      alookup t rs.Types = some te → alookup r te.Resources = some re →
      alookup l re.Data = some de →
      ∃ te' re', alookup t (rs.set t r l (some d)).Types = some te' ∧
        te'.OrderedKeys = te.OrderedKeys ∧ te'.NamesCount = te.NamesCount ∧
        alookup r te'.Resources = some re' ∧ re'.OrderedKeys = re.OrderedKeys) ∧
    (∀ (rs : ResourceSet) (t r : Identifier) (l : Nat) (d : List Nat) (te : TypeEntry)
      (re : ResourceEntry),
      alookup t rs.Types = some te → alookup r te.Resources = some re →
      alookup l re.Data = none →
      ∃ te' re', alookup t (rs.set t r l (some d)).Types = some te' ∧
        alookup r te'.Resources = some re' ∧ re'.OrderedKeys = none) ∧
    (∀ (rs : ResourceSet) (t r : Identifier) (l : Nat) (d : List Nat) (te : TypeEntry),
      alookup t rs.Types = some te → alookup r te.Resources = none →
      ∃ te', alookup t (rs.set t r l (some d)).Types = some te' ∧
        te'.OrderedKeys = none) := by
  refine ⟨fun p hp => absurd hp (by simp [emptyRS]), cacheOK_set, ?_, ?_, ?_⟩
  · intro rs t r l d te re de ht hr hl
    refine ⟨setTE rs t r l d, ⟨aupsert l ⟨d⟩ re.Data, re.OrderedKeys⟩, ?_, ?_, ?_, ?_, rfl⟩
    · rw [set_some_Types]
      exact alookup_aupsert_self _ _ _
    · rw [setTE_replace d ht hr hl]
    · rw [setTE_replace d ht hr hl]
    · rw [setTE_replace d ht hr hl]
      exact alookup_aupsert_self _ _ _
  · intro rs t r l d te re ht hr hl
    refine ⟨setTE rs t r l d, ⟨aupsert l ⟨d⟩ re.Data, none⟩, ?_, ?_, rfl⟩
    · rw [set_some_Types]
      exact alookup_aupsert_self _ _ _
    · rw [setTE_new_lang d ht hr hl]
      exact alookup_aupsert_self _ _ _
  · intro rs t r l d te ht hr
    refine ⟨setTE rs t r l d, ?_, ?_⟩
    · rw [set_some_Types]
      exact alookup_aupsert_self _ _ _
    · rw [setTE_new_res l d ht hr]

/-- Witness for C10: preservation applied to a one-triple set. -/
theorem c10_cache_invariant_witness :
    (emptyRS.set (.id 1) (.id 2) 3 (some [9])).cacheOK :=
  c10_cache_invariant.2.1 emptyRS (.id 1) (.id 2) 3 (some [9])
    (fun p hp => absurd hp (by simp [emptyRS]))

/-- C2: serialization is not deterministic across mutation histories: the
two resource sets below hold the same logical content (identical canonical
triples and payloads), but one history interleaves a serialization (which
computes the order caches in place) before adding a second language to an
existing resource, after which `TypeEntry.Order` skips the stale
resource-level cache and the next serialization emits different (corrupt)
bytes and a different relocation list. -/
theorem c2_determinism_broken_by_stale_caches :
    ((emptyRS.set (.id 1) (.id 1) 0 (some [1])).set (.id 1) (.id 1) 5
        (some [2])).canon =
      (((emptyRS.set (.id 1) (.id 1) 0 (some [1])).afterWrite).set (.id 1) (.id 1) 5
        (some [2])).canon ∧
    ((emptyRS.set (.id 1) (.id 1) 0 (some [1])).set (.id 1) (.id 1) 5
        (some [2])).bytes ≠
      (((emptyRS.set (.id 1) (.id 1) 0 (some [1])).afterWrite).set (.id 1) (.id 1) 5
        (some [2])).bytes := by
  constructor
  · decide
  · decide

/-! ### Layout infrastructure: byte lengths and offsets of the encoder -/

theorem le16_length (n : Nat) : (le16 n).length = 2 := rfl

theorem le32_length (n : Nat) : (le32 n).length = 4 := rfl

theorem writeDirectoryTable_length (a b : Nat) :
    (writeDirectoryTable a b).length = sizeOfDirTable := rfl

theorem writeDirectoryEntry_length (a b : Nat) (x y : Bool) :
    (writeDirectoryEntry a b x y).length = sizeOfDirEntry := by
  cases x <;> cases y <;> rfl

theorem writeDataEntry_length (a b : Nat) :
    (writeDataEntry a b).length = sizeOfDataEntry := rfl

theorem u16Bytes_length : ∀ l : List Nat, (u16Bytes l).length = 2 * l.length
  | [] => rfl
  | n :: ns => by
    show (le16 n ++ u16Bytes ns).length = 2 * (n :: ns).length
    rw [List.length_append, le16_length, u16Bytes_length ns, List.length_cons]
    omega

theorem dirEntriesLoop_spec (idv : Identifier → Nat) (isName : Bool)
    (sz : Identifier → Nat) : ∀ (ks : List Identifier) (off : Nat),
    (dirEntriesLoop idv isName sz ks off).1.length = sizeOfDirEntry * ks.length ∧
    (dirEntriesLoop idv isName sz ks off).2 = off + (ks.map sz).sum
  | [], off => by simp [dirEntriesLoop]
  | i :: ks, off => by
    have ih := dirEntriesLoop_spec idv isName sz ks (off + sz i)
    unfold dirEntriesLoop
    constructor
    · rw [List.length_append, writeDirectoryEntry_length, ih.1, List.length_cons]
      ring
    · rw [ih.2, List.map_cons, List.sum_cons]
      ring

theorem writeTypeDir_spec (rs : ResourceSet) (s : state) :
    (rs.writeTypeDir s).1.length =
      sizeOfDirTable + sizeOfDirEntry * s.orderedKeys.length ∧
    (rs.writeTypeDir s).2 = { s with offset := s.offset + sizeOfDirTable +
      sizeOfDirEntry * s.orderedKeys.length +
      (s.orderedKeys.map (fun i => (typesGet rs i).size)).sum } := by
  simp only [ResourceSet.writeTypeDir]
  have h1 := dirEntriesLoop_spec (fun i => nameOff s i.nameVal) true
    (fun i => (typesGet rs i).size) (s.orderedKeys.take s.namesCount)
    (s.offset + sizeOfDirTable + s.orderedKeys.length * sizeOfDirEntry)
  have h2 := dirEntriesLoop_spec Identifier.idVal false
    (fun i => (typesGet rs i).size) (s.orderedKeys.drop s.namesCount)
    (dirEntriesLoop (fun i => nameOff s i.nameVal) true
      (fun i => (typesGet rs i).size) (s.orderedKeys.take s.namesCount)
      (s.offset + sizeOfDirTable + s.orderedKeys.length * sizeOfDirEntry)).2
  have hsum : ((s.orderedKeys.take s.namesCount).map
        (fun i => (typesGet rs i).size)).sum +
      ((s.orderedKeys.drop s.namesCount).map (fun i => (typesGet rs i).size)).sum =
      (s.orderedKeys.map (fun i => (typesGet rs i).size)).sum := by
    rw [← List.sum_append, ← List.map_append, List.take_append_drop]
  have hlen : (s.orderedKeys.take s.namesCount).length +
      (s.orderedKeys.drop s.namesCount).length = s.orderedKeys.length := by
    rw [← List.length_append, List.take_append_drop]
  constructor
  · rw [List.length_append, List.length_append, writeDirectoryTable_length, h1.1, h2.1,
      ← hlen]
    ring
  · rw [h2.2, h1.2, ← hsum, ← hlen]
    congr 1
    ring

theorem TypeEntry_write_spec (te : TypeEntry) (s : state) :
    (te.write s).1.length =
      sizeOfDirTable + sizeOfDirEntry * (te.OrderedKeys.getD []).length ∧
    (te.write s).2 = { s with offset := s.offset +
      ((te.OrderedKeys.getD []).map (fun i => (resGet te i).size)).sum } := by
  simp only [TypeEntry.write]
  have h1 := dirEntriesLoop_spec (fun i => nameOff s i.nameVal) true
    (fun i => (resGet te i).size) ((te.OrderedKeys.getD []).take te.NamesCount) s.offset
  have h2 := dirEntriesLoop_spec Identifier.idVal false
    (fun i => (resGet te i).size) ((te.OrderedKeys.getD []).drop te.NamesCount)
    (dirEntriesLoop (fun i => nameOff s i.nameVal) true
      (fun i => (resGet te i).size) ((te.OrderedKeys.getD []).take te.NamesCount)
      s.offset).2
  have hsum : (((te.OrderedKeys.getD []).take te.NamesCount).map
        (fun i => (resGet te i).size)).sum +
      (((te.OrderedKeys.getD []).drop te.NamesCount).map
        (fun i => (resGet te i).size)).sum =
      ((te.OrderedKeys.getD []).map (fun i => (resGet te i).size)).sum := by
    rw [← List.sum_append, ← List.map_append, List.take_append_drop]
  have hlen : ((te.OrderedKeys.getD []).take te.NamesCount).length +
      ((te.OrderedKeys.getD []).drop te.NamesCount).length =
      (te.OrderedKeys.getD []).length := by
    rw [← List.length_append, List.take_append_drop]
  constructor
  · rw [List.length_append, List.length_append, writeDirectoryTable_length, h1.1, h2.1,
      ← hlen]
    ring
  · rw [h2.2, h1.2, ← hsum]
    congr 1
    ring

theorem resDirsLoop_spec (rs : ResourceSet) : ∀ (ts : List Identifier) (s : state),
    (resDirsLoop rs ts s).1.length =
      (ts.map (fun t => sizeOfDirTable +
        sizeOfDirEntry * ((typesGet rs t).OrderedKeys.getD []).length)).sum ∧
    (resDirsLoop rs ts s).2 = { s with offset := s.offset +
      (ts.map (fun t => (((typesGet rs t).OrderedKeys.getD []).map
        (fun i => (resGet (typesGet rs t) i).size)).sum)).sum }
  | [], s => by
    constructor
    · simp [resDirsLoop]
    · show s = { s with offset := s.offset + 0 }
      simp
  | t :: ts, s => by
    have hte := TypeEntry_write_spec (typesGet rs t) s
    simp only [resDirsLoop]
    rw [hte.2]
    have ih := resDirsLoop_spec rs ts
      { s with offset := s.offset + (((typesGet rs t).OrderedKeys.getD []).map
        (fun i => (resGet (typesGet rs t) i).size)).sum }
    constructor
    · rw [List.length_append, hte.1, ih.1, List.map_cons, List.sum_cons]
    · rw [ih.2]
      dsimp only
      congr 1
      rw [List.map_cons, List.sum_cons]
      omega

/-! ### Cache-consistent states and the effect of `order` -/

/-- A serialize call recomputes stale caches correctly only when a
type-level cache never outlives its children's caches: the caches present
are accurate, and a type whose cache is present has all its resource
caches present.  States reachable without interleaving traversals and
mutations satisfy this; the early return in `TypeEntry.Order` makes it
load-bearing. -/
def ResourceSet.Consistent (rs : ResourceSet) : Prop :=
  rs.keysNodup ∧ rs.cacheOK ∧
    ∀ p ∈ rs.Types, p.2.OrderedKeys.isSome →
      ∀ q ∈ p.2.Resources, q.2.OrderedKeys.isSome

/-- After the ordering pass every cache is present and accurate. -/
def TypeEntry.prepared (te : TypeEntry) : Prop :=
  te.OrderedKeys = some (sortIdents (akeys te.Resources)) ∧
  te.NamesCount =
    ((sortIdents (akeys te.Resources)).takeWhile Identifier.isName).length ∧
  ∀ q ∈ te.Resources, q.2.OrderedKeys = some (sortLangs (akeys q.2.Data))

def ResourceSet.prepared (rs : ResourceSet) : Prop :=
  rs.keysNodup ∧ ∀ p ∈ rs.Types, p.2.prepared

theorem order_fst_Types (rs : ResourceSet) :
    (rs.order).1.Types = rs.Types.map (fun p => (p.1, p.2.Order)) := rfl

theorem ResourceEntry_order_Data (re : ResourceEntry) : (re.order).Data = re.Data := by
  unfold ResourceEntry.order
  cases re.OrderedKeys <;> rfl

theorem TypeEntry_Order_keys (te : TypeEntry) :
    akeys (te.Order).Resources = akeys te.Resources := by
  unfold TypeEntry.Order
  cases te.OrderedKeys with
  | some ks => rfl
  | none =>
    show akeys (te.Resources.map fun p => (p.1, p.2.order)) = _
    unfold akeys
    rw [List.map_map]
    rfl

theorem consistent_order (rs : ResourceSet) (hc : rs.Consistent) :
    (rs.order).1.prepared := by
  obtain ⟨hnd, hok, hchild⟩ := hc
  constructor
  · -- keysNodup is preserved: keys are untouched, inner maps keep their keys
    refine ⟨?_, ?_⟩
    · rw [order_fst_Types]
      have : akeys (rs.Types.map fun p => (p.1, p.2.Order)) = akeys rs.Types := by
        unfold akeys
        rw [List.map_map]
        rfl
      rw [this]
      exact hnd.1
    · intro p hp
      rw [order_fst_Types] at hp
      obtain ⟨q, hq, rfl⟩ := List.mem_map.mp hp
      have hq' := hnd.2 q hq
      rw [TypeEntry_Order_keys]
      refine ⟨hq'.1, ?_⟩
      intro x hx
      show (akeys x.2.Data).Nodup
      unfold TypeEntry.Order at hx
      cases hks : q.2.OrderedKeys with
      | some ks =>
        rw [hks] at hx
        exact hq'.2 x hx
      | none =>
        rw [hks] at hx
        obtain ⟨y, hy, rfl⟩ := List.mem_map.mp hx
        rw [ResourceEntry_order_Data]
        exact hq'.2 y hy
  · intro p hp
    rw [order_fst_Types] at hp
    obtain ⟨q, hq, rfl⟩ := List.mem_map.mp hp
    show (q.1, q.2.Order).2.prepared
    have hokq := hok q hq
    unfold TypeEntry.Order
    cases hks : q.2.OrderedKeys with
    | some ks =>
      obtain ⟨h1, h2⟩ := hokq.1 ks hks
      refine ⟨by rw [hks, h1], by rw [h1] at h2; exact h2, ?_⟩
      intro x hx
      have hxsome := hchild q hq (by rw [hks]; rfl) x hx
      obtain ⟨ls, hls⟩ := Option.isSome_iff_exists.mp hxsome
      rw [hls]
      rw [hokq.2 x hx ls hls]
    | none =>
      have hkeys : akeys (List.map (fun p => (p.1, p.2.order)) q.2.Resources) =
          akeys q.2.Resources := by
        unfold akeys
        rw [List.map_map]
        rfl
      refine ⟨?_, ?_, ?_⟩
      · show some (sortIdents (akeys q.2.Resources)) =
          some (sortIdents (akeys (List.map (fun p => (p.1, p.2.order)) q.2.Resources)))
        rw [hkeys]
      · show ((sortIdents (akeys q.2.Resources)).takeWhile Identifier.isName).length =
          ((sortIdents (akeys (List.map (fun p => (p.1, p.2.order))
            q.2.Resources))).takeWhile Identifier.isName).length
        rw [hkeys]
      · intro x hx
        replace hx : x ∈ List.map (fun p => (p.1, p.2.order)) q.2.Resources := hx
        obtain ⟨y, hy, rfl⟩ := List.mem_map.mp hx
        show (y.2.order).OrderedKeys = some (sortLangs (akeys (y.2.order).Data))
        rw [ResourceEntry_order_Data]
        unfold ResourceEntry.order
        cases hys : y.2.OrderedKeys with
        | some ls =>
          have := hokq.2 y hy ls hys
          rw [hys, this]
        | none => rfl

/-! ### Sums over sorted key sequences -/

theorem map_sortIdents_lookup {ν : Type} (M : List (Identifier × ν))
    (hnd : (akeys M).Nodup) (f : Identifier → ν → Nat) (dflt : ν) :
    ((sortIdents (akeys M)).map (fun k => f k ((alookup k M).getD dflt))).sum =
      (M.map (fun p => f p.1 p.2)).sum := by
  have hperm := (sortIdents_perm (akeys M)).map
    (fun k => f k ((alookup k M).getD dflt))
  rw [hperm.sum_eq]
  unfold akeys
  rw [List.map_map]
  refine congrArg List.sum (List.map_congr_left ?_)
  intro p hp
  show f p.1 ((alookup p.1 M).getD dflt) = f p.1 p.2
  rw [mem_alookup hnd hp]
  rfl

/-! ### The leaf enumeration and the last three regions of the output -/

/-- The ordered relocation offsets produced for `n` consecutive data index
entries starting at `off`. -/
def relocList : Nat → Nat → List Nat
  | 0, _ => []
  | n + 1, off => off :: relocList n (off + sizeOfDataEntry)

/-- The (type, resource, language) leaves, with their data entries, in the
order the encoder visits them. -/
def wLeaves (rs : ResourceSet) (ts : List Identifier) :
    List ((Identifier × Identifier × Nat) × DataEntry) :=
  ts.flatMap (fun t =>
    ((typesGet rs t).OrderedKeys.getD []).flatMap (fun r =>
      ((resGet (typesGet rs t) r).OrderedKeys.getD []).map (fun l =>
        ((t, r, l), dataGet (resGet (typesGet rs t) r) l))))

/-- The data index region for a run of leaves starting at offset `off`. -/
def dataIndexBytes : List DataEntry → Nat → List Nat
  | [], _ => []
  | de :: ds, off =>
    writeDataEntry off de.Data.length ++ dataIndexBytes ds (off + de.paddedDataSize)

def sumPadded (ds : List DataEntry) : Nat := (ds.map (fun d => d.paddedDataSize)).sum

/-- The raw data region for a run of leaves. -/
def dataBytes : List DataEntry → List Nat
  | [] => []
  | de :: ds => de.writeData ++ dataBytes ds

def langLen (te : TypeEntry) (r : Identifier) : Nat :=
  ((resGet te r).OrderedKeys.getD []).length

def teLeafCount (te : TypeEntry) : Nat :=
  ((te.OrderedKeys.getD []).map (langLen te)).sum

def leafCount (rs : ResourceSet) (ts : List Identifier) : Nat :=
  (ts.map (fun t => teLeafCount (typesGet rs t))).sum

theorem relocList_length : ∀ (n off : Nat), (relocList n off).length = n
  | 0, _ => rfl
  | n + 1, off => by
    show (relocList n (off + sizeOfDataEntry)).length + 1 = n + 1
    rw [relocList_length n]

theorem relocList_append : ∀ (a b off : Nat),
    relocList (a + b) off = relocList a off ++ relocList b (off + sizeOfDataEntry * a)
  | 0, b, off => by simp [relocList]
  | a + 1, b, off => by
    have h : a + 1 + b = (a + b) + 1 := by omega
    rw [h]
    show off :: relocList (a + b) (off + sizeOfDataEntry) = _
    rw [relocList_append a b (off + sizeOfDataEntry)]
    show _ = (off :: relocList a (off + sizeOfDataEntry)) ++ _
    rw [List.cons_append]
    congr 3
    ring

theorem sumPadded_append (xs ys : List DataEntry) :
    sumPadded (xs ++ ys) = sumPadded xs + sumPadded ys := by
  unfold sumPadded
  rw [List.map_append, List.sum_append]

theorem dataIndexBytes_append : ∀ (xs ys : List DataEntry) (off : Nat),
    dataIndexBytes (xs ++ ys) off =
      dataIndexBytes xs off ++ dataIndexBytes ys (off + sumPadded xs)
  | [], ys, off => by simp [dataIndexBytes, sumPadded]
  | x :: xs, ys, off => by
    show writeDataEntry off x.Data.length ++ dataIndexBytes (xs ++ ys) _ = _
    rw [dataIndexBytes_append xs ys]
    show _ = (writeDataEntry off x.Data.length ++ dataIndexBytes xs _) ++ _
    rw [List.append_assoc]
    congr 2
    rw [sumPadded]
    show dataIndexBytes ys (off + x.paddedDataSize + sumPadded xs) = _
    congr 1
    unfold sumPadded
    rw [List.map_cons, List.sum_cons]
    ring

theorem dataIndexBytes_length : ∀ (ds : List DataEntry) (off : Nat),
    (dataIndexBytes ds off).length = sizeOfDataEntry * ds.length
  | [], _ => rfl
  | d :: ds, off => by
    show (writeDataEntry off d.Data.length ++ dataIndexBytes ds _).length = _
    rw [List.length_append, writeDataEntry_length, dataIndexBytes_length ds,
      List.length_cons]
    ring

theorem dataBytes_append : ∀ xs ys : List DataEntry,
    dataBytes (xs ++ ys) = dataBytes xs ++ dataBytes ys
  | [], ys => rfl
  | x :: xs, ys => by
    show x.writeData ++ dataBytes (xs ++ ys) = _
    rw [dataBytes_append xs ys]
    show _ = (x.writeData ++ dataBytes xs) ++ _
    rw [List.append_assoc]

theorem dataBytes_length : ∀ ds : List DataEntry,
    (dataBytes ds).length = sumPadded ds
  | [] => rfl
  | d :: ds => by
    show (d.writeData ++ dataBytes ds).length = _
    rw [List.length_append, dataBytes_length ds]
    unfold sumPadded
    rw [List.map_cons, List.sum_cons]
    rw [writeData_length d]

theorem langEntriesLoop_spec : ∀ (ls : List Nat) (off : Nat),
    (langEntriesLoop ls off).1.length = sizeOfDirEntry * ls.length ∧
    (langEntriesLoop ls off).2.1 = off + sizeOfDataEntry * ls.length ∧
    (langEntriesLoop ls off).2.2 = relocList ls.length off
  | [], off => by
    refine ⟨rfl, by simp [langEntriesLoop], rfl⟩
  | l :: ls, off => by
    have ih := langEntriesLoop_spec ls (off + sizeOfDataEntry)
    simp only [langEntriesLoop]
    refine ⟨?_, ?_, ?_⟩
    · rw [List.length_append, writeDirectoryEntry_length, ih.1, List.length_cons]
      ring
    · rw [ih.2.1, List.length_cons]
      ring
    · rw [ih.2.2]
      rfl

theorem ResourceEntry_write_spec (re : ResourceEntry) (s : state) :
    (re.write s).1.length =
      sizeOfDirTable + sizeOfDirEntry * (re.OrderedKeys.getD []).length ∧
    (re.write s).2 = { s with
      offset := s.offset + sizeOfDataEntry * (re.OrderedKeys.getD []).length,
      relocAddr := s.relocAddr ++ relocList (re.OrderedKeys.getD []).length s.offset } := by
  have h := langEntriesLoop_spec (re.OrderedKeys.getD []) s.offset
  simp only [ResourceEntry.write]
  constructor
  · rw [List.length_append, writeDirectoryTable_length, h.1]
  · rw [h.2.1, h.2.2]

theorem langDirsInner_spec (te : TypeEntry) : ∀ (rk : List Identifier) (s : state),
    (langDirsInner te rk s).1.length =
      (rk.map (fun r => sizeOfDirTable + sizeOfDirEntry * langLen te r)).sum ∧
    (langDirsInner te rk s).2 = { s with
      offset := s.offset + sizeOfDataEntry * (rk.map (langLen te)).sum,
      relocAddr := s.relocAddr ++ relocList ((rk.map (langLen te)).sum) s.offset }
  | [], s => by
    refine ⟨rfl, ?_⟩
    show s = _
    simp only [List.map_nil, List.sum_nil, Nat.mul_zero, Nat.add_zero, relocList,
      List.append_nil]
  | r :: rk, s => by
    have hre := ResourceEntry_write_spec (resGet te r) s
    simp only [langDirsInner]
    rw [hre.2]
    have ih := langDirsInner_spec te rk { s with
      offset := s.offset + sizeOfDataEntry * ((resGet te r).OrderedKeys.getD []).length,
      relocAddr := s.relocAddr ++
        relocList ((resGet te r).OrderedKeys.getD []).length s.offset }
    refine ⟨?_, ?_⟩
    · rw [List.length_append, hre.1, ih.1, List.map_cons, List.sum_cons]
      rfl
    · rw [ih.2]
      congr 1
      · show s.offset + sizeOfDataEntry * langLen te r +
          sizeOfDataEntry * (List.map (langLen te) rk).sum =
          s.offset + sizeOfDataEntry * (List.map (langLen te) (r :: rk)).sum
        rw [List.map_cons, List.sum_cons]
        ring
      · show (s.relocAddr ++ relocList (langLen te r) s.offset) ++
          relocList ((List.map (langLen te) rk).sum)
            (s.offset + sizeOfDataEntry * langLen te r) =
          s.relocAddr ++ relocList ((List.map (langLen te) (r :: rk)).sum) s.offset
        rw [List.map_cons, List.sum_cons, List.append_assoc]
        congr 1
        exact (relocList_append _ _ _).symm

theorem langDirsLoop_spec (rs : ResourceSet) : ∀ (ts : List Identifier) (s : state),
    (langDirsLoop rs ts s).1.length =
      (ts.map (fun t => (((typesGet rs t).OrderedKeys.getD []).map
        (fun r => sizeOfDirTable +
          sizeOfDirEntry * langLen (typesGet rs t) r)).sum)).sum ∧
    (langDirsLoop rs ts s).2 = { s with
      offset := s.offset + sizeOfDataEntry * leafCount rs ts,
      relocAddr := s.relocAddr ++ relocList (leafCount rs ts) s.offset }
  | [], s => by
    refine ⟨rfl, ?_⟩
    show s = _
    simp only [leafCount, List.map_nil, List.sum_nil, Nat.mul_zero, Nat.add_zero,
      relocList, List.append_nil]
  | t :: ts, s => by
    have hin := langDirsInner_spec (typesGet rs t)
      ((typesGet rs t).OrderedKeys.getD []) s
    simp only [langDirsLoop]
    rw [hin.2]
    have ih := langDirsLoop_spec rs ts { s with
      offset := s.offset + sizeOfDataEntry *
        (((typesGet rs t).OrderedKeys.getD []).map (langLen (typesGet rs t))).sum,
      relocAddr := s.relocAddr ++
        relocList ((((typesGet rs t).OrderedKeys.getD []).map
          (langLen (typesGet rs t))).sum) s.offset }
    refine ⟨?_, ?_⟩
    · rw [List.length_append, hin.1, ih.1, List.map_cons, List.sum_cons]
    · rw [ih.2]
      congr 1
      · show s.offset + sizeOfDataEntry * teLeafCount (typesGet rs t) +
          sizeOfDataEntry * leafCount rs ts =
          s.offset + sizeOfDataEntry * leafCount rs (t :: ts)
        unfold leafCount
        rw [List.map_cons, List.sum_cons]
        ring
      · show (s.relocAddr ++ relocList (teLeafCount (typesGet rs t)) s.offset) ++
          relocList (leafCount rs ts)
            (s.offset + sizeOfDataEntry * teLeafCount (typesGet rs t)) =
          s.relocAddr ++ relocList (leafCount rs (t :: ts)) s.offset
        show _ = s.relocAddr ++ relocList
          ((List.map (fun t => teLeafCount (typesGet rs t)) (t :: ts)).sum) s.offset
        rw [List.map_cons, List.sum_cons, List.append_assoc]
        congr 1
        exact (relocList_append _ _ _).symm

instance (te : TypeEntry) : Decidable te.cacheOK :=
  match h : te.OrderedKeys with
  | none => isTrue (fun ks hks => by rw [h] at hks; cases hks)
  | some ks0 =>
    decidable_of_iff (ks0 = sortIdents (akeys te.Resources) ∧
        te.NamesCount = (ks0.takeWhile Identifier.isName).length)
      ⟨fun hp ks hks => by
        rw [h] at hks
        injection hks with he
        rw [← he]
        exact hp,
       fun hp => hp ks0 h⟩

instance (re : ResourceEntry) : Decidable re.cacheOK :=
  match h : re.OrderedKeys with
  | none => isTrue (fun ks hks => by rw [h] at hks; cases hks)
  | some ks0 =>
    decidable_of_iff (ks0 = sortLangs (akeys re.Data))
      ⟨fun hp ks hks => by
        rw [h] at hks
        injection hks with he
        rw [← he]
        exact hp,
       fun hp => hp ks0 h⟩

instance (rs : ResourceSet) : Decidable rs.cacheOK := by
  unfold ResourceSet.cacheOK
  infer_instance

instance (rs : ResourceSet) : Decidable rs.Consistent := by
  unfold ResourceSet.Consistent
  infer_instance

/-! ### The data index and raw data regions as functions of the leaf list -/

def teLeavesD (te : TypeEntry) : List DataEntry :=
  (te.OrderedKeys.getD []).flatMap (fun r =>
    ((resGet te r).OrderedKeys.getD []).map (fun l => dataGet (resGet te r) l))

def leavesD (rs : ResourceSet) (ts : List Identifier) : List DataEntry :=
  ts.flatMap (fun t => teLeavesD (typesGet rs t))

theorem wLeaves_map_snd (rs : ResourceSet) : ∀ ts : List Identifier,
    (wLeaves rs ts).map Prod.snd = leavesD rs ts
  | [] => rfl
  | t :: ts => by
    unfold wLeaves leavesD
    rw [List.flatMap_cons, List.flatMap_cons, List.map_append]
    show _ ++ (wLeaves rs ts).map Prod.snd = _
    rw [wLeaves_map_snd rs ts]
    unfold leavesD
    congr 1
    unfold teLeavesD
    rw [List.map_flatMap]
    refine congrArg _ (funext fun r => ?_)
    rw [List.map_map]
    rfl

theorem leavesD_length (rs : ResourceSet) : ∀ ts : List Identifier,
    (leavesD rs ts).length = leafCount rs ts
  | [] => rfl
  | t :: ts => by
    unfold leavesD leafCount
    rw [List.flatMap_cons, List.length_append, List.map_cons, List.sum_cons]
    show _ + (leavesD rs ts).length = _
    rw [leavesD_length rs ts]
    unfold leafCount
    congr 1
    unfold teLeavesD teLeafCount
    rw [List.length_flatMap]
    congr 1
    refine List.map_congr_left fun r hr => ?_
    simp [langLen, Function.comp]

theorem dataIndexLangs_spec (re : ResourceEntry) : ∀ (ls : List Nat) (s : state),
    (dataIndexLangs re ls s).1 = dataIndexBytes (ls.map (dataGet re)) s.offset ∧
    (dataIndexLangs re ls s).2 =
      { s with offset := s.offset + sumPadded (ls.map (dataGet re)) }
  | [], s => by
    refine ⟨rfl, ?_⟩
    show s = _
    simp [sumPadded]
  | l :: ls, s => by
    simp only [dataIndexLangs, DataEntry.write]
    have ih := dataIndexLangs_spec re ls
      { s with offset := s.offset + (dataGet re l).paddedDataSize }
    refine ⟨?_, ?_⟩
    · rw [ih.1]
      rfl
    · rw [ih.2]
      congr 1
      show s.offset + (dataGet re l).paddedDataSize + sumPadded (ls.map (dataGet re)) = _
      unfold sumPadded
      rw [List.map_cons, List.map_cons, List.sum_cons]
      ring
  termination_by ls => ls.length

theorem dataIndexRes_spec (te : TypeEntry) : ∀ (rk : List Identifier) (s : state),
    (dataIndexRes te rk s).1 =
      dataIndexBytes (rk.flatMap (fun r => ((resGet te r).OrderedKeys.getD []).map
        (fun l => dataGet (resGet te r) l))) s.offset ∧
    (dataIndexRes te rk s).2 = { s with offset := s.offset + sumPadded (rk.flatMap (fun r => ((resGet te r).OrderedKeys.getD []).map (fun l => dataGet (resGet te r) l))) }
  | [], s => by
    refine ⟨rfl, ?_⟩
    show s = _
    simp [sumPadded]
  | r :: rk, s => by
    simp only [dataIndexRes]
    have h1 := dataIndexLangs_spec (resGet te r) ((resGet te r).OrderedKeys.getD []) s
    rw [h1.1, h1.2]
    have ih := dataIndexRes_spec te rk { s with offset := s.offset + sumPadded (((resGet te r).OrderedKeys.getD []).map (dataGet (resGet te r))) }
    refine ⟨?_, ?_⟩
    · rw [ih.1, List.flatMap_cons, dataIndexBytes_append]
    · rw [ih.2]
      congr 1
      show s.offset + sumPadded (((resGet te r).OrderedKeys.getD []).map (fun l => dataGet (resGet te r) l)) + sumPadded (rk.flatMap (fun r => ((resGet te r).OrderedKeys.getD []).map (fun l => dataGet (resGet te r) l))) = s.offset + sumPadded ((r :: rk).flatMap (fun r => ((resGet te r).OrderedKeys.getD []).map (fun l => dataGet (resGet te r) l)))
      rw [List.flatMap_cons, sumPadded_append]
      omega

theorem dataIndexLoop_spec (rs : ResourceSet) : ∀ (ts : List Identifier) (s : state),
    (dataIndexLoop rs ts s).1 = dataIndexBytes (leavesD rs ts) s.offset ∧
    (dataIndexLoop rs ts s).2 = { s with offset := s.offset + sumPadded (leavesD rs ts) }
  | [], s => by
    refine ⟨rfl, ?_⟩
    show s = _
    simp [leavesD, sumPadded]
  | t :: ts, s => by
    simp only [dataIndexLoop]
    have h1 := dataIndexRes_spec (typesGet rs t) ((typesGet rs t).OrderedKeys.getD []) s
    rw [h1.1, h1.2]
    have ih := dataIndexLoop_spec rs ts { s with offset := s.offset + sumPadded (((typesGet rs t).OrderedKeys.getD []).flatMap (fun r => ((resGet (typesGet rs t) r).OrderedKeys.getD []).map (fun l => dataGet (resGet (typesGet rs t) r) l))) }
    refine ⟨?_, ?_⟩
    · rw [ih.1]
      show _ = dataIndexBytes (leavesD rs (t :: ts)) s.offset
      unfold leavesD
      rw [List.flatMap_cons, dataIndexBytes_append]
      rfl
    · rw [ih.2]
      congr 1
      show s.offset + sumPadded (teLeavesD (typesGet rs t)) + sumPadded (leavesD rs ts) =
        s.offset + sumPadded (leavesD rs (t :: ts))
      unfold leavesD
      rw [List.flatMap_cons, sumPadded_append]
      show _ = s.offset + (sumPadded (teLeavesD (typesGet rs t)) +
        sumPadded (ts.flatMap fun t => teLeavesD (typesGet rs t)))
      omega

theorem dataLangs_spec (re : ResourceEntry) : ∀ ls : List Nat,
    dataLangs re ls = dataBytes (ls.map (dataGet re))
  | [] => rfl
  | l :: ls => by
    unfold dataLangs
    rw [dataLangs_spec re ls]
    rfl

theorem dataRes_spec (te : TypeEntry) : ∀ rk : List Identifier,
    dataRes te rk = dataBytes (rk.flatMap (fun r =>
      ((resGet te r).OrderedKeys.getD []).map (fun l => dataGet (resGet te r) l)))
  | [] => rfl
  | r :: rk => by
    simp only [dataRes]
    rw [dataRes_spec te rk, dataLangs_spec, List.flatMap_cons, dataBytes_append]

theorem dataLoop_spec (rs : ResourceSet) : ∀ ts : List Identifier,
    dataLoop rs ts = dataBytes (leavesD rs ts)
  | [] => rfl
  | t :: ts => by
    simp only [dataLoop]
    rw [dataLoop_spec rs ts, dataRes_spec]
    show _ = dataBytes (leavesD rs (t :: ts))
    unfold leavesD
    rw [List.flatMap_cons, dataBytes_append]
    rfl

/-! ### Region lengths of a prepared set in terms of the map structure -/

theorem mem_akeys_exists {κ ν : Type} [DecidableEq κ] {k : κ} :
    ∀ {M : List (κ × ν)}, k ∈ akeys M → ∃ v, alookup k M = some v
  | [], h => by simp [akeys] at h
  | (k₀, v₀) :: M, h => by
    by_cases hk : k₀ = k
    · exact ⟨v₀, by rw [alookup, if_pos hk]⟩
    · have h' : k ∈ akeys M := by
        rcases List.mem_cons.mp (show k ∈ k₀ :: akeys M from h) with h' | h'
        · exact absurd h'.symm hk
        · exact h'
      obtain ⟨v, hv⟩ := mem_akeys_exists h'
      exact ⟨v, by rw [alookup, if_neg hk]; exact hv⟩

theorem prepared_typesGet {rs : ResourceSet} (hp : rs.prepared) {t : Identifier}
    (ht : t ∈ akeys rs.Types) :
    (typesGet rs t).prepared ∧ (t, typesGet rs t) ∈ rs.Types := by
  obtain ⟨v, hv⟩ := mem_akeys_exists ht
  have hmem := alookup_mem hv
  have : typesGet rs t = v := by rw [typesGet, hv]; rfl
  rw [this]
  exact ⟨hp.2 (t, v) hmem, hmem⟩

theorem prepared_ordLen {te : TypeEntry} (hte : te.prepared) :
    (te.OrderedKeys.getD []).length = te.Resources.length := by
  rw [hte.1]
  show (sortIdents (akeys te.Resources)).length = _
  rw [(sortIdents_perm (akeys te.Resources)).length_eq]
  unfold akeys
  rw [List.length_map]

theorem prepared_resGet {te : TypeEntry} (hte : te.prepared) {r : Identifier}
    (hr : r ∈ akeys te.Resources) :
    (resGet te r).OrderedKeys = some (sortLangs (akeys (resGet te r).Data)) ∧
      (r, resGet te r) ∈ te.Resources := by
  obtain ⟨v, hv⟩ := mem_akeys_exists hr
  have hmem := alookup_mem hv
  have : resGet te r = v := by rw [resGet, hv]; rfl
  rw [this]
  exact ⟨hte.2.2 (r, v) hmem, hmem⟩

theorem prepared_langLen {te : TypeEntry} (hte : te.prepared) {r : Identifier}
    (hr : r ∈ akeys te.Resources) : langLen te r = (resGet te r).Data.length := by
  obtain ⟨hok, _⟩ := prepared_resGet hte hr
  unfold langLen
  rw [hok]
  show (sortLangs (akeys (resGet te r).Data)).length = _
  rw [(sortLangs_perm (akeys (resGet te r).Data)).length_eq]
  unfold akeys
  rw [List.length_map]

theorem sum_map_add {α : Type} (f g : α → Nat) : ∀ l : List α,
    (l.map (fun x => f x + g x)).sum = (l.map f).sum + (l.map g).sum
  | [] => rfl
  | x :: l => by
    rw [List.map_cons, List.map_cons, List.map_cons, List.sum_cons, List.sum_cons,
      List.sum_cons, sum_map_add f g l]
    ring

/-- The sum of type-level table sizes over the sorted root keys. -/
theorem rootSizes_sum {rs : ResourceSet} (hp : rs.prepared) :
    ((sortIdents (akeys rs.Types)).map
      (fun t => (typesGet rs t).size)).sum = (rs.Types.map (fun p => p.2.size)).sum :=
  map_sortIdents_lookup rs.Types hp.1.1 (fun _ v => v.size) ⟨[], none, 0⟩

/-- The resource-level table sizes summed inside one prepared type entry. -/
theorem teResSizes_sum {te : TypeEntry} (hte : te.prepared)
    (hnd : (akeys te.Resources).Nodup) :
    (((te.OrderedKeys.getD []).map (fun r => (resGet te r).size))).sum =
      (te.Resources.map (fun q => q.2.size)).sum := by
  rw [hte.1]
  show ((sortIdents (akeys te.Resources)).map (fun r => (resGet te r).size)).sum = _
  exact map_sortIdents_lookup te.Resources hnd (fun _ v => v.size) ⟨[], none⟩

/-- The language counts summed inside one prepared type entry. -/
theorem teLeafCount_eq {te : TypeEntry} (hte : te.prepared)
    (hnd : (akeys te.Resources).Nodup) :
    teLeafCount te = (te.Resources.map (fun q => q.2.Data.length)).sum := by
  unfold teLeafCount
  rw [hte.1]
  show ((sortIdents (akeys te.Resources)).map (langLen te)).sum = _
  have hc : ∀ r ∈ sortIdents (akeys te.Resources),
      langLen te r = (resGet te r).Data.length := fun r hr =>
    prepared_langLen hte ((sortIdents_perm (akeys te.Resources)).subset hr)
  rw [List.map_congr_left hc]
  exact map_sortIdents_lookup te.Resources hnd (fun _ v => v.Data.length) ⟨[], none⟩

/-- The closed form claimed by the spec for the directory region: headers
and 8-byte entries only, with no account of the 16-byte data records. -/
def claimDirSize (rs : ResourceSet) : Nat :=
  sizeOfDirTable + rs.Types.length * sizeOfDirEntry +
    (rs.Types.map (fun p =>
      p.2.size + (p.2.Resources.map (fun q => q.2.size)).sum)).sum

theorem sum_map_mul_right {α : Type} (f : α → Nat) (c : Nat) :
    ∀ l : List α, (l.map (fun x => f x * c)).sum = (l.map f).sum * c
  | [] => by simp
  | x :: l => by
    rw [List.map_cons, List.map_cons, List.sum_cons, List.sum_cons,
      sum_map_mul_right f c l]
    ring

theorem dirSize_split (rs : ResourceSet) :
    rs.dirSize = claimDirSize rs + sizeOfDataEntry * rs.numDataEntries := by
  unfold ResourceSet.dirSize claimDirSize ResourceSet.numDataEntries
  have h1 : ∀ p : Identifier × TypeEntry,
      p.2.size + (p.2.Resources.map
        (fun q => q.2.size + q.2.Data.length * sizeOfDataEntry)).sum =
      (p.2.size + (p.2.Resources.map (fun q => q.2.size)).sum) +
        (p.2.Resources.map (fun q => q.2.Data.length)).sum * sizeOfDataEntry := by
    intro p
    rw [sum_map_add (fun q : Identifier × ResourceEntry => q.2.size)
        (fun q : Identifier × ResourceEntry => q.2.Data.length * sizeOfDataEntry),
      sum_map_mul_right (fun q : Identifier × ResourceEntry => q.2.Data.length)
        sizeOfDataEntry]
    ring
  rw [List.map_congr_left (fun p _ => h1 p),
    sum_map_add (fun p : Identifier × TypeEntry =>
        p.2.size + (p.2.Resources.map (fun q => q.2.size)).sum)
      (fun p : Identifier × TypeEntry =>
        (p.2.Resources.map (fun q => q.2.Data.length)).sum * sizeOfDataEntry),
    sum_map_mul_right (fun p : Identifier × TypeEntry =>
        (p.2.Resources.map (fun q => q.2.Data.length)).sum) sizeOfDataEntry]
  ring

theorem Order_resources_map_sum (te : TypeEntry) (f : ResourceEntry → Nat)
    (hf : ∀ re, f re.order = f re) :
    ((te.Order).Resources.map (fun q => f q.2)).sum =
      (te.Resources.map (fun q => f q.2)).sum := by
  unfold TypeEntry.Order
  cases te.OrderedKeys with
  | some ks => rfl
  | none =>
    show ((te.Resources.map (fun p => (p.1, p.2.order))).map (fun q => f q.2)).sum = _
    rw [List.map_map]
    exact congrArg List.sum (List.map_congr_left (fun p _ => hf p.2))

theorem order_data_len (re : ResourceEntry) : (re.order).Data.length = re.Data.length := by
  rw [ResourceEntry_order_Data]

theorem Order_size (te : TypeEntry) : (te.Order).size = te.size := by
  unfold TypeEntry.size
  congr 1
  have := congrArg List.length (TypeEntry_Order_keys te)
  unfold akeys at this
  rw [List.length_map, List.length_map] at this
  rw [this]

theorem order_size (re : ResourceEntry) : (re.order).size = re.size := by
  unfold ResourceEntry.size
  rw [ResourceEntry_order_Data]

theorem order_Types_len (rs : ResourceSet) :
    (rs.order).1.Types.length = rs.Types.length := by
  rw [order_fst_Types, List.length_map]

theorem dirSize_order (rs : ResourceSet) : (rs.order).1.dirSize = rs.dirSize := by
  unfold ResourceSet.dirSize
  rw [order_Types_len, order_fst_Types, List.map_map]
  congr 2
  refine List.map_congr_left fun p _ => ?_
  show p.2.Order.size + ((p.2.Order).Resources.map
    (fun r => r.2.size + r.2.Data.length * sizeOfDataEntry)).sum = _
  rw [Order_size,
    Order_resources_map_sum p.2 (fun re => re.size + re.Data.length * sizeOfDataEntry)
      (fun re => by
        show re.order.size + re.order.Data.length * sizeOfDataEntry =
          re.size + re.Data.length * sizeOfDataEntry
        rw [order_size, order_data_len])]

theorem numData_order (rs : ResourceSet) :
    (rs.order).1.numDataEntries = rs.numDataEntries := by
  unfold ResourceSet.numDataEntries
  rw [order_fst_Types, List.map_map]
  congr 1
  refine List.map_congr_left fun p _ => ?_
  show ((p.2.Order).Resources.map (fun r => r.2.Data.length)).sum = _
  exact Order_resources_map_sum p.2 (fun re => re.Data.length)
    (fun re => order_data_len re)

theorem claimDirSize_order (rs : ResourceSet) :
    claimDirSize (rs.order).1 = claimDirSize rs := by
  unfold claimDirSize
  rw [order_Types_len, order_fst_Types, List.map_map]
  congr 2
  refine List.map_congr_left fun p _ => ?_
  show p.2.Order.size + ((p.2.Order).Resources.map (fun q => q.2.size)).sum = _
  rw [Order_size,
    Order_resources_map_sum p.2 (fun re => re.size) (fun re => order_size re)]

/-! ### Sums of loop quantities over the sorted root keys of a prepared set -/

theorem tableSizes_over_root {rs : ResourceSet} (hp : rs.prepared) :
    ((sortIdents (akeys rs.Types)).map (fun t => sizeOfDirTable +
      sizeOfDirEntry * ((typesGet rs t).OrderedKeys.getD []).length)).sum =
      (rs.Types.map (fun p => p.2.size)).sum := by
  have hcongr : ∀ t ∈ sortIdents (akeys rs.Types),
      sizeOfDirTable + sizeOfDirEntry * ((typesGet rs t).OrderedKeys.getD []).length =
      (typesGet rs t).size := by
    intro t ht
    have hte := (prepared_typesGet hp ((sortIdents_perm _).subset ht)).1
    rw [prepared_ordLen hte]
    show 16 + 8 * (typesGet rs t).Resources.length =
      16 + (typesGet rs t).Resources.length * 8
    ring
  rw [List.map_congr_left hcongr]
  exact rootSizes_sum hp

theorem resSizes_sum_over_root {rs : ResourceSet} (hp : rs.prepared) :
    ((sortIdents (akeys rs.Types)).map (fun t =>
      (((typesGet rs t).OrderedKeys.getD []).map
        (fun r => (resGet (typesGet rs t) r).size)).sum)).sum =
      (rs.Types.map (fun p => (p.2.Resources.map (fun q => q.2.size)).sum)).sum := by
  have hcongr : ∀ t ∈ sortIdents (akeys rs.Types),
      (((typesGet rs t).OrderedKeys.getD []).map
        (fun r => (resGet (typesGet rs t) r).size)).sum =
      ((typesGet rs t).Resources.map (fun q => q.2.size)).sum := by
    intro t ht
    have hmem := prepared_typesGet hp ((sortIdents_perm _).subset ht)
    exact teResSizes_sum hmem.1 (hp.1.2 _ hmem.2).1
  rw [List.map_congr_left hcongr]
  exact map_sortIdents_lookup rs.Types hp.1.1
    (fun _ te => (te.Resources.map (fun q => q.2.size)).sum) ⟨[], none, 0⟩

theorem langSizes_over_root {rs : ResourceSet} (hp : rs.prepared) :
    ((sortIdents (akeys rs.Types)).map (fun t =>
      (((typesGet rs t).OrderedKeys.getD []).map
        (fun r => sizeOfDirTable + sizeOfDirEntry * langLen (typesGet rs t) r)).sum)).sum =
      (rs.Types.map (fun p => (p.2.Resources.map (fun q => q.2.size)).sum)).sum := by
  have hcongr : ∀ t ∈ sortIdents (akeys rs.Types),
      (((typesGet rs t).OrderedKeys.getD []).map
        (fun r => sizeOfDirTable + sizeOfDirEntry * langLen (typesGet rs t) r)).sum =
      ((typesGet rs t).Resources.map (fun q => q.2.size)).sum := by
    intro t ht
    have hmem := prepared_typesGet hp ((sortIdents_perm _).subset ht)
    have hte := hmem.1
    have hnd := (hp.1.2 _ hmem.2).1
    have hin : ∀ r ∈ (typesGet rs t).OrderedKeys.getD [],
        sizeOfDirTable + sizeOfDirEntry * langLen (typesGet rs t) r =
        (resGet (typesGet rs t) r).size := by
      intro r hr
      rw [hte.1] at hr
      have hrk := (sortIdents_perm _).subset hr
      rw [prepared_langLen hte hrk]
      show 16 + 8 * (resGet (typesGet rs t) r).Data.length =
        16 + (resGet (typesGet rs t) r).Data.length * 8
      ring
    rw [List.map_congr_left hin]
    exact teResSizes_sum hte hnd
  rw [List.map_congr_left hcongr]
  exact map_sortIdents_lookup rs.Types hp.1.1
    (fun _ te => (te.Resources.map (fun q => q.2.size)).sum) ⟨[], none, 0⟩

theorem leafCount_over_root {rs : ResourceSet} (hp : rs.prepared) :
    leafCount rs (sortIdents (akeys rs.Types)) = rs.numDataEntries := by
  unfold leafCount ResourceSet.numDataEntries
  have hcongr : ∀ t ∈ sortIdents (akeys rs.Types),
      teLeafCount (typesGet rs t) =
      ((typesGet rs t).Resources.map (fun q => q.2.Data.length)).sum := by
    intro t ht
    have hmem := prepared_typesGet hp ((sortIdents_perm _).subset ht)
    exact teLeafCount_eq hmem.1 (hp.1.2 _ hmem.2).1
  rw [List.map_congr_left hcongr]
  exact map_sortIdents_lookup rs.Types hp.1.1
    (fun _ te => (te.Resources.map (fun q => q.2.Data.length)).sum) ⟨[], none, 0⟩

/-! ### The write pipeline, stage by stage -/

/-- The resource set with computed caches used throughout `write`. -/
def rsW (rs : ResourceSet) : ResourceSet := (rs.order).1

/-- The initial write state produced by `prepare`. -/
def stage0 (rs : ResourceSet) : state := (rs.prepare).1

def stageA (rs : ResourceSet) : List Nat × state :=
  (rsW rs).writeTypeDir (stage0 rs)

def stageB (rs : ResourceSet) : List Nat × state :=
  (rsW rs).writeResDirs (stageA rs).2

def stageC (rs : ResourceSet) : List Nat × state :=
  (rsW rs).writeLangDirs (stageB rs).2

def stageS3 (rs : ResourceSet) : state :=
  { (stageC rs).2 with offset := (stageC rs).2.offset + 2 * (stageC rs).2.namesData.length }

def stageD (rs : ResourceSet) : List Nat × state :=
  (rsW rs).writeDataIndex (stageS3 rs)

/-- The data entries of the section in emission order. -/
def writeLeaves (rs : ResourceSet) : List DataEntry :=
  leavesD (rsW rs) (sortIdents (akeys rs.Types))

theorem write_eq_stages (rs : ResourceSet) :
    rs.write = ((stageA rs).1 ++ (stageB rs).1 ++ (stageC rs).1 ++ (stageD rs).1 ++
      u16Bytes (stageD rs).2.namesData ++ (rsW rs).writeData (stageD rs).2,
      (stageD rs).2.relocAddr, rsW rs) := rfl

theorem rsW_keys (rs : ResourceSet) : akeys (rsW rs).Types = akeys rs.Types := by
  show akeys (rs.order).1.Types = akeys rs.Types
  rw [order_fst_Types]
  unfold akeys
  rw [List.map_map]
  rfl

theorem rsW_prepared {rs : ResourceSet} (hc : rs.Consistent) : (rsW rs).prepared :=
  consistent_order rs hc

theorem claimDirSize_rsW (rs : ResourceSet) : claimDirSize (rsW rs) = claimDirSize rs :=
  claimDirSize_order rs

theorem numData_rsW (rs : ResourceSet) :
    (rsW rs).numDataEntries = rs.numDataEntries := numData_order rs

theorem sortIdents_akeys_length {ν : Type} (M : List (Identifier × ν)) :
    (sortIdents (akeys M)).length = M.length := by
  rw [(sortIdents_perm _).length_eq]
  unfold akeys
  rw [List.length_map]

theorem stage0_offset (rs : ResourceSet) : (stage0 rs).offset = 0 := rfl

theorem stage0_reloc (rs : ResourceSet) : (stage0 rs).relocAddr = [] := rfl

theorem stage0_keys (rs : ResourceSet) :
    (stage0 rs).orderedKeys = sortIdents (akeys rs.Types) := rfl

theorem stageA_snd (rs : ResourceSet) :
    (stageA rs).2 = { stage0 rs with offset := (stage0 rs).offset + sizeOfDirTable +
      sizeOfDirEntry * (stage0 rs).orderedKeys.length +
      ((stage0 rs).orderedKeys.map (fun i => (typesGet (rsW rs) i).size)).sum } :=
  (writeTypeDir_spec (rsW rs) (stage0 rs)).2

theorem stageA_len (rs : ResourceSet) :
    (stageA rs).1.length =
      sizeOfDirTable + sizeOfDirEntry * (sortIdents (akeys rs.Types)).length := by
  have h := (writeTypeDir_spec (rsW rs) (stage0 rs)).1
  rw [stage0_keys] at h
  exact h

theorem stageA_keys (rs : ResourceSet) :
    (stageA rs).2.orderedKeys = sortIdents (akeys rs.Types) := by
  rw [stageA_snd]
  exact stage0_keys rs

theorem stageA_reloc (rs : ResourceSet) : (stageA rs).2.relocAddr = [] := by
  rw [stageA_snd]
  exact stage0_reloc rs

theorem stageB_eq (rs : ResourceSet) :
    stageB rs = resDirsLoop (rsW rs) (stageA rs).2.orderedKeys (stageA rs).2 := rfl

theorem stageB_snd (rs : ResourceSet) :
    (stageB rs).2 = { (stageA rs).2 with offset := (stageA rs).2.offset +
      ((stageA rs).2.orderedKeys.map (fun t =>
        (((typesGet (rsW rs) t).OrderedKeys.getD []).map
          (fun i => (resGet (typesGet (rsW rs) t) i).size)).sum)).sum } := by
  rw [stageB_eq]
  exact (resDirsLoop_spec (rsW rs) (stageA rs).2.orderedKeys (stageA rs).2).2

theorem stageB_len (rs : ResourceSet) :
    (stageB rs).1.length = ((sortIdents (akeys rs.Types)).map (fun t =>
      sizeOfDirTable +
        sizeOfDirEntry * ((typesGet (rsW rs) t).OrderedKeys.getD []).length)).sum := by
  rw [stageB_eq, stageA_keys]
  exact (resDirsLoop_spec (rsW rs) (sortIdents (akeys rs.Types)) (stageA rs).2).1

theorem stageB_keys (rs : ResourceSet) :
    (stageB rs).2.orderedKeys = sortIdents (akeys rs.Types) := by
  rw [stageB_snd]
  exact stageA_keys rs

theorem stageB_reloc (rs : ResourceSet) : (stageB rs).2.relocAddr = [] := by
  rw [stageB_snd]
  exact stageA_reloc rs

theorem stageB_offset {rs : ResourceSet} (hc : rs.Consistent) :
    (stageB rs).2.offset = claimDirSize rs := by
  rw [stageB_snd]
  show (stageA rs).2.offset + _ = _
  rw [stageA_keys, stageA_snd]
  show (stage0 rs).offset + sizeOfDirTable +
      sizeOfDirEntry * (stage0 rs).orderedKeys.length + _ + _ = _
  rw [stage0_offset, stage0_keys, ← rsW_keys rs,
    rootSizes_sum (rsW_prepared hc), resSizes_sum_over_root (rsW_prepared hc),
    sortIdents_akeys_length, ← claimDirSize_rsW rs]
  unfold claimDirSize
  rw [sum_map_add (fun p : Identifier × TypeEntry => p.2.size)
    (fun p : Identifier × TypeEntry => (p.2.Resources.map (fun q => q.2.size)).sum)]
  show 0 + sizeOfDirTable + sizeOfDirEntry * (rsW rs).Types.length + _ + _ = _
  ring

theorem stageC_eq (rs : ResourceSet) :
    stageC rs = langDirsLoop (rsW rs) (stageB rs).2.orderedKeys (stageB rs).2 := rfl

theorem stageC_snd (rs : ResourceSet) :
    (stageC rs).2 = { (stageB rs).2 with
      offset := (stageB rs).2.offset +
        sizeOfDataEntry * leafCount (rsW rs) (stageB rs).2.orderedKeys,
      relocAddr := (stageB rs).2.relocAddr ++
        relocList (leafCount (rsW rs) (stageB rs).2.orderedKeys) (stageB rs).2.offset } := by
  rw [stageC_eq]
  exact (langDirsLoop_spec (rsW rs) (stageB rs).2.orderedKeys (stageB rs).2).2

theorem stageC_len (rs : ResourceSet) :
    (stageC rs).1.length = ((sortIdents (akeys rs.Types)).map (fun t =>
      (((typesGet (rsW rs) t).OrderedKeys.getD []).map
        (fun r => sizeOfDirTable +
          sizeOfDirEntry * langLen (typesGet (rsW rs) t) r)).sum)).sum := by
  rw [stageC_eq, stageB_keys]
  exact (langDirsLoop_spec (rsW rs) (sortIdents (akeys rs.Types)) (stageB rs).2).1

theorem stageC_keys (rs : ResourceSet) :
    (stageC rs).2.orderedKeys = sortIdents (akeys rs.Types) := by
  rw [stageC_snd]
  exact stageB_keys rs

theorem leafCount_rsW {rs : ResourceSet} (hc : rs.Consistent) :
    leafCount (rsW rs) (sortIdents (akeys rs.Types)) = rs.numDataEntries := by
  rw [← rsW_keys rs, leafCount_over_root (rsW_prepared hc)]
  exact numData_rsW rs

theorem stageC_offset {rs : ResourceSet} (hc : rs.Consistent) :
    (stageC rs).2.offset = rs.dirSize := by
  rw [stageC_snd]
  show (stageB rs).2.offset + sizeOfDataEntry * leafCount _ _ = _
  rw [stageB_keys, stageB_offset hc, leafCount_rsW hc, dirSize_split]

theorem stageC_reloc {rs : ResourceSet} (hc : rs.Consistent) :
    (stageC rs).2.relocAddr = relocList rs.numDataEntries (claimDirSize rs) := by
  rw [stageC_snd]
  show (stageB rs).2.relocAddr ++ relocList _ _ = _
  rw [stageB_keys, stageB_reloc, stageB_offset hc, leafCount_rsW hc, List.nil_append]

theorem stageS3_keys (rs : ResourceSet) :
    (stageS3 rs).orderedKeys = sortIdents (akeys rs.Types) := stageC_keys rs

theorem stageC_names (rs : ResourceSet) :
    (stageC rs).2.namesData = (stage0 rs).namesData := by
  rw [stageC_snd]
  show (stageB rs).2.namesData = _
  rw [stageB_snd]
  show (stageA rs).2.namesData = _
  rw [stageA_snd]

theorem stageS3_offset {rs : ResourceSet} (hc : rs.Consistent) :
    (stageS3 rs).offset = rs.dirSize + 2 * (stage0 rs).namesData.length := by
  show (stageC rs).2.offset + 2 * (stageC rs).2.namesData.length = _
  rw [stageC_offset hc, stageC_names]

theorem stageD_eq (rs : ResourceSet) :
    stageD rs = dataIndexLoop (rsW rs) (stageS3 rs).orderedKeys (stageS3 rs) := rfl

theorem stageD_fst {rs : ResourceSet} (hc : rs.Consistent) :
    (stageD rs).1 = dataIndexBytes (writeLeaves rs)
      (rs.dirSize + 2 * (stage0 rs).namesData.length) := by
  rw [stageD_eq, stageS3_keys]
  rw [(dataIndexLoop_spec (rsW rs) (sortIdents (akeys rs.Types)) (stageS3 rs)).1,
    stageS3_offset hc]
  rfl

theorem stageD_snd (rs : ResourceSet) :
    (stageD rs).2 = { stageS3 rs with offset := (stageS3 rs).offset + sumPadded (leavesD (rsW rs) (stageS3 rs).orderedKeys) } := by
  rw [stageD_eq]
  exact (dataIndexLoop_spec (rsW rs) (stageS3 rs).orderedKeys (stageS3 rs)).2

theorem stageD_names (rs : ResourceSet) :
    (stageD rs).2.namesData = (stage0 rs).namesData := by
  rw [stageD_snd]
  show (stageS3 rs).namesData = _
  show (stageC rs).2.namesData = _
  exact stageC_names rs

theorem stageD_reloc {rs : ResourceSet} (hc : rs.Consistent) :
    (stageD rs).2.relocAddr = relocList rs.numDataEntries (claimDirSize rs) := by
  rw [stageD_snd]
  show (stageS3 rs).relocAddr = _
  show (stageC rs).2.relocAddr = _
  exact stageC_reloc hc

theorem stageD_orderedKeys (rs : ResourceSet) :
    (stageD rs).2.orderedKeys = sortIdents (akeys rs.Types) := by
  rw [stageD_snd]
  show (stageS3 rs).orderedKeys = _
  exact stageS3_keys rs

theorem writeLeaves_length {rs : ResourceSet} (hc : rs.Consistent) :
    (writeLeaves rs).length = rs.numDataEntries := by
  unfold writeLeaves
  rw [leavesD_length, leafCount_rsW hc]

theorem stageD_len {rs : ResourceSet} (hc : rs.Consistent) :
    (stageD rs).1.length = sizeOfDataEntry * rs.numDataEntries := by
  rw [stageD_fst hc, dataIndexBytes_length, writeLeaves_length hc]

theorem stageF_eq (rs : ResourceSet) :
    (rsW rs).writeData (stageD rs).2 = dataBytes (writeLeaves rs) := by
  show dataLoop (rsW rs) (stageD rs).2.orderedKeys = _
  rw [stageD_orderedKeys, dataLoop_spec]
  rfl

/-- Total length of the three directory-table levels of the output: this
is the spec's closed form. -/
theorem preDir_length {rs : ResourceSet} (hc : rs.Consistent) :
    ((stageA rs).1 ++ (stageB rs).1 ++ (stageC rs).1).length = claimDirSize rs := by
  rw [List.length_append, List.length_append, stageA_len, stageB_len, stageC_len,
    ← rsW_keys rs, tableSizes_over_root (rsW_prepared hc),
    langSizes_over_root (rsW_prepared hc), sortIdents_akeys_length,
    ← claimDirSize_rsW rs]
  unfold claimDirSize
  rw [sum_map_add (fun p : Identifier × TypeEntry => p.2.size)
    (fun p : Identifier × TypeEntry => (p.2.Resources.map (fun q => q.2.size)).sum)]
  ring

/-- Byte offset, in the output of `write`, at which the name string table
begins (the length of everything emitted before it). -/
def ResourceSet.namesStartOffset (rs : ResourceSet) : Nat :=
  ((stageA rs).1 ++ (stageB rs).1 ++ (stageC rs).1 ++ (stageD rs).1).length

/-- A two-resource sample set: type 3 with resources 1 and 2, one language
variant each. -/
def twoRes : ResourceSet :=
  (emptyRS.set (.id 3) (.id 1) 0 (some [1, 2, 3])).set (.id 3) (.id 2) 1033
    (some [4, 5, 6, 7])

/-- C8, corrected: the name string table does not begin at the claimed
closed form `16 + 8·entries` per level summed over the tree — the
directory region also holds one 16-byte data record per (type, id,
language) triple. For every consistent set, the output decomposes into
the three directory levels, the data records, the name table and the
payloads, and the name table begins at `claimDirSize + 16·numDataEntries`,
which is the source's `dirSize`. -/
theorem c8_names_start_offset (rs : ResourceSet) (hc : rs.Consistent) :
    (rs.write).1 = ((stageA rs).1 ++ (stageB rs).1 ++ (stageC rs).1 ++ (stageD rs).1) ++
      u16Bytes (stage0 rs).namesData ++ dataBytes (writeLeaves rs) ∧
    rs.namesStartOffset = claimDirSize rs + sizeOfDataEntry * rs.numDataEntries ∧
    rs.namesStartOffset = rs.dirSize := by
  refine ⟨?_, ?_, ?_⟩
  · have h1 : (rs.write).1 = (stageA rs).1 ++ (stageB rs).1 ++ (stageC rs).1 ++
        (stageD rs).1 ++ u16Bytes (stageD rs).2.namesData ++
        (rsW rs).writeData (stageD rs).2 := rfl
    rw [h1, stageD_names, stageF_eq]
  · unfold ResourceSet.namesStartOffset
    rw [List.length_append, preDir_length hc, stageD_len hc]
  · unfold ResourceSet.namesStartOffset
    rw [List.length_append, preDir_length hc, stageD_len hc, ← dirSize_split]

set_option maxRecDepth 4096 in
/-- The claimed closed form misses the data records: on `twoRes` the name
table begins at byte 136, while headers and entries alone total 104. -/
theorem c8_names_start_offset_counterexample :
    twoRes.namesStartOffset = 136 ∧ claimDirSize twoRes = 104 ∧
    twoRes.namesStartOffset ≠ claimDirSize twoRes := by
  refine ⟨by decide, by decide, by decide⟩

set_option maxRecDepth 4096 in
theorem c8_names_start_offset_witness :
    twoRes.Consistent ∧
    ((twoRes.write).1 = ((stageA twoRes).1 ++ (stageB twoRes).1 ++ (stageC twoRes).1 ++
        (stageD twoRes).1) ++
      u16Bytes (stage0 twoRes).namesData ++ dataBytes (writeLeaves twoRes) ∧
    twoRes.namesStartOffset =
      claimDirSize twoRes + sizeOfDataEntry * twoRes.numDataEntries ∧
    twoRes.namesStartOffset = twoRes.dirSize) :=
  ⟨by decide, c8_names_start_offset twoRes (by decide)⟩

/-! ### Indexed positions inside the data index and data regions -/

theorem relocList_getD : ∀ (n off k : Nat), k < n →
    (relocList n off).getD k 0 = off + sizeOfDataEntry * k
  | 0, _, k, hk => absurd hk (Nat.not_lt_zero k)
  | n + 1, off, 0, _ => by
    show off = off + sizeOfDataEntry * 0
    omega
  | n + 1, off, k + 1, hk => by
    show (relocList n (off + sizeOfDataEntry)).getD k 0 = _
    rw [relocList_getD n (off + sizeOfDataEntry) k (by omega)]
    ring

theorem dataIndexBytes_decomp : ∀ (ds : List DataEntry) (off k : Nat),
    k < ds.length →
    ∃ pre post, dataIndexBytes ds off =
      pre ++ writeDataEntry (off + sumPadded (ds.take k))
        ((ds.getD k ⟨[]⟩).Data.length) ++ post ∧
      pre.length = sizeOfDataEntry * k
  | [], _, k, hk => absurd hk (Nat.not_lt_zero k)
  | d :: ds, off, 0, _ => by
    refine ⟨[], dataIndexBytes ds (off + d.paddedDataSize), ?_, rfl⟩
    show writeDataEntry off d.Data.length ++ _ = _
    simp [sumPadded]
  | d :: ds, off, k + 1, hk => by
    obtain ⟨pre, post, h1, h2⟩ :=
      dataIndexBytes_decomp ds (off + d.paddedDataSize) k (by
        rw [List.length_cons] at hk; omega)
    refine ⟨writeDataEntry off d.Data.length ++ pre, post, ?_, ?_⟩
    · show writeDataEntry off d.Data.length ++ dataIndexBytes ds (off + d.paddedDataSize) = _
      rw [h1, List.getD_cons_succ, List.take_succ_cons]
      have hs : off + d.paddedDataSize + sumPadded (ds.take k) =
          off + sumPadded (d :: ds.take k) := by
        unfold sumPadded
        rw [List.map_cons, List.sum_cons]
        ring
      rw [← hs]
      simp [List.append_assoc]
    · rw [List.length_append, writeDataEntry_length, h2]
      ring

theorem dataBytes_decomp : ∀ (ds : List DataEntry) (k : Nat), k < ds.length →
    ∃ pre post, dataBytes ds = pre ++ (ds.getD k ⟨[]⟩).Data ++ post ∧
      pre.length = sumPadded (ds.take k)
  | [], k, hk => absurd hk (Nat.not_lt_zero k)
  | d :: ds, 0, _ => by
    refine ⟨[], List.replicate (d.paddedDataSize - d.Data.length) 0 ++ dataBytes ds,
      ?_, ?_⟩
    · show d.writeData ++ dataBytes ds = _
      show (d.Data ++ List.replicate (d.paddedDataSize - d.Data.length) 0) ++
        dataBytes ds = _
      simp [List.append_assoc]
    · simp [sumPadded]
  | d :: ds, k + 1, hk => by
    obtain ⟨pre, post, h1, h2⟩ := dataBytes_decomp ds k (by
      rw [List.length_cons] at hk; omega)
    refine ⟨d.writeData ++ pre, post, ?_, ?_⟩
    · show d.writeData ++ dataBytes ds = _
      rw [h1, List.getD_cons_succ]
      simp [List.append_assoc]
    · rw [List.length_append, writeData_length, h2, List.take_succ_cons]
      unfold sumPadded
      rw [List.map_cons, List.sum_cons]

/-- Length of everything emitted before the raw-data region. -/
theorem preNames_length {rs : ResourceSet} (hc : rs.Consistent) :
    ((stageA rs).1 ++ (stageB rs).1 ++ (stageC rs).1 ++ (stageD rs).1 ++
      u16Bytes (stage0 rs).namesData).length =
      rs.dirSize + 2 * (stage0 rs).namesData.length := by
  rw [List.length_append, List.length_append, preDir_length hc, stageD_len hc,
    u16Bytes_length, ← dirSize_split]

/-- Byte offset, in the output of `write`, at which the `k`-th payload (in
emission order) begins. -/
def payloadStart (rs : ResourceSet) (k : Nat) : Nat :=
  rs.dirSize + 2 * (stage0 rs).namesData.length + sumPadded ((writeLeaves rs).take k)

/-- C4, corrected: for every *consistent* resource set (no stale caches;
any set built by `Set` calls alone is consistent), the relocation list
returned by serialize has exactly one entry per (type, id, language)
triple; the `k`-th entry is the byte offset of the `k`-th 16-byte data
record, whose bytes are `writeDataEntry` of the payload's local offset and
length — in particular its first 4 bytes are the little-endian offset at
which that triple's payload begins in the output. On a stale-cached set
the code emits an empty relocation list (see the counterexample), so the
claim's "every serialize call" is amended to consistent receivers. -/
theorem c4_relocation_correctness (rs : ResourceSet) (hc : rs.Consistent) :
    (rs.write).2.1.length = rs.numDataEntries ∧
    ∀ k, k < rs.numDataEntries →
      (rs.write).2.1.getD k 0 = claimDirSize rs + sizeOfDataEntry * k ∧
      (∃ pre post, (rs.write).1 = pre ++
          writeDataEntry (payloadStart rs k)
            (((writeLeaves rs).getD k ⟨[]⟩).Data.length) ++ post ∧
        pre.length = (rs.write).2.1.getD k 0) ∧
      (∃ pre post, (rs.write).1 = pre ++ ((writeLeaves rs).getD k ⟨[]⟩).Data ++ post ∧
        pre.length = payloadStart rs k) := by
  have hr0 : (rs.write).2.1 = (stageD rs).2.relocAddr := rfl
  have hrel : (rs.write).2.1 = relocList rs.numDataEntries (claimDirSize rs) := by
    rw [hr0, stageD_reloc hc]
  refine ⟨by rw [hrel, relocList_length], ?_⟩
  intro k hk
  have hb0 : (rs.write).1 = (stageA rs).1 ++ (stageB rs).1 ++ (stageC rs).1 ++
      (stageD rs).1 ++ u16Bytes (stageD rs).2.namesData ++
      (rsW rs).writeData (stageD rs).2 := rfl
  rw [stageD_names, stageF_eq] at hb0
  have hklt : k < (writeLeaves rs).length := by rw [writeLeaves_length hc]; exact hk
  refine ⟨?_, ?_, ?_⟩
  · rw [hrel, relocList_getD _ _ _ hk]
  · obtain ⟨p1, p2, hD, hp1⟩ := dataIndexBytes_decomp (writeLeaves rs)
      (rs.dirSize + 2 * (stage0 rs).namesData.length) k hklt
    have hb1 := hb0
    rw [stageD_fst hc, hD] at hb1
    refine ⟨(stageA rs).1 ++ (stageB rs).1 ++ (stageC rs).1 ++ p1,
      p2 ++ u16Bytes (stage0 rs).namesData ++ dataBytes (writeLeaves rs), ?_, ?_⟩
    · rw [hb1]
      simp only [payloadStart, List.append_assoc]
    · rw [hrel, relocList_getD _ _ _ hk, List.length_append, preDir_length hc, hp1]
  · obtain ⟨q1, q2, hF, hq1⟩ := dataBytes_decomp (writeLeaves rs) k hklt
    have hb2 := hb0
    rw [hF] at hb2
    refine ⟨((stageA rs).1 ++ (stageB rs).1 ++ (stageC rs).1 ++ (stageD rs).1 ++
      u16Bytes (stage0 rs).namesData) ++ q1, q2, ?_, ?_⟩
    · rw [hb2]
      simp only [List.append_assoc]
    · rw [List.length_append, preNames_length hc, hq1]
      rfl

set_option maxRecDepth 4096 in
/-- After a serialize the resource-level cache can go stale (see the
determinism analysis); the next serialize then emits an *empty* relocation
list although the set holds two (type, id, language) triples, refuting the
claim's "every serialize call". -/
theorem c4_relocation_correctness_counterexample :
    (((((emptyRS.set (.id 1) (.id 1) 0 (some [1])).afterWrite).set (.id 1) (.id 1) 5
        (some [2])).write).2.1.length = 0) ∧
    ((((emptyRS.set (.id 1) (.id 1) 0 (some [1])).afterWrite).set (.id 1) (.id 1) 5
        (some [2])).numDataEntries = 2) :=
  ⟨by decide, by decide⟩

set_option maxRecDepth 4096 in
theorem c4_relocation_correctness_witness :
    twoRes.Consistent ∧
    ((twoRes.write).2.1.length = twoRes.numDataEntries ∧
    ∀ k, k < twoRes.numDataEntries →
      (twoRes.write).2.1.getD k 0 = claimDirSize twoRes + sizeOfDataEntry * k ∧
      (∃ pre post, (twoRes.write).1 = pre ++
          writeDataEntry (payloadStart twoRes k)
            (((writeLeaves twoRes).getD k ⟨[]⟩).Data.length) ++ post ∧
        pre.length = (twoRes.write).2.1.getD k 0) ∧
      (∃ pre post, (twoRes.write).1 = pre ++
          ((writeLeaves twoRes).getD k ⟨[]⟩).Data ++ post ∧
        pre.length = payloadStart twoRes k)) :=
  ⟨by decide, c4_relocation_correctness twoRes (by decide)⟩

/-! ### Byte-window access toolkit for decoding proofs -/

/-- Reading a window of `n` bytes at offset `i` out of a decomposed buffer. -/
theorem window_eq {B : List Nat} {i n : Nat} (pre mid post : List Nat)
    (h : B = pre ++ mid ++ post) (hp : pre.length = i) (hm : mid.length = n) :
    (B.drop i).take n = mid := by
  subst hp
  subst hm
  rw [h, List.append_assoc, List.drop_left, List.take_left]

theorem decodeU16_le16 (n : Nat) : decodeU16 (le16 n) = n % 2 ^ 16 := by
  show n % 256 % 256 + n / 256 % 256 % 256 * 256 = n % 2 ^ 16
  have h16 : (2 : Nat) ^ 16 = 65536 := by norm_num
  rw [h16]
  omega

theorem decodeU32_le32 (n : Nat) : decodeU32 (le32 n) = n % 2 ^ 32 := by
  show n % 256 % 256 + n / 256 % 256 % 256 * 256 + n / 2 ^ 16 % 256 % 256 * 2 ^ 16 +
    n / 2 ^ 24 % 256 % 256 * 2 ^ 24 = n % 2 ^ 32
  have h16 : (2 : Nat) ^ 16 = 65536 := by norm_num
  have h24 : (2 : Nat) ^ 24 = 16777216 := by norm_num
  have h32 : (2 : Nat) ^ 32 = 4294967296 := by norm_num
  rw [h16, h24, h32]
  omega

theorem alookup_cons_self {κ ν : Type} [DecidableEq κ] (k : κ) (v : ν)
    (l : List (κ × ν)) : alookup k ((k, v) :: l) = some v := by
  show (if k = k then some v else alookup k l) = some v
  rw [if_pos rfl]

theorem u16Bytes_cons (n : Nat) (ns : List Nat) :
    u16Bytes (n :: ns) = le16 n ++ u16Bytes ns := rfl

/-! ### A name of 2^16 UTF-16 units breaks the round-trip

The name-table entry stores the name length in a `uint16`; a 65536-unit
name is written with a length field of 0, so the decoder reads back an
empty name and the reconstruction's own validation rejects it. The
following development traces the decoder over the serialized bytes
symbolically (the buffer is ~131 KB, far beyond kernel evaluation). -/

def bigName : Name := List.replicate 65536 0

def bigS : ResourceSet := emptyRS.set (.name bigName) (.id 1) 0 (some [1])

def bigRE : ResourceEntry := ⟨[(0, ⟨[1]⟩)], some [0]⟩

def bigTE : TypeEntry := ⟨[(.id 1, bigRE)], some [.id 1], 0⟩

theorem bigS_eq : bigS = ⟨[(.name bigName, ⟨[(.id 1, ⟨[(0, ⟨[1]⟩)], none⟩)], none, 0⟩)], 0, 0⟩ := rfl

theorem bigS_rsW : (rsW bigS).Types = [(.name bigName, bigTE)] := rfl

theorem bigS_rootKeys : sortIdents (akeys bigS.Types) = [.name bigName] := rfl

theorem bigS_typesGet : typesGet (rsW bigS) (.name bigName) = bigTE := by
  rw [typesGet, bigS_rsW, alookup_cons_self]
  rfl

theorem bigS_s0_keys : (stage0 bigS).orderedKeys = [.name bigName] := rfl

theorem bigS_s0_count : (stage0 bigS).namesCount = 1 := rfl

theorem bigS_s0_nameOffset : (stage0 bigS).nameOffset = [(bigName, 88)] := rfl

theorem bigS_nameOff : nameOff (stage0 bigS) bigName = 88 := by
  rw [nameOff, bigS_s0_nameOffset, alookup_cons_self]
  rfl

/-- The shape of `prepare`'s padded name table, with the name list and the
directory size left symbolic. -/
theorem prepare_namesData (rs : ResourceSet) :
    (rs.prepare).1.namesData =
      (buildNames (sortNames (allNames (rs.order).1).dedup) ((rs.order).1.dirSize)).2 ++
      List.replicate ((alignData (2 *
        (buildNames (sortNames (allNames (rs.order).1).dedup)
          ((rs.order).1.dirSize)).2.length) -
        2 * (buildNames (sortNames (allNames (rs.order).1).dedup)
          ((rs.order).1.dirSize)).2.length) / 2) 0 := rfl

theorem bigS_names_list : sortNames (allNames (bigS.order).1).dedup = [bigName] := rfl

theorem bigS_dirSize : (bigS.order).1.dirSize = 88 := rfl

theorem bigName_length : bigName.length = 65536 := by
  show (List.replicate 65536 0).length = 65536
  rw [List.length_replicate]

theorem bigS_namesData :
    (stage0 bigS).namesData = 65536 :: (bigName ++ List.replicate 3 0) := by
  show (bigS.prepare).1.namesData = _
  rw [prepare_namesData, bigS_names_list, bigS_dirSize]
  have h1 : (buildNames [bigName] 88).2 = bigName.length :: bigName := by
    show (bigName.length :: bigName) ++
      (buildNames [] (88 + (bigName.length + 1) * 2)).2 = _
    rw [show (buildNames [] (88 + (bigName.length + 1) * 2)).2 = [] from rfl,
      List.append_nil]
  rw [h1, List.length_cons, bigName_length]
  rw [show (alignData (2 * (65536 + 1)) - 2 * (65536 + 1)) / 2 = 3 by decide]
  rw [List.cons_append]

theorem state_update_offset (s : state) (v : Nat) :
    ({ s with offset := v } : state).offset = v := rfl

theorem state_update_offset_reloc (s : state) (v : Nat) :
    ({ s with offset := v } : state).relocAddr = s.relocAddr := rfl

theorem state_update_or_offset (s : state) (v : Nat) (r : List Nat) :
    ({ s with offset := v, relocAddr := r } : state).offset = v := rfl

set_option maxRecDepth 2048 in
theorem bigTE_write_fst (s : state) : (bigTE.write s).1 =
    writeDirectoryTable 0 1 ++ [] ++ (writeDirectoryEntry 1 s.offset false true ++ []) :=
  rfl

set_option maxRecDepth 2048 in
theorem bigTE_write_snd (s : state) : (bigTE.write s).2 =
    { s with offset := s.offset + 24 } := rfl

set_option maxRecDepth 2048 in
theorem bigRE_write_fst (s : state) : (bigRE.write s).1 =
    writeDirectoryTable 0 1 ++ (writeDirectoryEntry 0 s.offset false false ++ []) := rfl

set_option maxRecDepth 2048 in
theorem bigRE_write_snd (s : state) : (bigRE.write s).2 =
    { s with offset := s.offset + 16, relocAddr := s.relocAddr ++ [s.offset] } := rfl

set_option maxRecDepth 2048 in
theorem bigS_A : (stageA bigS).1 =
    [0, 0, 0, 0, 0, 0, 0, 0, 0, 0, 0, 0, 1, 0, 0, 0,
     88, 0, 0, 128, 24, 0, 0, 128] := by
  have hA : (stageA bigS).1 = writeDirectoryTable 1 0 ++
      (writeDirectoryEntry (nameOff (stage0 bigS) bigName) 24 true true ++ []) ++ [] :=
    rfl
  rw [hA, bigS_nameOff]
  rfl

set_option maxRecDepth 2048 in
theorem bigS_keys_len : (stage0 bigS).orderedKeys.length = 1 := by
  rw [bigS_s0_keys]
  rfl

set_option maxRecDepth 2048 in
theorem bigS_sizes_sum :
    ((stage0 bigS).orderedKeys.map (fun i => (typesGet (rsW bigS) i).size)).sum = 24 := by
  rw [bigS_s0_keys]
  show [(typesGet (rsW bigS) (.name bigName)).size].sum = 24
  rw [bigS_typesGet]
  rfl

set_option maxRecDepth 2048 in
theorem bigS_Aoff : (stageA bigS).2.offset = 48 := by
  rw [stageA_snd, state_update_offset, stage0_offset, bigS_sizes_sum, bigS_keys_len]
  rfl

set_option maxRecDepth 2048 in
theorem bigS_B_fst : (stageB bigS).1 = (bigTE.write (stageA bigS).2).1 ++ [] := by
  rw [stageB_eq, stageA_keys, bigS_rootKeys]
  show ((typesGet (rsW bigS) (.name bigName)).write (stageA bigS).2).1 ++
    (resDirsLoop (rsW bigS) []
      ((typesGet (rsW bigS) (.name bigName)).write (stageA bigS).2).2).1 = _
  rw [bigS_typesGet]
  rfl

set_option maxRecDepth 2048 in
theorem step_resLoop_cons_fst (rs : ResourceSet) (t : Identifier) (ts : List Identifier)
    (s : state) : (resDirsLoop rs (t :: ts) s).1 =
      ((typesGet rs t).write s).1 ++ (resDirsLoop rs ts ((typesGet rs t).write s).2).1 :=
  rfl

theorem step_resLoop_cons_snd (rs : ResourceSet) (t : Identifier) (ts : List Identifier)
    (s : state) : (resDirsLoop rs (t :: ts) s).2 =
      (resDirsLoop rs ts ((typesGet rs t).write s).2).2 := rfl

theorem step_resLoop_nil_fst (rs : ResourceSet) (s : state) :
    (resDirsLoop rs [] s).1 = [] := rfl

theorem step_resLoop_nil_snd (rs : ResourceSet) (s : state) :
    (resDirsLoop rs [] s).2 = s := rfl

theorem step_langLoop_cons_fst (rs : ResourceSet) (t : Identifier) (ts : List Identifier)
    (s : state) : (langDirsLoop rs (t :: ts) s).1 =
      (langDirsInner (typesGet rs t) ((typesGet rs t).OrderedKeys.getD []) s).1 ++
      (langDirsLoop rs ts
        (langDirsInner (typesGet rs t) ((typesGet rs t).OrderedKeys.getD []) s).2).1 :=
  rfl

theorem step_langLoop_cons_snd (rs : ResourceSet) (t : Identifier) (ts : List Identifier)
    (s : state) : (langDirsLoop rs (t :: ts) s).2 =
      (langDirsLoop rs ts
        (langDirsInner (typesGet rs t) ((typesGet rs t).OrderedKeys.getD []) s).2).2 :=
  rfl

theorem step_langLoop_nil_fst (rs : ResourceSet) (s : state) :
    (langDirsLoop rs [] s).1 = [] := rfl

theorem step_langLoop_nil_snd (rs : ResourceSet) (s : state) :
    (langDirsLoop rs [] s).2 = s := rfl

theorem step_inner_cons_fst (te : TypeEntry) (r : Identifier) (rks : List Identifier)
    (s : state) : (langDirsInner te (r :: rks) s).1 =
      ((resGet te r).write s).1 ++ (langDirsInner te rks ((resGet te r).write s).2).1 :=
  rfl

theorem step_inner_cons_snd (te : TypeEntry) (r : Identifier) (rks : List Identifier)
    (s : state) : (langDirsInner te (r :: rks) s).2 =
      (langDirsInner te rks ((resGet te r).write s).2).2 := rfl

theorem step_inner_nil_fst (te : TypeEntry) (s : state) :
    (langDirsInner te [] s).1 = [] := rfl

theorem step_inner_nil_snd (te : TypeEntry) (s : state) :
    (langDirsInner te [] s).2 = s := rfl

theorem step_idxLoop_cons_fst (rs : ResourceSet) (t : Identifier) (ts : List Identifier)
    (s : state) : (dataIndexLoop rs (t :: ts) s).1 =
      (dataIndexRes (typesGet rs t) ((typesGet rs t).OrderedKeys.getD []) s).1 ++
      (dataIndexLoop rs ts
        (dataIndexRes (typesGet rs t) ((typesGet rs t).OrderedKeys.getD []) s).2).1 :=
  rfl

theorem step_idxLoop_nil_fst (rs : ResourceSet) (s : state) :
    (dataIndexLoop rs [] s).1 = [] := rfl

theorem step_idxRes_cons_fst (te : TypeEntry) (r : Identifier) (rks : List Identifier)
    (s : state) : (dataIndexRes te (r :: rks) s).1 =
      (dataIndexLangs (resGet te r) ((resGet te r).OrderedKeys.getD []) s).1 ++
      (dataIndexRes te rks
        (dataIndexLangs (resGet te r) ((resGet te r).OrderedKeys.getD []) s).2).1 :=
  rfl

theorem step_idxRes_nil_fst (te : TypeEntry) (s : state) :
    (dataIndexRes te [] s).1 = [] := rfl

theorem step_idxLangs_cons_fst (re : ResourceEntry) (l : Nat) (ls : List Nat)
    (s : state) : (dataIndexLangs re (l :: ls) s).1 =
      ((dataGet re l).write s).1 ++ (dataIndexLangs re ls ((dataGet re l).write s).2).1 :=
  rfl

theorem step_idxLangs_nil_fst (re : ResourceEntry) (s : state) :
    (dataIndexLangs re [] s).1 = [] := rfl

theorem step_dataLoop_cons (rs : ResourceSet) (t : Identifier) (ts : List Identifier) :
    dataLoop rs (t :: ts) =
      dataRes (typesGet rs t) ((typesGet rs t).OrderedKeys.getD []) ++ dataLoop rs ts :=
  rfl

theorem step_dataLoop_nil (rs : ResourceSet) : dataLoop rs [] = [] := rfl

theorem step_dataRes_cons (te : TypeEntry) (r : Identifier) (rks : List Identifier) :
    dataRes te (r :: rks) =
      dataLangs (resGet te r) ((resGet te r).OrderedKeys.getD []) ++ dataRes te rks :=
  rfl

theorem step_dataRes_nil (te : TypeEntry) : dataRes te [] = [] := rfl

theorem step_dataLangs_cons (re : ResourceEntry) (l : Nat) (ls : List Nat) :
    dataLangs re (l :: ls) = (dataGet re l).writeData ++ dataLangs re ls := rfl

theorem step_dataLangs_nil (re : ResourceEntry) : dataLangs re [] = [] := rfl

theorem step_writeData (rs : ResourceSet) (s : state) :
    rs.writeData s = dataLoop rs s.orderedKeys := rfl

def bigDE : DataEntry := ⟨[1]⟩

theorem bigTE_keys : bigTE.OrderedKeys.getD [] = [.id 1] := rfl

theorem bigTE_resGet : resGet bigTE (.id 1) = bigRE := by
  rw [resGet]
  show (alookup (Identifier.id 1) [(Identifier.id 1, bigRE)]).getD ⟨[], none⟩ = bigRE
  rw [alookup_cons_self]
  rfl

theorem bigRE_keys : bigRE.OrderedKeys.getD [] = [0] := rfl

theorem bigRE_dataGet : dataGet bigRE 0 = bigDE := by
  rw [dataGet]
  show (alookup 0 [(0, bigDE)]).getD ⟨[]⟩ = bigDE
  rw [alookup_cons_self]
  rfl

theorem bigDE_write_fst (s : state) : (bigDE.write s).1 = writeDataEntry s.offset 1 :=
  rfl

theorem bigDE_writeData : bigDE.writeData = [1, 0, 0, 0, 0, 0, 0, 0] := rfl

set_option maxRecDepth 2048 in
theorem bigS_B_snd : (stageB bigS).2 = (bigTE.write (stageA bigS).2).2 := by
  rw [stageB_eq, stageA_keys, bigS_rootKeys, step_resLoop_cons_snd, bigS_typesGet,
    step_resLoop_nil_snd]

set_option maxRecDepth 2048 in
theorem bigS_B : (stageB bigS).1 =
    [0, 0, 0, 0, 0, 0, 0, 0, 0, 0, 0, 0, 0, 0, 1, 0,
     1, 0, 0, 0, 48, 0, 0, 128] := by
  rw [bigS_B_fst, bigTE_write_fst, bigS_Aoff]
  rfl

set_option maxRecDepth 2048 in
theorem bigS_Boff : (stageB bigS).2.offset = 72 := by
  rw [bigS_B_snd, bigTE_write_snd, state_update_offset, bigS_Aoff]

set_option maxRecDepth 2048 in
theorem bigS_C_fst : (stageC bigS).1 =
    ((bigRE.write (stageB bigS).2).1 ++ []) ++ [] := by
  rw [stageC_eq, stageB_keys, bigS_rootKeys, step_langLoop_cons_fst, bigS_typesGet,
    bigTE_keys, step_inner_cons_fst, bigTE_resGet, step_inner_nil_fst,
    step_langLoop_nil_fst]

set_option maxRecDepth 2048 in
theorem bigS_C_snd : (stageC bigS).2 = (bigRE.write (stageB bigS).2).2 := by
  rw [stageC_eq, stageB_keys, bigS_rootKeys, step_langLoop_cons_snd, bigS_typesGet,
    bigTE_keys, step_inner_cons_snd, bigTE_resGet, step_inner_nil_snd,
    step_langLoop_nil_snd]

set_option maxRecDepth 2048 in
theorem bigS_C : (stageC bigS).1 =
    [0, 0, 0, 0, 0, 0, 0, 0, 0, 0, 0, 0, 0, 0, 1, 0,
     0, 0, 0, 0, 72, 0, 0, 0] := by
  rw [bigS_C_fst, bigRE_write_fst, bigS_Boff]
  rfl

set_option maxRecDepth 2048 in
theorem bigS_Coff : (stageC bigS).2.offset = 88 := by
  rw [bigS_C_snd, bigRE_write_snd, state_update_or_offset, bigS_Boff]

set_option maxRecDepth 2048 in
theorem bigS_nd_len : (stage0 bigS).namesData.length = 65540 := by
  rw [bigS_namesData, List.length_cons, List.length_append, List.length_replicate,
    bigName_length]

theorem stageS3_off_eq (rs : ResourceSet) :
    (stageS3 rs).offset = (stageC rs).2.offset + 2 * (stageC rs).2.namesData.length :=
  rfl

set_option maxRecDepth 2048 in
theorem bigS_S3off : (stageS3 bigS).offset = 131168 := by
  rw [stageS3_off_eq, bigS_Coff, stageC_names, bigS_nd_len]

set_option maxRecDepth 2048 in
theorem bigS_D_fst : (stageD bigS).1 =
    ((writeDataEntry (stageS3 bigS).offset 1 ++ []) ++ []) ++ [] := by
  rw [stageD_eq, stageS3_keys, bigS_rootKeys, step_idxLoop_cons_fst, bigS_typesGet,
    bigTE_keys, step_idxRes_cons_fst, bigTE_resGet, bigRE_keys,
    step_idxLangs_cons_fst, bigRE_dataGet, bigDE_write_fst, step_idxLangs_nil_fst,
    step_idxRes_nil_fst, step_idxLoop_nil_fst]

set_option maxRecDepth 2048 in
theorem bigS_D : (stageD bigS).1 =
    [96, 0, 2, 0, 1, 0, 0, 0, 0, 0, 0, 0, 0, 0, 0, 0] := by
  rw [bigS_D_fst, bigS_S3off]
  rfl

set_option maxRecDepth 2048 in
theorem bigS_E : u16Bytes (stageD bigS).2.namesData =
    [0, 0] ++ u16Bytes (bigName ++ List.replicate 3 0) := by
  rw [stageD_names, bigS_namesData, u16Bytes_cons]
  rfl

set_option maxRecDepth 2048 in
theorem bigS_F : (rsW bigS).writeData (stageD bigS).2 = [1, 0, 0, 0, 0, 0, 0, 0] := by
  rw [step_writeData, stageD_orderedKeys, bigS_rootKeys, step_dataLoop_cons,
    bigS_typesGet, bigTE_keys, step_dataRes_cons, bigTE_resGet, bigRE_keys,
    step_dataLangs_cons, bigRE_dataGet, bigDE_writeData, step_dataLangs_nil,
    step_dataRes_nil, step_dataLoop_nil]
  rfl

set_option maxRecDepth 2048 in
/-- The first 88 bytes of the serialization of `bigS` (all four directory
regions), followed by the name table (whose first two bytes are the
truncated 16-bit length of the 65536-unit name: zero) and the payload. -/
theorem bigS_bytes : (bigS.write).1 =
    [0, 0, 0, 0, 0, 0, 0, 0, 0, 0, 0, 0, 1, 0, 0, 0,
     88, 0, 0, 128, 24, 0, 0, 128,
     0, 0, 0, 0, 0, 0, 0, 0, 0, 0, 0, 0, 0, 0, 1, 0,
     1, 0, 0, 0, 48, 0, 0, 128,
     0, 0, 0, 0, 0, 0, 0, 0, 0, 0, 0, 0, 0, 0, 1, 0,
     0, 0, 0, 0, 72, 0, 0, 0,
     96, 0, 2, 0, 1, 0, 0, 0, 0, 0, 0, 0, 0, 0, 0, 0] ++
    ([0, 0] ++ (u16Bytes (bigName ++ List.replicate 3 0) ++
      [1, 0, 0, 0, 0, 0, 0, 0])) := by
  rw [write_eq_stages]
  show (stageA bigS).1 ++ (stageB bigS).1 ++ (stageC bigS).1 ++ (stageD bigS).1 ++
    u16Bytes (stageD bigS).2.namesData ++ (rsW bigS).writeData (stageD bigS).2 = _
  rw [bigS_A, bigS_B, bigS_C, bigS_D, bigS_E, bigS_F]
  rfl

set_option maxRecDepth 4096 in
theorem bigS_length : (bigS.write).1.length = 131176 := by
  rw [bigS_bytes, List.length_append, List.length_append, List.length_append,
    u16Bytes_length, List.length_append, List.length_replicate, bigName_length]
  decide

theorem window_lit {B P T : List Nat} {i n : Nat} (hB : B = P ++ T)
    (h : i + n ≤ P.length) : (B.drop i).take n = (P.drop i).take n := by
  subst hB
  rw [List.drop_append_of_le_length (by omega),
    List.take_append_of_le_length (by rw [List.length_drop]; omega)]

theorem window_tail {B P T : List Nat} {i : Nat} (hB : B = P ++ T)
    (hi : P.length = i) : B.drop i = T := by
  subst hB
  subst hi
  rw [List.drop_left]

theorem bigW12 : decodeU16 (((bigS.write).1.drop 12).take 2) = 1 := by
  rw [@window_lit (bigS.write).1 _ _ 12 2 bigS_bytes (by decide)]
  decide

theorem bigW14 : decodeU16 (((bigS.write).1.drop 14).take 2) = 0 := by
  rw [@window_lit (bigS.write).1 _ _ 14 2 bigS_bytes (by decide)]
  decide

theorem bigW16 : decodeU32 (((bigS.write).1.drop 16).take 4) = 2147483736 := by
  rw [@window_lit (bigS.write).1 _ _ 16 4 bigS_bytes (by decide)]
  decide

theorem bigW20 : decodeU32 (((bigS.write).1.drop 20).take 4) = 2147483672 := by
  rw [@window_lit (bigS.write).1 _ _ 20 4 bigS_bytes (by decide)]
  decide

theorem bigW36 : decodeU16 (((bigS.write).1.drop 36).take 2) = 0 := by
  rw [@window_lit (bigS.write).1 _ _ 36 2 bigS_bytes (by decide)]
  decide

theorem bigW38 : decodeU16 (((bigS.write).1.drop 38).take 2) = 1 := by
  rw [@window_lit (bigS.write).1 _ _ 38 2 bigS_bytes (by decide)]
  decide

theorem bigW40 : decodeU32 (((bigS.write).1.drop 40).take 4) = 1 := by
  rw [@window_lit (bigS.write).1 _ _ 40 4 bigS_bytes (by decide)]
  decide

theorem bigW44 : decodeU32 (((bigS.write).1.drop 44).take 4) = 2147483696 := by
  rw [@window_lit (bigS.write).1 _ _ 44 4 bigS_bytes (by decide)]
  decide

theorem bigW60 : decodeU16 (((bigS.write).1.drop 60).take 2) = 0 := by
  rw [@window_lit (bigS.write).1 _ _ 60 2 bigS_bytes (by decide)]
  decide

theorem bigW62 : decodeU16 (((bigS.write).1.drop 62).take 2) = 1 := by
  rw [@window_lit (bigS.write).1 _ _ 62 2 bigS_bytes (by decide)]
  decide

theorem bigW64 : decodeU32 (((bigS.write).1.drop 64).take 4) = 0 := by
  rw [@window_lit (bigS.write).1 _ _ 64 4 bigS_bytes (by decide)]
  decide

theorem bigW68 : decodeU32 (((bigS.write).1.drop 68).take 4) = 72 := by
  rw [@window_lit (bigS.write).1 _ _ 68 4 bigS_bytes (by decide)]
  decide

theorem bigW72 : decodeU32 (((bigS.write).1.drop 72).take 4) = 131168 := by
  rw [@window_lit (bigS.write).1 _ _ 72 4 bigS_bytes (by decide)]
  decide

theorem bigW76 : decodeU32 (((bigS.write).1.drop 76).take 4) = 1 := by
  rw [@window_lit (bigS.write).1 _ _ 76 4 bigS_bytes (by decide)]
  decide

theorem bigW88 : decodeU16 (((bigS.write).1.drop 88).take 2) = 0 := by
  rw [@window_tail (bigS.write).1 _ _ 88 bigS_bytes (by decide)]
  have ht : ([0, 0] ++ (u16Bytes (bigName ++ List.replicate 3 0) ++
      [1, 0, 0, 0, 0, 0, 0, 0])).take 2 = [0, 0] :=
    List.take_append_of_le_length (by decide)
  rw [ht]
  rfl


/-- The decoder reads the 65536-unit name back as the empty name: the
stored 16-bit length field is `65536 % 2^16 = 0`. -/
theorem bigRN : readName (bigS.write).1 88 = .ok [] := by
  simp only [readName, bigS_length, bigW88]
  norm_num
  rfl

set_option maxRecDepth 2048 in
theorem bigParse1 : parseEntries false (bigS.write).1 16 1 =
    .ok [⟨.name [], 24, false⟩] := by
  rw [parseEntries]
  rw [show (16 : Nat) + 4 = 20 from rfl, bigW16, bigW20]
  norm_num
  rw [bigRN]
  rfl

set_option maxRecDepth 2048 in
theorem bigParse2 : parseEntries false (bigS.write).1 40 1 =
    .ok [⟨.id 1, 48, false⟩] := by
  rw [parseEntries]
  rw [show (40 : Nat) + 4 = 44 from rfl, bigW40, bigW44]
  norm_num
  rfl

set_option maxRecDepth 2048 in
theorem bigParse3 : parseEntries true (bigS.write).1 64 1 =
    .ok [⟨.id 0, 72, false⟩] := by
  rw [parseEntries]
  rw [show (64 : Nat) + 4 = 68 from rfl, bigW64, bigW68]
  norm_num
  rfl

theorem readDirTable_eq (i : Identifier) (o : Nat) (lf : Bool) (B : List Nat) :
    dirEntry.readDirTable ⟨i, o, lf⟩ B =
      if o + 16 ≤ B.length then
        if o + 16 + 8 * (decodeU16 ((B.drop (o + 12)).take 2) +
            decodeU16 ((B.drop (o + 14)).take 2)) ≤ B.length then
          parseEntries lf B (o + 16) (decodeU16 ((B.drop (o + 12)).take 2) +
            decodeU16 ((B.drop (o + 14)).take 2))
        else .error .eof
      else .error .eof := rfl

theorem readData_eq (i : Identifier) (o : Nat) (lf : Bool) (sec : List Nat)
    (base : Nat) : dirEntry.readData ⟨i, o, lf⟩ sec base =
      if o + 16 ≤ sec.length then
        if decodeU32 ((sec.drop o).take 4) < base ∨
            (decodeU32 ((sec.drop o).take 4) - base) +
              decodeU32 ((sec.drop (o + 4)).take 4) > sec.length then
          .error .dataEntryOutOfBounds
        else .ok ((sec.drop (decodeU32 ((sec.drop o).take 4) - base)).take
          (decodeU32 ((sec.drop (o + 4)).take 4)))
      else .error .eof := rfl

set_option maxRecDepth 2048 in
theorem bigRoot : dirEntry.readDirTable ⟨.id 0, 0, false⟩ (bigS.write).1 =
    .ok [⟨.name [], 24, false⟩] := by
  rw [readDirTable_eq, show (0 : Nat) + 12 = 12 from rfl,
    show (0 : Nat) + 14 = 14 from rfl, show (0 : Nat) + 16 = 16 from rfl,
    bigW12, bigW14, bigS_length]
  rw [if_pos (by decide : (16 : Nat) ≤ 131176)]
  rw [if_pos (by decide : (16 : Nat) + 8 * (1 + 0) ≤ 131176)]
  rw [show (1 : Nat) + 0 = 1 from rfl]
  exact bigParse1

set_option maxRecDepth 2048 in
theorem bigType : dirEntry.readDirTable ⟨.name [], 24, false⟩ (bigS.write).1 =
    .ok [⟨.id 1, 48, false⟩] := by
  rw [readDirTable_eq, show (24 : Nat) + 12 = 36 from rfl,
    show (24 : Nat) + 14 = 38 from rfl, show (24 : Nat) + 16 = 40 from rfl,
    bigW36, bigW38, bigS_length]
  rw [if_pos (by decide : (40 : Nat) ≤ 131176)]
  rw [if_pos (by decide : (40 : Nat) + 8 * (0 + 1) ≤ 131176)]
  rw [show (0 : Nat) + 1 = 1 from rfl]
  exact bigParse2

set_option maxRecDepth 2048 in
theorem bigLang : dirEntry.readDirTable ⟨.id 1, 48, true⟩ (bigS.write).1 =
    .ok [⟨.id 0, 72, false⟩] := by
  rw [readDirTable_eq, show (48 : Nat) + 12 = 60 from rfl,
    show (48 : Nat) + 14 = 62 from rfl, show (48 : Nat) + 16 = 64 from rfl,
    bigW60, bigW62, bigS_length]
  rw [if_pos (by decide : (64 : Nat) ≤ 131176)]
  rw [if_pos (by decide : (64 : Nat) + 8 * (0 + 1) ≤ 131176)]
  rw [show (0 : Nat) + 1 = 1 from rfl]
  exact bigParse3

set_option maxRecDepth 2048 in
theorem bigData : dirEntry.readData ⟨.id 0, 72, false⟩ (bigS.write).1 0 =
    .ok (((bigS.write).1.drop 131168).take 1) := by
  rw [readData_eq, show (72 : Nat) + 4 = 76 from rfl, bigW72, bigW76, bigS_length]
  rw [if_pos (by decide : (72 : Nat) + 16 ≤ 131176)]
  rw [if_neg (by decide :
    ¬((131168 : Nat) < 0 ∨ (131168 : Nat) - 0 + 1 > 131176))]

theorem except_bind_ok {ε α β : Type} (a : α) (f : α → Except ε β) :
    (Except.ok a >>= f) = f a := rfl

theorem except_bind_error {ε α β : Type} (e : ε) (f : α → Except ε β) :
    ((Except.error e : Except ε α) >>= f) = .error e := rfl

theorem except_pure_bind {ε α β : Type} (a : α) (f : α → Except ε β) :
    ((pure a : Except ε α) >>= f) = f a := rfl

theorem bigSet : ∀ d, emptyRS.Set (.name ([] : Name)) (.id 1) 0 (some d) =
    .error .emptyName := fun _ => rfl

/-- Decoding the serialization of the one-resource set whose type name has
65536 UTF-16 units fails outright: the name round-trips as the empty name
(16-bit length field) and the decoder's own `Set` validation rejects it. -/
theorem bigS_read_fails :
    emptyRS.read (bigS.write).1 0 (.id 0) = .error .emptyName := by
  simp only [ResourceSet.read, dirEntry.walk]
  rw [bigRoot, except_bind_ok]
  simp only [walkList]
  rw [if_neg (by simp)]
  rw [bigType, except_bind_ok]
  simp only [walkList]
  rw [bigLang, except_bind_ok]
  simp only [walkList]
  rw [bigData, except_bind_ok]
  rw [show ((Identifier.id 0).idVal % 2 ^ 16) = 0 from rfl]
  rw [bigSet]
  simp only [except_bind_error]

/-! ### Round-trip preliminaries: take/drop runs of a sorted key sequence -/

theorem takeWhile_length_le {α : Type} (p : α → Bool) : ∀ l : List α,
    (l.takeWhile p).length ≤ l.length
  | [] => Nat.le_refl 0
  | x :: l => by
    cases hx : p x with
    | true =>
      rw [List.takeWhile_cons_of_pos hx, List.length_cons, List.length_cons]
      exact Nat.succ_le_succ (takeWhile_length_le p l)
    | false =>
      rw [List.takeWhile_cons_of_neg (by simp [hx])]
      simp

theorem take_takeWhile_len {α : Type} (p : α → Bool) : ∀ l : List α,
    l.take ((l.takeWhile p).length) = l.takeWhile p
  | [] => rfl
  | x :: l => by
    cases hx : p x with
    | true =>
      rw [List.takeWhile_cons_of_pos hx, List.length_cons, List.take_succ_cons,
        take_takeWhile_len p l]
    | false =>
      rw [List.takeWhile_cons_of_neg (by simp [hx])]
      rfl

theorem drop_takeWhile_len {α : Type} (p : α → Bool) : ∀ l : List α,
    l.drop ((l.takeWhile p).length) = l.dropWhile p
  | [] => rfl
  | x :: l => by
    cases hx : p x with
    | true =>
      rw [List.takeWhile_cons_of_pos hx, List.length_cons, List.drop_succ_cons,
        List.dropWhile_cons_of_pos hx, drop_takeWhile_len p l]
    | false =>
      rw [List.takeWhile_cons_of_neg (by simp [hx]),
        List.dropWhile_cons_of_neg (by simp [hx])]
      rfl

theorem mem_takeWhile_pred {α : Type} (p : α → Bool) : ∀ (l : List α) (a : α),
    a ∈ l.takeWhile p → p a = true
  | [], a, h => by simp at h
  | x :: l, a, h => by
    cases hx : p x with
    | true =>
      rw [List.takeWhile_cons_of_pos hx] at h
      rcases List.mem_cons.mp h with rfl | h2
      · exact hx
      · exact mem_takeWhile_pred p l a h2
    | false =>
      rw [List.takeWhile_cons_of_neg (by simp [hx])] at h
      simp at h

/-- In a sorted identifier sequence everything after the leading name run is
an ordinal. -/
theorem sorted_dropWhile_ids (ks : List Identifier) (hs : List.Sorted idLE ks) :
    ∀ i ∈ ks.dropWhile Identifier.isName, i.isName = false := by
  obtain ⟨h1, h2⟩ := sorted_split ks hs
  have h3 : ks.takeWhile Identifier.isName ++ ks.dropWhile Identifier.isName = ks :=
    List.takeWhile_append_dropWhile Identifier.isName ks
  rw [h2] at h3
  have h5 := List.append_cancel_left (h3.trans h1)
  intro i hi
  rw [h5] at hi
  simpa using (List.mem_filter.mp hi).2

/-! ### The name string table round-trips under `readName` -/

theorem u16Bytes_append : ∀ a b : List Nat,
    u16Bytes (a ++ b) = u16Bytes a ++ u16Bytes b
  | [], _ => rfl
  | n :: a, b => by
    rw [List.cons_append, u16Bytes_cons, u16Bytes_cons, u16Bytes_append a b,
      List.append_assoc]

theorem u16sAt_ok {B : List Nat} : ∀ (n pre post : List Nat),
    B = pre ++ (u16Bytes n ++ post) → (∀ u ∈ n, u < 2 ^ 16) →
    u16sAt B pre.length n.length = n
  | [], _, _, _, _ => rfl
  | u :: us, pre, post, h, hu => by
    rw [List.length_cons]
    show decodeU16 ((B.drop pre.length).take 2) ::
      u16sAt B (pre.length + 2) us.length = u :: us
    have hw := @window_eq B pre.length 2 pre (le16 u) (u16Bytes us ++ post)
      (by rw [h, u16Bytes_cons]; simp [List.append_assoc]) rfl rfl
    rw [hw, decodeU16_le16, Nat.mod_eq_of_lt (hu u (by simp))]
    have hIH := @u16sAt_ok B us (pre ++ le16 u) post
      (by rw [h, u16Bytes_cons]; simp [List.append_assoc])
      (fun x hx => hu x (by simp [hx]))
    rw [List.length_append, le16_length] at hIH
    rw [hIH]

/-- A length-prefixed name stored in the buffer reads back unchanged when
its unit count fits the 16-bit length field. -/
theorem readName_ok {B : List Nat} (n : Name) (pre post : List Nat)
    (h : B = pre ++ ((le16 n.length ++ u16Bytes n) ++ post))
    (hlen : n.length < 2 ^ 16) (hu : ∀ u ∈ n, u < 2 ^ 16) :
    readName B pre.length = .ok n := by
  have hBlen : B.length = pre.length + 2 + 2 * n.length + post.length := by
    rw [h, List.length_append, List.length_append, List.length_append, le16_length,
      u16Bytes_length]
    ring
  have hw := @window_eq B pre.length 2 pre (le16 n.length) (u16Bytes n ++ post)
    (by rw [h]; simp [List.append_assoc]) rfl rfl
  simp only [readName]
  rw [if_pos (by omega)]
  rw [hw, decodeU16_le16, Nat.mod_eq_of_lt hlen]
  rw [if_pos (by omega)]
  have hIH := @u16sAt_ok B n (pre ++ le16 n.length) post
    (by rw [h]; simp [List.append_assoc]) hu
  rw [List.length_append, le16_length] at hIH
  rw [hIH]

/-- Every name of the (deduplicated) table layout gets a slot: the table
bytes decompose around its length-prefixed record, and the offset map sends
the name to the start of that record. -/
theorem buildNames_mem_decomp : ∀ (names : List Name) (off : Nat) (n : Name),
    n ∈ names → names.Nodup →
    ∃ pre post, (buildNames names off).2 = pre ++ ((n.length :: n) ++ post) ∧
      alookup n (buildNames names off).1 = some (off + 2 * pre.length)
  | [], _, n, hn, _ => absurd hn (by simp)
  | m :: ns, off, n, hn, hnd => by
    rcases List.mem_cons.mp hn with rfl | hn2
    · refine ⟨[], (buildNames ns (off + (n.length + 1) * 2)).2, ?_, ?_⟩
      · show (n.length :: n) ++ (buildNames ns (off + (n.length + 1) * 2)).2 =
          [] ++ ((n.length :: n) ++ (buildNames ns (off + (n.length + 1) * 2)).2)
        rw [List.nil_append]
      · show alookup n ((n, off) :: (buildNames ns (off + (n.length + 1) * 2)).1) =
          some (off + 2 * ([] : List Nat).length)
        rw [alookup_cons_self, List.length_nil, Nat.mul_zero, Nat.add_zero]
    · have hmn : m ≠ n := by
        intro he
        exact (List.nodup_cons.mp hnd).1 (he ▸ hn2)
      obtain ⟨pre, post, h2, h3⟩ :=
        buildNames_mem_decomp ns (off + (m.length + 1) * 2) n hn2
          (List.nodup_cons.mp hnd).2
      refine ⟨(m.length :: m) ++ pre, post, ?_, ?_⟩
      · show (m.length :: m) ++ (buildNames ns (off + (m.length + 1) * 2)).2 = _
        rw [h2, List.append_assoc]
      · show (if m = n then some off
          else alookup n (buildNames ns (off + (m.length + 1) * 2)).1) = _
        rw [if_neg hmn, h3]
        congr 1
        rw [List.length_append, List.length_cons]
        ring

theorem dirSize_rsW (rs : ResourceSet) : (rsW rs).dirSize = rs.dirSize := by
  rw [dirSize_split, dirSize_split, claimDirSize_rsW, numData_rsW]

/-- The directory region (three table levels plus the data records) ends
exactly at `dirSize`, where `prepare` lays out the name table. -/
theorem preD_length {rs : ResourceSet} (hc : rs.Consistent) :
    ((stageA rs).1 ++ (stageB rs).1 ++ (stageC rs).1 ++ (stageD rs).1).length =
      rs.dirSize := by
  rw [List.length_append, preDir_length hc, stageD_len hc, ← dirSize_split]

theorem stage0_nameOffset (rs : ResourceSet) :
    (stage0 rs).nameOffset =
      (buildNames (sortNames (allNames (rsW rs)).dedup) ((rsW rs).dirSize)).1 := rfl

theorem stage0_namesData (rs : ResourceSet) :
    (stage0 rs).namesData =
      (buildNames (sortNames (allNames (rsW rs)).dedup) ((rsW rs).dirSize)).2 ++
      List.replicate ((alignData (2 *
        (buildNames (sortNames (allNames (rsW rs)).dedup)
          ((rsW rs).dirSize)).2.length) -
        2 * (buildNames (sortNames (allNames (rsW rs)).dedup)
          ((rsW rs).dirSize)).2.length) / 2) 0 := rfl

theorem stage0_namesCount (rs : ResourceSet) :
    (stage0 rs).namesCount =
      ((sortIdents (akeys rs.Types)).takeWhile Identifier.isName).length := rfl

theorem stageA_nameOffset (rs : ResourceSet) :
    (stageA rs).2.nameOffset = (stage0 rs).nameOffset := by
  rw [stageA_snd]

/-- Every name used by the tree reads back from the serialized section at
the offset recorded in the prepared name-offset map. -/
theorem nameTable_ok {rs : ResourceSet} (hc : rs.Consistent)
    (hB31 : (rs.write).1.length < 2 ^ 31) (n : Name)
    (hmem : n ∈ allNames (rsW rs))
    (hlen : n.length < 2 ^ 16) (hu : ∀ u ∈ n, u < 2 ^ 16) :
    readName (rs.write).1 ((alookup n (stage0 rs).nameOffset).getD 0) = .ok n ∧
    (alookup n (stage0 rs).nameOffset).getD 0 < 2 ^ 31 := by
  have hmem2 : n ∈ sortNames (allNames (rsW rs)).dedup :=
    ((sortNames_perm _).mem_iff).mpr (List.mem_dedup.mpr hmem)
  have hnd : (sortNames (allNames (rsW rs)).dedup).Nodup :=
    ((sortNames_perm _).nodup_iff).mpr (List.nodup_dedup _)
  obtain ⟨preU, postU, hT, hA⟩ := buildNames_mem_decomp
    (sortNames (allNames (rsW rs)).dedup) ((rsW rs).dirSize) n hmem2 hnd
  have hoffv : (alookup n (stage0 rs).nameOffset).getD 0 =
      rs.dirSize + 2 * preU.length := by
    rw [stage0_nameOffset, hA, Option.getD_some, dirSize_rsW]
  obtain ⟨pad, hND⟩ : ∃ pad, (stage0 rs).namesData =
      (buildNames (sortNames (allNames (rsW rs)).dedup) ((rsW rs).dirSize)).2 ++
        pad :=
    ⟨_, stage0_namesData rs⟩
  have hb : (rs.write).1 = ((stageA rs).1 ++ (stageB rs).1 ++ (stageC rs).1 ++
      (stageD rs).1) ++ (u16Bytes (stage0 rs).namesData ++
        dataBytes (writeLeaves rs)) := by
    have h1 : (rs.write).1 = (stageA rs).1 ++ (stageB rs).1 ++ (stageC rs).1 ++
        (stageD rs).1 ++ u16Bytes (stageD rs).2.namesData ++
        (rsW rs).writeData (stageD rs).2 := rfl
    rw [h1, stageD_names, stageF_eq]
    simp [List.append_assoc]
  have hsplit : (rs.write).1 =
      (((stageA rs).1 ++ (stageB rs).1 ++ (stageC rs).1 ++ (stageD rs).1) ++
        u16Bytes preU) ++
      ((le16 n.length ++ u16Bytes n) ++
        (u16Bytes postU ++ (u16Bytes pad ++ dataBytes (writeLeaves rs)))) := by
    rw [hb, hND, hT, u16Bytes_append, u16Bytes_append, u16Bytes_append,
      u16Bytes_cons]
    simp [List.append_assoc]
  have hprelen : (((stageA rs).1 ++ (stageB rs).1 ++ (stageC rs).1 ++
      (stageD rs).1) ++ u16Bytes preU).length = rs.dirSize + 2 * preU.length := by
    rw [List.length_append, preD_length hc, u16Bytes_length]
  have h1 : readName (rs.write).1 (rs.dirSize + 2 * preU.length) = .ok n := by
    have h2 := readName_ok n
      (((stageA rs).1 ++ (stageB rs).1 ++ (stageC rs).1 ++ (stageD rs).1) ++
        u16Bytes preU)
      (u16Bytes postU ++ (u16Bytes pad ++ dataBytes (writeLeaves rs)))
      hsplit hlen hu
    rw [hprelen] at h2
    exact h2
  have hlt : rs.dirSize + 2 * preU.length < 2 ^ 31 := by
    have h3 : (rs.write).1.length =
        (((stageA rs).1 ++ (stageB rs).1 ++ (stageC rs).1 ++ (stageD rs).1) ++
          u16Bytes preU).length +
        ((le16 n.length ++ u16Bytes n) ++
          (u16Bytes postU ++ (u16Bytes pad ++ dataBytes (writeLeaves rs)))).length := by
      rw [hsplit, List.length_append]
    rw [hprelen] at h3
    omega
  rw [hoffv]
  exact ⟨h1, hlt⟩

/-- Total length of the serialized section. -/
theorem bytes_length {rs : ResourceSet} (hc : rs.Consistent) :
    (rs.write).1.length = rs.dirSize + 2 * (stage0 rs).namesData.length +
      sumPadded (writeLeaves rs) := by
  have h1 : (rs.write).1 = (stageA rs).1 ++ (stageB rs).1 ++ (stageC rs).1 ++
      (stageD rs).1 ++ u16Bytes (stageD rs).2.namesData ++
      (rsW rs).writeData (stageD rs).2 := by
    rw [write_eq_stages]
  rw [h1, stageD_names, stageF_eq, List.length_append, preNames_length hc,
    dataBytes_length]

/-- The directory entries the decoder should recover from one run of
subdirectory entries. -/
def expEntries (sz : Identifier → Nat) : List Identifier → Nat → List dirEntry
  | [], _ => []
  | i :: is, off => ⟨i, off, false⟩ :: expEntries sz is (off + sz i)

/-- The directory entries the decoder should recover from one run of leaf
entries. -/
def expLeafEntries : List Nat → Nat → List dirEntry
  | [], _ => []
  | l :: ls, off => ⟨.id l, off, false⟩ :: expLeafEntries ls (off + sizeOfDataEntry)

theorem orBit31_lt (n : Nat) : orBit31 n < 2 ^ 32 := by
  unfold orBit31
  have := Nat.mod_lt n (show 0 < 2 ^ 31 by norm_num)
  norm_num at this ⊢
  omega

theorem orBit31_ge (n : Nat) : 2 ^ 31 ≤ orBit31 n := by
  unfold orBit31
  omega

theorem orBit31_mod (n : Nat) (h : n < 2 ^ 31) : orBit31 n % 2 ^ 31 = n := by
  unfold orBit31
  omega

theorem writeDirectoryEntry_subdir (id off : Nat) :
    writeDirectoryEntry id off false true = le32 id ++ le32 (orBit31 off) := rfl

theorem writeDirectoryEntry_leaf (id off : Nat) :
    writeDirectoryEntry id off false false = le32 id ++ le32 off := rfl

/-- The two count fields of a directory table header inside a buffer. -/
theorem table_counts {B : List Nat} (pre R : List Nat) (nn ni : Nat)
    (h : B = pre ++ (writeDirectoryTable nn ni ++ R)) :
    decodeU16 ((B.drop (pre.length + 12)).take 2) = nn % 2 ^ 16 ∧
    decodeU16 ((B.drop (pre.length + 14)).take 2) = ni % 2 ^ 16 := by
  constructor
  · have hw := @window_eq B (pre.length + 12) 2
      (pre ++ [0, 0, 0, 0, 0, 0, 0, 0, 0, 0, 0, 0]) (le16 nn)
      (le16 ni ++ R)
      (by rw [h]
          show pre ++ (([0, 0, 0, 0, 0, 0, 0, 0, 0, 0, 0, 0] ++
            (le16 nn ++ (le16 ni ++ []))) ++ R) = _
          simp [List.append_assoc])
      (by rw [List.length_append]; rfl) rfl
    rw [hw, decodeU16_le16]
  · have hw := @window_eq B (pre.length + 14) 2
      (pre ++ ([0, 0, 0, 0, 0, 0, 0, 0, 0, 0, 0, 0] ++ le16 nn))
      (le16 ni) R
      (by rw [h]
          show pre ++ (([0, 0, 0, 0, 0, 0, 0, 0, 0, 0, 0, 0] ++
            (le16 nn ++ (le16 ni ++ []))) ++ R) = _
          simp [List.append_assoc])
      (by rw [List.length_append, List.length_append, le16_length]; rfl) rfl
    rw [hw, decodeU16_le16]

theorem pow16 : (2 : Nat) ^ 16 = 65536 := by norm_num

theorem pow31 : (2 : Nat) ^ 31 = 2147483648 := by norm_num

theorem pow32 : (2 : Nat) ^ 32 = 4294967296 := by norm_num

theorem sde16 : sizeOfDataEntry = 16 := rfl

/-- Parsing one run of leaf directory entries written by `langEntriesLoop`. -/
theorem parseEntries_leaf {B : List Nat} :
    ∀ (ls : List Nat) (off0 : Nat) (pre post : List Nat),
    B = pre ++ ((langEntriesLoop ls off0).1 ++ post) →
    (∀ l ∈ ls, l < 2 ^ 16) →
    off0 + sizeOfDataEntry * ls.length < 2 ^ 31 →
    parseEntries true B pre.length ls.length = .ok (expLeafEntries ls off0)
  | [], _, _, _, _, _, _ => rfl
  | l :: ls, off0, pre, post, h, hb, hoff => by
    have hlb : l < 2 ^ 16 := hb l (by simp)
    have hlt : off0 < 2 ^ 31 := by
      rw [sde16] at hoff
      rw [List.length_cons] at hoff
      omega
    have hsplit : B = pre ++ ((le32 l ++ le32 off0) ++
        ((langEntriesLoop ls (off0 + sizeOfDataEntry)).1 ++ post)) := by
      rw [h]
      show pre ++ ((writeDirectoryEntry l off0 false false ++
        (langEntriesLoop ls (off0 + sizeOfDataEntry)).1) ++ post) = _
      rw [writeDirectoryEntry_leaf]
      simp [List.append_assoc]
    have hidF : decodeU32 ((B.drop pre.length).take 4) = l := by
      have hw := @window_eq B pre.length 4 pre (le32 l) (le32 off0 ++
          ((langEntriesLoop ls (off0 + sizeOfDataEntry)).1 ++ post))
        (by rw [hsplit]; simp [List.append_assoc]) rfl rfl
      rw [hw, decodeU32_le32]
      rw [pow16] at hlb
      rw [pow32]
      omega
    have hoffF : decodeU32 ((B.drop (pre.length + 4)).take 4) = off0 := by
      have hw := @window_eq B (pre.length + 4) 4 (pre ++ le32 l) (le32 off0)
          ((langEntriesLoop ls (off0 + sizeOfDataEntry)).1 ++ post)
        (by rw [hsplit]; simp [List.append_assoc])
        (by rw [List.length_append, le32_length]) rfl
      rw [hw, decodeU32_le32]
      rw [pow31] at hlt
      rw [pow32]
      omega
    rw [List.length_cons]
    simp only [parseEntries]
    rw [hidF, hoffF]
    rw [decide_eq_true hlt]
    rw [if_neg (by simp)]
    rw [if_neg (by
      intro hcon
      have h2 := hcon.2
      rw [pow31] at h2
      rw [pow16] at hlb
      omega)]
    rw [if_pos (by rw [pow16] at hlb; rw [pow31]; omega)]
    have hrest : parseEntries true B (pre.length + 8) ls.length =
        .ok (expLeafEntries ls (off0 + sizeOfDataEntry)) := by
      have hIH := @parseEntries_leaf B ls (off0 + sizeOfDataEntry)
        (pre ++ (le32 l ++ le32 off0)) post
        (by rw [hsplit]; simp [List.append_assoc])
        (fun x hx => hb x (by simp [hx]))
        (by rw [sde16] at hoff ⊢; rw [List.length_cons] at hoff; omega)
      rw [List.length_append, List.length_append, le32_length, le32_length] at hIH
      exact hIH
    rw [hrest]
    simp only [except_pure_bind, except_bind_ok]
    rw [Nat.mod_eq_of_lt hlb, Nat.mod_eq_of_lt hlt]
    rfl

/-- Parsing one run of subdirectory entries with ordinal identifiers
written by `dirEntriesLoop`. -/
theorem parseEntries_subdir {B : List Nat} (sz : Identifier → Nat) :
    ∀ (ks : List Identifier) (off0 : Nat) (pre post : List Nat),
    B = pre ++ ((dirEntriesLoop Identifier.idVal false sz ks off0).1 ++ post) →
    (∀ i ∈ ks, ∃ v, i = .id v ∧ v < 2 ^ 16) →
    off0 + (ks.map sz).sum < 2 ^ 31 →
    parseEntries false B pre.length ks.length = .ok (expEntries sz ks off0)
  | [], _, _, _, _, _, _ => rfl
  | i :: is, off0, pre, post, h, hb, hoff => by
    obtain ⟨v, hv, hvlt⟩ := hb i (by simp)
    have hlt : off0 < 2 ^ 31 := by
      rw [List.map_cons, List.sum_cons] at hoff
      omega
    have hsplit : B = pre ++ ((le32 i.idVal ++ le32 (orBit31 off0)) ++
        ((dirEntriesLoop Identifier.idVal false sz is (off0 + sz i)).1 ++ post)) := by
      rw [h]
      show pre ++ ((writeDirectoryEntry i.idVal off0 false true ++
        (dirEntriesLoop Identifier.idVal false sz is (off0 + sz i)).1) ++ post) = _
      rw [writeDirectoryEntry_subdir]
      simp [List.append_assoc]
    have hval : i.idVal = v := by rw [hv]; rfl
    have hidF : decodeU32 ((B.drop pre.length).take 4) = v := by
      have hw := @window_eq B pre.length 4 pre (le32 i.idVal) (le32 (orBit31 off0) ++
          ((dirEntriesLoop Identifier.idVal false sz is (off0 + sz i)).1 ++ post))
        (by rw [hsplit]; simp [List.append_assoc]) rfl rfl
      rw [hw, decodeU32_le32, hval]
      rw [pow16] at hvlt
      rw [pow32]
      omega
    have hoffF : decodeU32 ((B.drop (pre.length + 4)).take 4) = orBit31 off0 := by
      have hw := @window_eq B (pre.length + 4) 4 (pre ++ le32 i.idVal)
          (le32 (orBit31 off0))
          ((dirEntriesLoop Identifier.idVal false sz is (off0 + sz i)).1 ++ post)
        (by rw [hsplit]; simp [List.append_assoc])
        (by rw [List.length_append, le32_length]) rfl
      rw [hw, decodeU32_le32]
      exact Nat.mod_eq_of_lt (orBit31_lt off0)
    rw [List.length_cons]
    simp only [parseEntries]
    rw [hidF, hoffF]
    rw [decide_eq_false (by
      have := orBit31_ge off0
      omega : ¬(orBit31 off0 < 2 ^ 31))]
    rw [if_neg (by simp)]
    rw [if_neg (by simp)]
    rw [if_pos (by rw [pow16] at hvlt; rw [pow31]; omega)]
    have hrest : parseEntries false B (pre.length + 8) is.length =
        .ok (expEntries sz is (off0 + sz i)) := by
      have hIH := @parseEntries_subdir B sz is (off0 + sz i)
        (pre ++ (le32 i.idVal ++ le32 (orBit31 off0))) post
        (by rw [hsplit]; simp [List.append_assoc])
        (fun x hx => hb x (by simp [hx]))
        (by rw [List.map_cons, List.sum_cons] at hoff; omega)
      rw [List.length_append, List.length_append, le32_length, le32_length] at hIH
      exact hIH
    rw [hrest]
    simp only [except_pure_bind, except_bind_ok]
    rw [Nat.mod_eq_of_lt hvlt, orBit31_mod off0 hlt, ← hv]
    rfl

/-- Reading one directory table with no name entries back out of the
buffer. -/
theorem readDirTable_ok {B : List Nat} (de : dirEntry)
    (pre entriesBytes post : List Nat) (n : Nat) (ents : List dirEntry)
    (h : B = pre ++ ((writeDirectoryTable 0 n ++ entriesBytes) ++ post))
    (hp : pre.length = de.offset)
    (hn : n < 2 ^ 16)
    (hlen : entriesBytes.length = 8 * n)
    (hparse : parseEntries de.leaf B (de.offset + 16) n = .ok ents) :
    de.readDirTable B = .ok ents := by
  have hc := @table_counts B pre (entriesBytes ++ post) 0 n
    (by rw [h]; simp [List.append_assoc])
  rw [hp] at hc
  have hBlen : B.length = de.offset + 16 + 8 * n + post.length := by
    rw [h, List.length_append, List.length_append, List.length_append,
      writeDirectoryTable_length, hlen, hp]
    rw [show sizeOfDirTable = 16 from rfl]
    ring
  simp only [dirEntry.readDirTable]
  rw [if_pos (show de.offset + 16 ≤ B.length by omega)]
  rw [hc.1, hc.2, Nat.zero_mod, Nat.mod_eq_of_lt hn]
  rw [if_pos (show de.offset + 16 + 8 * (0 + n) ≤ B.length by omega)]
  rw [Nat.zero_add]
  exact hparse

theorem checkIdentifier_id {v : Nat} (hv : 1 ≤ v) :
    checkIdentifier (.id v) = .ok () := by
  unfold checkIdentifier
  cases v with
  | zero => omega
  | succ n => rfl

theorem checkIdentifier_name {n : Name} (hn : n ≠ []) :
    checkIdentifier (.name n) = .ok () := by
  cases n with
  | nil => exact absurd rfl hn
  | cons a l => rfl

/-- A directory key the decoder can recover from the buffer: a nonzero
16-bit ordinal, or a name whose table record reads back unchanged from the
offset the layout assigned to it. -/
def goodKey (B : List Nat) (NO : List (Name × Nat)) (i : Identifier) : Prop :=
  (∃ v, i = .id v ∧ 1 ≤ v ∧ v < 2 ^ 16) ∨
  (∃ n, i = .name n ∧ n ≠ [] ∧ readName B ((alookup n NO).getD 0) = .ok n ∧
    (alookup n NO).getD 0 < 2 ^ 31)

theorem goodKey_check {B : List Nat} {NO : List (Name × Nat)} {i : Identifier}
    (h : goodKey B NO i) : checkIdentifier i = .ok () := by
  rcases h with ⟨v, hv, h1, _⟩ | ⟨n, hn, h1, _⟩
  · rw [hv]
    exact checkIdentifier_id h1
  · rw [hn]
    exact checkIdentifier_name h1

theorem goodKey_name {B : List Nat} {NO : List (Name × Nat)} {i : Identifier}
    (h : goodKey B NO i) (hn : i.isName = true) :
    ∃ n, i = .name n ∧ n ≠ [] ∧ readName B ((alookup n NO).getD 0) = .ok n ∧
      (alookup n NO).getD 0 < 2 ^ 31 := by
  rcases h with ⟨v, hv, _⟩ | h2
  · rw [hv] at hn
    exact absurd hn (by simp [Identifier.isName])
  · exact h2

theorem goodKey_id {B : List Nat} {NO : List (Name × Nat)} {i : Identifier}
    (h : goodKey B NO i) (hn : i.isName = false) :
    ∃ v, i = .id v ∧ 1 ≤ v ∧ v < 2 ^ 16 := by
  rcases h with h1 | ⟨n, hm, _⟩
  · exact h1
  · rw [hm] at hn
    exact absurd hn (by simp [Identifier.isName])

theorem except_map_ok {ε α β : Type} (f : α → β) (a : α) :
    (Except.ok a : Except ε α).map f = .ok (f a) := rfl

theorem expEntries_append (sz : Identifier → Nat) : ∀ (a b : List Identifier)
    (off : Nat), expEntries sz (a ++ b) off =
      expEntries sz a off ++ expEntries sz b (off + (a.map sz).sum)
  | [], b, off => by
    rw [List.nil_append]
    show expEntries sz b off = [] ++ expEntries sz b (off + ([] : List Nat).sum)
    rw [List.nil_append, List.sum_nil, Nat.add_zero]
  | i :: a, b, off => by
    rw [List.cons_append]
    show (⟨i, off, false⟩ : dirEntry) :: expEntries sz (a ++ b) (off + sz i) = _
    rw [expEntries_append sz a b (off + sz i)]
    show _ = ((⟨i, off, false⟩ : dirEntry) :: expEntries sz a (off + sz i)) ++
      expEntries sz b (off + ((i :: a).map sz).sum)
    rw [List.cons_append, List.map_cons, List.sum_cons]
    rw [show off + (sz i + (a.map sz).sum) = off + sz i + (a.map sz).sum from by ring]

/-- Parsing one run of subdirectory entries with name identifiers written
by `dirEntriesLoop`, continuing with an already-parsed trailing run. -/
theorem parseEntries_names {B : List Nat} (sz : Identifier → Nat)
    (nof : Identifier → Nat) :
    ∀ (ks : List Identifier) (off0 : Nat) (pre post : List Nat) (m : Nat)
      (rest : List dirEntry),
    B = pre ++ ((dirEntriesLoop nof true sz ks off0).1 ++ post) →
    (∀ i ∈ ks, (∃ n, i = .name n ∧ readName B (nof i) = .ok n) ∧ nof i < 2 ^ 31) →
    off0 + (ks.map sz).sum < 2 ^ 31 →
    parseEntries false B (pre.length + 8 * ks.length) m = .ok rest →
    parseEntries false B pre.length (ks.length + m) = .ok (expEntries sz ks off0 ++ rest)
  | [], off0, pre, post, m, rest, h, hb, hoff, hcont => by
    rw [List.length_nil, Nat.zero_add]
    rw [List.length_nil, Nat.mul_zero, Nat.add_zero] at hcont
    rw [show expEntries sz [] off0 = [] from rfl, List.nil_append]
    exact hcont
  | i :: is, off0, pre, post, m, rest, h, hb, hoff, hcont => by
    obtain ⟨⟨n, hn, hrn⟩, hnof31⟩ := hb i (by simp)
    have hlt : off0 < 2 ^ 31 := by
      rw [List.map_cons, List.sum_cons] at hoff
      omega
    have hsplit : B = pre ++ ((le32 (orBit31 (nof i)) ++ le32 (orBit31 off0)) ++
        ((dirEntriesLoop nof true sz is (off0 + sz i)).1 ++ post)) := by
      rw [h]
      show pre ++ ((writeDirectoryEntry (nof i) off0 true true ++
        (dirEntriesLoop nof true sz is (off0 + sz i)).1) ++ post) = _
      rw [show writeDirectoryEntry (nof i) off0 true true =
        le32 (orBit31 (nof i)) ++ le32 (orBit31 off0) from rfl]
      simp [List.append_assoc]
    have hidF : decodeU32 ((B.drop pre.length).take 4) = orBit31 (nof i) := by
      have hw := @window_eq B pre.length 4 pre (le32 (orBit31 (nof i)))
          (le32 (orBit31 off0) ++
            ((dirEntriesLoop nof true sz is (off0 + sz i)).1 ++ post))
        (by rw [hsplit]; simp [List.append_assoc]) rfl rfl
      rw [hw, decodeU32_le32]
      exact Nat.mod_eq_of_lt (orBit31_lt _)
    have hoffF : decodeU32 ((B.drop (pre.length + 4)).take 4) = orBit31 off0 := by
      have hw := @window_eq B (pre.length + 4) 4 (pre ++ le32 (orBit31 (nof i)))
          (le32 (orBit31 off0))
          ((dirEntriesLoop nof true sz is (off0 + sz i)).1 ++ post)
        (by rw [hsplit]; simp [List.append_assoc])
        (by rw [List.length_append, le32_length]) rfl
      rw [hw, decodeU32_le32]
      exact Nat.mod_eq_of_lt (orBit31_lt _)
    rw [List.length_cons, show is.length + 1 + m = (is.length + m) + 1 from by omega]
    simp only [parseEntries]
    rw [hidF, hoffF]
    rw [decide_eq_false (show ¬(orBit31 off0 < 2 ^ 31) from by
      have := orBit31_ge off0
      omega)]
    rw [if_neg (by simp)]
    rw [if_neg (by simp)]
    rw [if_neg (show ¬(orBit31 (nof i) < 2 ^ 31) from by
      have := orBit31_ge (nof i)
      omega)]
    rw [orBit31_mod _ hnof31, hrn]
    have hrest : parseEntries false B (pre.length + 8) (is.length + m) =
        .ok (expEntries sz is (off0 + sz i) ++ rest) := by
      have hIH := parseEntries_names sz nof is (off0 + sz i)
        (pre ++ (le32 (orBit31 (nof i)) ++ le32 (orBit31 off0))) post m rest
        (by rw [hsplit]; simp [List.append_assoc])
        (fun x hx => hb x (by simp [hx]))
        (by rw [List.map_cons, List.sum_cons] at hoff; omega)
        (by rw [List.length_append, List.length_append, le32_length, le32_length]
            rw [show pre.length + (4 + 4) + 8 * is.length =
              pre.length + 8 * (i :: is).length from by
                rw [List.length_cons]; ring]
            exact hcont)
      rw [List.length_append, List.length_append, le32_length, le32_length] at hIH
      exact hIH
    rw [hrest, except_map_ok]
    simp only [except_bind_ok]
    rw [orBit31_mod off0 hlt, ← hn]
    rfl

/-- Parsing the two runs of one subdirectory level — leading names, then
ordinals — as the decoder does, in a single count. -/
theorem parse_two_runs {B : List Nat} {NO : List (Name × Nat)}
    (sz : Identifier → Nat) (nof : Identifier → Nat) (ks : List Identifier)
    (nc off0 : Nat) (pre post : List Nat)
    (hsort : List.Sorted idLE ks)
    (hnc : nc = (ks.takeWhile Identifier.isName).length)
    (h : B = pre ++
      (((dirEntriesLoop nof true sz (ks.take nc) off0).1 ++
        (dirEntriesLoop Identifier.idVal false sz (ks.drop nc)
          (dirEntriesLoop nof true sz (ks.take nc) off0).2).1) ++ post))
    (hgood : ∀ i ∈ ks, goodKey B NO i)
    (hnof : ∀ i : Identifier, nof i = (alookup i.nameVal NO).getD 0)
    (hoff : off0 + (ks.map sz).sum < 2 ^ 31) :
    parseEntries false B pre.length ks.length = .ok (expEntries sz ks off0) := by
  have htake : ks.take nc = ks.takeWhile Identifier.isName := by
    rw [hnc]
    exact take_takeWhile_len _ ks
  have hdrop : ks.drop nc = ks.dropWhile Identifier.isName := by
    rw [hnc]
    exact drop_takeWhile_len _ ks
  have htd : ks.take nc ++ ks.drop nc = ks := List.take_append_drop nc ks
  have hsums : ((ks.take nc).map sz).sum + ((ks.drop nc).map sz).sum =
      (ks.map sz).sum := by
    rw [← List.sum_append, ← List.map_append, htd]
  have hnames : ∀ i ∈ ks.take nc,
      (∃ n, i = .name n ∧ readName B (nof i) = .ok n) ∧ nof i < 2 ^ 31 := by
    intro i hi
    have hi2 : i ∈ ks := by
      have h0 : i ∈ ks.take nc ++ ks.drop nc := List.mem_append_left _ hi
      rw [htd] at h0
      exact h0
    have hin : i.isName = true := by
      rw [htake] at hi
      exact mem_takeWhile_pred _ ks i hi
    obtain ⟨n, hn, _, hr, h31⟩ := goodKey_name (hgood i hi2) hin
    have hni : nof i = (alookup n NO).getD 0 := by
      rw [hnof i, hn]
      rfl
    refine ⟨⟨n, hn, ?_⟩, ?_⟩
    · rw [hni]
      exact hr
    · rw [hni]
      exact h31
  have hids : ∀ i ∈ ks.drop nc, ∃ v, i = .id v ∧ v < 2 ^ 16 := by
    intro i hi
    have hi2 : i ∈ ks := by
      have h0 : i ∈ ks.take nc ++ ks.drop nc := List.mem_append_right _ hi
      rw [htd] at h0
      exact h0
    have hin : i.isName = false := by
      rw [hdrop] at hi
      exact sorted_dropWhile_ids ks hsort i hi
    obtain ⟨v, hv, _, hvlt⟩ := goodKey_id (hgood i hi2) hin
    exact ⟨v, hv, hvlt⟩
  have hr1 := dirEntriesLoop_spec nof true sz (ks.take nc) off0
  have hsub := @parseEntries_subdir B sz (ks.drop nc)
    ((dirEntriesLoop nof true sz (ks.take nc) off0).2)
    (pre ++ (dirEntriesLoop nof true sz (ks.take nc) off0).1) post
    (by rw [h]; simp [List.append_assoc])
    hids
    (by rw [hr1.2]; omega)
  rw [List.length_append, hr1.1, show sizeOfDirEntry = 8 from rfl] at hsub
  have hnam := parseEntries_names sz nof (ks.take nc) off0 pre
    ((dirEntriesLoop Identifier.idVal false sz (ks.drop nc)
      (dirEntriesLoop nof true sz (ks.take nc) off0).2).1 ++ post)
    (ks.drop nc).length
    (expEntries sz (ks.drop nc) ((dirEntriesLoop nof true sz (ks.take nc) off0).2))
    (by rw [h]; simp [List.append_assoc])
    hnames
    (by omega)
    hsub
  rw [hr1.2] at hnam
  rw [← expEntries_append sz (ks.take nc) (ks.drop nc) off0] at hnam
  rw [htd] at hnam
  have hlen2 : (ks.take nc).length + (ks.drop nc).length = ks.length := by
    rw [← List.length_append, htd]
  rw [hlen2] at hnam
  exact hnam

/-- Reading one two-run directory table back out of the buffer. -/
theorem readDirTable_names {B : List Nat} (de : dirEntry)
    (pre entriesBytes post : List Nat) (nn ni : Nat) (ents : List dirEntry)
    (h : B = pre ++ ((writeDirectoryTable nn ni ++ entriesBytes) ++ post))
    (hp : pre.length = de.offset)
    (hnn : nn < 2 ^ 16) (hni : ni < 2 ^ 16)
    (hlen : entriesBytes.length = 8 * (nn + ni))
    (hparse : parseEntries de.leaf B (de.offset + 16) (nn + ni) = .ok ents) :
    de.readDirTable B = .ok ents := by
  have hc := @table_counts B pre (entriesBytes ++ post) nn ni
    (by rw [h]; simp [List.append_assoc])
  rw [hp] at hc
  have hBlen : B.length = de.offset + 16 + 8 * (nn + ni) + post.length := by
    rw [h, List.length_append, List.length_append, List.length_append,
      writeDirectoryTable_length, hlen, hp]
    rw [show sizeOfDirTable = 16 from rfl]
    ring
  simp only [dirEntry.readDirTable]
  rw [if_pos (show de.offset + 16 ≤ B.length by omega)]
  rw [hc.1, hc.2, Nat.mod_eq_of_lt hnn, Nat.mod_eq_of_lt hni]
  rw [if_pos (show de.offset + 16 + 8 * (nn + ni) ≤ B.length by omega)]
  exact hparse

/-- Reading a full two-run subdirectory table written by the encoder. -/
theorem readDirTable_two_runs {B : List Nat} {NO : List (Name × Nat)}
    (sz : Identifier → Nat) (nof : Identifier → Nat) (de : dirEntry)
    (ks : List Identifier) (nc off0 : Nat) (pre post : List Nat)
    (hleaf : de.leaf = false)
    (hsort : List.Sorted idLE ks)
    (hnc : nc = (ks.takeWhile Identifier.isName).length)
    (h : B = pre ++ ((writeDirectoryTable nc (ks.length - nc) ++
      ((dirEntriesLoop nof true sz (ks.take nc) off0).1 ++
        (dirEntriesLoop Identifier.idVal false sz (ks.drop nc)
          (dirEntriesLoop nof true sz (ks.take nc) off0).2).1)) ++ post))
    (hp : pre.length = de.offset)
    (hklen : ks.length < 2 ^ 16)
    (hgood : ∀ i ∈ ks, goodKey B NO i)
    (hnof : ∀ i : Identifier, nof i = (alookup i.nameVal NO).getD 0)
    (hoff : off0 + (ks.map sz).sum < 2 ^ 31) :
    de.readDirTable B = .ok (expEntries sz ks off0) := by
  have hncle : nc ≤ ks.length := by
    rw [hnc]
    exact takeWhile_length_le _ ks
  have hparse := @parse_two_runs B NO sz nof ks nc off0
    (pre ++ writeDirectoryTable nc (ks.length - nc)) post hsort hnc
    (by rw [h]; simp [List.append_assoc]) hgood hnof hoff
  rw [List.length_append, writeDirectoryTable_length] at hparse
  refine readDirTable_names de pre
    ((dirEntriesLoop nof true sz (ks.take nc) off0).1 ++
      (dirEntriesLoop Identifier.idVal false sz (ks.drop nc)
        (dirEntriesLoop nof true sz (ks.take nc) off0).2).1)
    post nc (ks.length - nc) _ h hp (by omega) (by omega) ?_ ?_
  · rw [List.length_append, (dirEntriesLoop_spec _ _ _ _ _).1,
      (dirEntriesLoop_spec _ _ _ _ _).1,
      show sizeOfDirEntry = 8 from rfl, List.length_take, List.length_drop]
    omega
  · rw [hleaf]
    rw [show nc + (ks.length - nc) = ks.length from by omega]
    rw [← hp]
    exact hparse

theorem Set_ok {rs : ResourceSet} {t r : Identifier} {l : Nat} {d : Option (List Nat)}
    (ht : checkIdentifier t = .ok ()) (hr : checkIdentifier r = .ok ()) :
    rs.Set t r l d = .ok (rs.set t r l d) := by
  unfold ResourceSet.Set
  rw [hr, ht]

theorem dataIndexBytes_cons (d : DataEntry) (ds : List DataEntry) (off : Nat) :
    dataIndexBytes (d :: ds) off =
      writeDataEntry off d.Data.length ++ dataIndexBytes ds (off + d.paddedDataSize) :=
  rfl

theorem dataBytes_cons (d : DataEntry) (ds : List DataEntry) :
    dataBytes (d :: ds) = d.writeData ++ dataBytes ds := rfl

theorem writeData_eq (d : DataEntry) :
    d.writeData = d.Data ++ List.replicate (d.paddedDataSize - d.Data.length) 0 := rfl

/-- Walking one run of leaf entries: each data record is read back and the
payload is `Set` into the accumulator. -/
theorem walkLangs {B : List Nat} {tI rI : Identifier} {re : ResourceEntry}
    (hB31 : B.length < 2 ^ 31)
    (ht : checkIdentifier tI = .ok ()) (hr : checkIdentifier rI = .ok ()) :
    ∀ (ls : List Nat) (pD pF qD qF : List Nat) (acc : ResourceSet),
    B = pD ++ (dataIndexBytes (ls.map (dataGet re)) pF.length ++ qD) →
    B = pF ++ (dataBytes (ls.map (dataGet re)) ++ qF) →
    (∀ l ∈ ls, l < 2 ^ 16) →
    walkList (fun langEntry rs => do
        let data ← langEntry.readData B 0
        rs.Set tI rI (langEntry.ident.idVal % 2 ^ 16) (some data))
      (expLeafEntries ls pD.length) acc =
      .ok (ls.foldl (fun a l => a.set tI rI l (some (dataGet re l).Data)) acc)
  | [], pD, pF, qD, qF, acc, _, _, _ => rfl
  | l :: ls, pD, pF, qD, qF, acc, hD, hF, hb => by
    rw [List.map_cons, dataIndexBytes_cons] at hD
    rw [List.map_cons, dataBytes_cons] at hF
    have hpFB : pF.length + (dataGet re l).writeData.length ≤ B.length := by
      rw [hF]
      simp only [List.length_append]
      omega
    have hlenData : (dataGet re l).Data.length ≤ (dataGet re l).writeData.length := by
      rw [writeData_eq, List.length_append]
      omega
    have hRD : dirEntry.readData ⟨.id l, pD.length, false⟩ B 0 =
        .ok (dataGet re l).Data := by
      simp only [dirEntry.readData]
      have hBlen1 : pD.length + 16 ≤ B.length := by
        rw [hD, List.length_append, List.length_append, List.length_append,
          writeDataEntry_length, sde16]
        omega
      rw [if_pos hBlen1]
      have hrva : decodeU32 ((B.drop pD.length).take 4) = pF.length := by
        have hw := @window_eq B pD.length 4 pD (le32 pF.length)
            ((le32 (dataGet re l).Data.length ++ le32 0 ++ le32 0) ++
              (dataIndexBytes (ls.map (dataGet re))
                (pF.length + (dataGet re l).paddedDataSize) ++ qD))
          (by rw [hD]
              simp only [writeDataEntry]
              simp [List.append_assoc]) rfl rfl
        rw [hw, decodeU32_le32]
        rw [pow31] at hB31
        rw [pow32]
        omega
      have hsize : decodeU32 ((B.drop (pD.length + 4)).take 4) =
          (dataGet re l).Data.length := by
        have hw := @window_eq B (pD.length + 4) 4 (pD ++ le32 pF.length)
            (le32 (dataGet re l).Data.length)
            ((le32 0 ++ le32 0) ++
              (dataIndexBytes (ls.map (dataGet re))
                (pF.length + (dataGet re l).paddedDataSize) ++ qD))
          (by rw [hD]
              simp only [writeDataEntry]
              simp [List.append_assoc])
          (by rw [List.length_append, le32_length]) rfl
        rw [hw, decodeU32_le32]
        rw [pow31] at hB31
        rw [pow32]
        omega
      rw [hrva, hsize]
      rw [if_neg (by
        intro hcon
        rcases hcon with hcon | hcon
        · omega
        · omega)]
      rw [Nat.sub_zero]
      have hw := @window_eq B pF.length ((dataGet re l).Data.length) pF
          ((dataGet re l).Data)
          (List.replicate ((dataGet re l).paddedDataSize -
            (dataGet re l).Data.length) 0 ++ (dataBytes (ls.map (dataGet re)) ++ qF))
        (by rw [hF, writeData_eq]
            simp [List.append_assoc]) rfl rfl
      rw [hw]
    show (dirEntry.readData ⟨.id l, pD.length, false⟩ B 0 >>= fun data =>
        acc.Set tI rI ((Identifier.id l).idVal % 2 ^ 16) (some data)) >>=
      (fun rs => walkList _ (expLeafEntries ls (pD.length + sizeOfDataEntry)) rs) = _
    rw [hRD, except_bind_ok]
    have hlid : (Identifier.id l).idVal % 2 ^ 16 = l :=
      Nat.mod_eq_of_lt (hb l (by simp))
    rw [hlid, Set_ok ht hr, except_bind_ok]
    have hIH := @walkLangs B tI rI re hB31 ht hr ls
      (pD ++ writeDataEntry pF.length (dataGet re l).Data.length)
      (pF ++ (dataGet re l).writeData) qD qF
      (acc.set tI rI l (some (dataGet re l).Data))
      (by rw [hD]
          rw [List.length_append, writeData_length]
          simp [List.append_assoc])
      (by rw [hF]
          simp [List.append_assoc])
      (fun x hx => hb x (by simp [hx]))
    rw [List.length_append, writeDataEntry_length] at hIH
    rw [hIH, List.foldl_cons]

theorem langDirsInner_cons (te : TypeEntry) (r : Identifier) (rks : List Identifier)
    (s : state) : (langDirsInner te (r :: rks) s).1 =
      ((resGet te r).write s).1 ++ (langDirsInner te rks ((resGet te r).write s).2).1 :=
  rfl

theorem dataIndexRes_cons (te : TypeEntry) (r : Identifier) (rks : List Identifier)
    (s : state) : (dataIndexRes te (r :: rks) s).1 =
      (dataIndexLangs (resGet te r) ((resGet te r).OrderedKeys.getD []) s).1 ++
      (dataIndexRes te rks
        (dataIndexLangs (resGet te r) ((resGet te r).OrderedKeys.getD []) s).2).1 :=
  rfl

theorem dataRes_cons (te : TypeEntry) (r : Identifier) (rks : List Identifier) :
    dataRes te (r :: rks) =
      dataLangs (resGet te r) ((resGet te r).OrderedKeys.getD []) ++ dataRes te rks :=
  rfl

theorem ResourceEntry_write_fst (re : ResourceEntry) (s : state) :
    (re.write s).1 = writeDirectoryTable 0 re.Data.length ++
      (langEntriesLoop (re.OrderedKeys.getD []) s.offset).1 := rfl

theorem sortLangs_length (l : List (Nat × DataEntry)) :
    (sortLangs (akeys l)).length = l.length := by
  rw [(sortLangs_perm _).length_eq]
  unfold akeys
  rw [List.length_map]

/-- Walking one type's run of resource entries. -/
theorem walkRes {B : List Nat} {tI : Identifier} {te : TypeEntry}
    (hB31 : B.length < 2 ^ 31)
    (ht : checkIdentifier tI = .ok ()) :
    ∀ (rks : List Identifier) (sC sD : state) (pC pD pF qC qD qF : List Nat)
      (acc : ResourceSet),
    sC.offset = pD.length → sD.offset = pF.length →
    B = pC ++ ((langDirsInner te rks sC).1 ++ qC) →
    B = pD ++ ((dataIndexRes te rks sD).1 ++ qD) →
    B = pF ++ (dataRes te rks ++ qF) →
    (∀ r ∈ rks, (resGet te r).OrderedKeys =
      some (sortLangs (akeys (resGet te r).Data))) →
    (∀ r ∈ rks, checkIdentifier r = .ok ()) →
    (∀ r ∈ rks, (∀ l ∈ akeys (resGet te r).Data, l < 2 ^ 16) ∧
      (resGet te r).Data.length < 2 ^ 16) →
    walkList (fun resourceEntry rs =>
        dirEntry.walk { resourceEntry with leaf := true } B rs (fun langEntry rs => do
          let data ← langEntry.readData B 0
          rs.Set tI resourceEntry.ident (langEntry.ident.idVal % 2 ^ 16) (some data)))
      (expEntries (fun i => (resGet te i).size) rks pC.length) acc =
      .ok (rks.foldl (fun a r =>
        (((resGet te r).OrderedKeys.getD []).foldl (fun a2 l =>
          a2.set tI r l (some (dataGet (resGet te r) l).Data)) a)) acc)
  | [], _, _, _, _, _, _, _, _, _, _, _, _, _, _, _, _, _ => rfl
  | r :: rks, sC, sD, pC, pD, pF, qC, qD, qF, acc, hsC, hsD, hC, hD, hF, hOK, hrid,
      hlb => by
    have hre := hOK r (by simp)
    have hls : ((resGet te r).OrderedKeys.getD []).length = (resGet te r).Data.length := by
      rw [hre]
      show (sortLangs (akeys (resGet te r).Data)).length = _
      rw [sortLangs_length]
    have hlmem : ∀ l ∈ (resGet te r).OrderedKeys.getD [], l < 2 ^ 16 := by
      intro l hl
      rw [hre] at hl
      exact (hlb r (by simp)).1 l ((sortLangs_perm _).subset hl)
    rw [langDirsInner_cons] at hC
    rw [dataIndexRes_cons] at hD
    rw [dataRes_cons] at hF
    have hdlen : (dataIndexLangs (resGet te r) ((resGet te r).OrderedKeys.getD [])
        sD).1.length = 16 * ((resGet te r).OrderedKeys.getD []).length := by
      rw [(dataIndexLangs_spec _ _ _).1, dataIndexBytes_length, List.length_map, sde16]
    have hbound : sC.offset + sizeOfDataEntry *
        ((resGet te r).OrderedKeys.getD []).length < 2 ^ 31 := by
      have : pD.length + (dataIndexLangs (resGet te r)
          ((resGet te r).OrderedKeys.getD []) sD).1.length ≤ B.length := by
        rw [hD, List.length_append, List.length_append, List.length_append]
        omega
      rw [hdlen] at this
      rw [sde16, hsC]
      omega
    have hparse : parseEntries true B (pC.length + 16)
        ((resGet te r).OrderedKeys.getD []).length =
        .ok (expLeafEntries ((resGet te r).OrderedKeys.getD []) pD.length) := by
      have h := @parseEntries_leaf B ((resGet te r).OrderedKeys.getD []) sC.offset
        (pC ++ writeDirectoryTable 0 (resGet te r).Data.length)
        ((langDirsInner te rks ((resGet te r).write sC).2).1 ++ qC)
        (by rw [hC, ResourceEntry_write_fst]
            simp [List.append_assoc])
        hlmem hbound
      rw [List.length_append, writeDirectoryTable_length, hsC] at h
      exact h
    have hRT : dirEntry.readDirTable ⟨r, pC.length, true⟩ B =
        .ok (expLeafEntries ((resGet te r).OrderedKeys.getD []) pD.length) := by
      refine readDirTable_ok _ pC
        ((langEntriesLoop ((resGet te r).OrderedKeys.getD []) sC.offset).1)
        ((langDirsInner te rks ((resGet te r).write sC).2).1 ++ qC)
        (resGet te r).Data.length _ ?_ rfl ((hlb r (by simp)).2) ?_ ?_
      · rw [hC, ResourceEntry_write_fst]
        simp [List.append_assoc]
      · rw [(langEntriesLoop_spec _ _).1, hls]
        show sizeOfDirEntry * _ = _
        rw [show sizeOfDirEntry = 8 from rfl]
      · rw [← hls]
        exact hparse
    show (dirEntry.walk { (⟨r, pC.length, false⟩ : dirEntry) with leaf := true } B acc
        (fun langEntry rs => do
          let data ← langEntry.readData B 0
          rs.Set tI (⟨r, pC.length, false⟩ : dirEntry).ident
            (langEntry.ident.idVal % 2 ^ 16) (some data))) >>=
      (fun rs => walkList _
        (expEntries (fun i => (resGet te i).size) rks
          (pC.length + (resGet te r).size)) rs) = _
    rw [show ({ (⟨r, pC.length, false⟩ : dirEntry) with leaf := true } : dirEntry) =
      ⟨r, pC.length, true⟩ from rfl]
    rw [show (⟨r, pC.length, false⟩ : dirEntry).ident = r from rfl]
    simp only [dirEntry.walk]
    rw [hRT, except_bind_ok]
    have hwl := @walkLangs B tI r (resGet te r) hB31 ht
      (hrid r (by simp))
      ((resGet te r).OrderedKeys.getD []) pD pF
      ((dataIndexRes te rks
        (dataIndexLangs (resGet te r) ((resGet te r).OrderedKeys.getD []) sD).2).1 ++ qD)
      (dataRes te rks ++ qF) acc
      (by rw [hD, (dataIndexLangs_spec _ _ _).1, hsD]
          simp [List.append_assoc])
      (by rw [hF, dataLangs_spec]
          simp [List.append_assoc])
      hlmem
    rw [hwl, except_bind_ok]
    have hIH := @walkRes B tI te hB31 ht rks ((resGet te r).write sC).2
      (dataIndexLangs (resGet te r) ((resGet te r).OrderedKeys.getD []) sD).2
      (pC ++ ((resGet te r).write sC).1)
      (pD ++ (dataIndexLangs (resGet te r) ((resGet te r).OrderedKeys.getD []) sD).1)
      (pF ++ dataLangs (resGet te r) ((resGet te r).OrderedKeys.getD []))
      qC qD qF
      (((resGet te r).OrderedKeys.getD []).foldl (fun a2 l =>
        a2.set tI r l (some (dataGet (resGet te r) l).Data)) acc)
      (by rw [(ResourceEntry_write_spec _ _).2]
          show sC.offset + sizeOfDataEntry * _ = _
          rw [List.length_append, hdlen, hsC, sde16])
      (by rw [(dataIndexLangs_spec _ _ _).2]
          show sD.offset + sumPadded _ = _
          rw [List.length_append, dataLangs_spec, dataBytes_length, hsD])
      (by rw [hC]; simp [List.append_assoc])
      (by rw [hD]; simp [List.append_assoc])
      (by rw [hF]; simp [List.append_assoc])
      (fun x hx => hOK x (by simp [hx]))
      (fun x hx => hrid x (by simp [hx]))
      (fun x hx => hlb x (by simp [hx]))
    simp only [dirEntry.walk] at hIH
    rw [List.length_append, (ResourceEntry_write_spec _ _).1, hls] at hIH
    rw [show sizeOfDirTable + sizeOfDirEntry * (resGet te r).Data.length =
      (resGet te r).size from by rw [Nat.mul_comm]; rfl] at hIH
    rw [hIH, List.foldl_cons]

theorem TypeEntry_write_fst (te : TypeEntry) (s : state) :
    (te.write s).1 =
      writeDirectoryTable te.NamesCount
        ((te.OrderedKeys.getD []).length - te.NamesCount) ++
      ((dirEntriesLoop (fun i => nameOff s i.nameVal) true
          (fun i => (resGet te i).size)
          ((te.OrderedKeys.getD []).take te.NamesCount) s.offset).1 ++
        (dirEntriesLoop Identifier.idVal false (fun i => (resGet te i).size)
          ((te.OrderedKeys.getD []).drop te.NamesCount)
          (dirEntriesLoop (fun i => nameOff s i.nameVal) true
            (fun i => (resGet te i).size)
            ((te.OrderedKeys.getD []).take te.NamesCount) s.offset).2).1) := by
  simp only [TypeEntry.write]
  rw [List.append_assoc]

theorem TypeEntry_write_nameOffset (te : TypeEntry) (s : state) :
    (te.write s).2.nameOffset = s.nameOffset := rfl

theorem resDirsLoop_cons (rs : ResourceSet) (t : Identifier) (ts : List Identifier)
    (s : state) : (resDirsLoop rs (t :: ts) s).1 =
      ((typesGet rs t).write s).1 ++ (resDirsLoop rs ts ((typesGet rs t).write s).2).1 :=
  rfl

theorem langDirsLoop_cons (rs : ResourceSet) (t : Identifier) (ts : List Identifier)
    (s : state) : (langDirsLoop rs (t :: ts) s).1 =
      (langDirsInner (typesGet rs t) ((typesGet rs t).OrderedKeys.getD []) s).1 ++
      (langDirsLoop rs ts
        (langDirsInner (typesGet rs t) ((typesGet rs t).OrderedKeys.getD []) s).2).1 :=
  rfl

theorem dataIndexLoop_cons (rs : ResourceSet) (t : Identifier) (ts : List Identifier)
    (s : state) : (dataIndexLoop rs (t :: ts) s).1 =
      (dataIndexRes (typesGet rs t) ((typesGet rs t).OrderedKeys.getD []) s).1 ++
      (dataIndexLoop rs ts
        (dataIndexRes (typesGet rs t) ((typesGet rs t).OrderedKeys.getD []) s).2).1 :=
  rfl

theorem dataLoop_cons (rs : ResourceSet) (t : Identifier) (ts : List Identifier) :
    dataLoop rs (t :: ts) =
      dataRes (typesGet rs t) ((typesGet rs t).OrderedKeys.getD []) ++
        dataLoop rs ts := rfl

theorem resGet_mem {te : TypeEntry} {r : Identifier} (hr : r ∈ akeys te.Resources) :
    (r, resGet te r) ∈ te.Resources := by
  obtain ⟨v, hv⟩ := mem_akeys_exists hr
  have hm := alookup_mem hv
  have hg : resGet te r = v := by rw [resGet, hv]; rfl
  rw [hg]
  exact hm

theorem typesGet_mem {rs : ResourceSet} {t : Identifier} (ht : t ∈ akeys rs.Types) :
    (t, typesGet rs t) ∈ rs.Types := by
  obtain ⟨v, hv⟩ := mem_akeys_exists ht
  have hm := alookup_mem hv
  have hg : typesGet rs t = v := by rw [typesGet, hv]; rfl
  rw [hg]
  exact hm

/-- Per-type facts needed by the decoder simulation. -/
def teFacts (B : List Nat) (NO : List (Name × Nat)) (te : TypeEntry) : Prop :=
  te.OrderedKeys = some (sortIdents (akeys te.Resources)) ∧
  te.NamesCount =
    ((sortIdents (akeys te.Resources)).takeWhile Identifier.isName).length ∧
  te.Resources.length < 2 ^ 16 ∧
  ∀ q ∈ te.Resources,
    q.2.OrderedKeys = some (sortLangs (akeys q.2.Data)) ∧
    goodKey B NO q.1 ∧
    (∀ l ∈ akeys q.2.Data, l < 2 ^ 16) ∧ q.2.Data.length < 2 ^ 16

theorem sizes_eq_langs {te : TypeEntry}
    (hOK : ∀ r ∈ te.OrderedKeys.getD [],
      (resGet te r).OrderedKeys = some (sortLangs (akeys (resGet te r).Data))) :
    ((te.OrderedKeys.getD []).map (fun i => (resGet te i).size)).sum =
      ((te.OrderedKeys.getD []).map
        (fun r => sizeOfDirTable + sizeOfDirEntry * langLen te r)).sum := by
  refine congrArg List.sum (List.map_congr_left fun r hr => ?_)
  unfold ResourceEntry.size langLen
  rw [hOK r hr]
  show sizeOfDirTable + (resGet te r).Data.length * sizeOfDirEntry =
    sizeOfDirTable + sizeOfDirEntry * (sortLangs (akeys (resGet te r).Data)).length
  rw [sortLangs_length]
  ring

theorem flatMap_length_langs (te : TypeEntry) : ∀ ks : List Identifier,
    (ks.flatMap (fun r => ((resGet te r).OrderedKeys.getD []).map
      (fun l => dataGet (resGet te r) l))).length = (ks.map (langLen te)).sum
  | [] => rfl
  | r :: ks => by
    rw [List.flatMap_cons, List.length_append, List.length_map, List.map_cons,
      List.sum_cons, flatMap_length_langs te ks]
    rfl

/-- Walking the run of type entries at the root: each type's resource
directory, language directories, data records and payloads are read back,
and every (type, key, language, payload) is `Set` into the accumulator. -/
theorem walkTypes {B : List Nat} {rsO : ResourceSet} {NO : List (Name × Nat)}
    (hB31 : B.length < 2 ^ 31) :
    ∀ (ts : List Identifier) (sB sC sD : state) (pB pC pD pF qB qC qD qF : List Nat)
      (acc : ResourceSet),
    sB.offset = pC.length → sC.offset = pD.length → sD.offset = pF.length →
    sB.nameOffset = NO →
    B = pB ++ ((resDirsLoop rsO ts sB).1 ++ qB) →
    B = pC ++ ((langDirsLoop rsO ts sC).1 ++ qC) →
    B = pD ++ ((dataIndexLoop rsO ts sD).1 ++ qD) →
    B = pF ++ (dataLoop rsO ts ++ qF) →
    (∀ t ∈ ts, teFacts B NO (typesGet rsO t)) →
    (∀ t ∈ ts, goodKey B NO t) →
    walkList (fun typeEntry rs =>
        if Identifier.id 0 ≠ Identifier.id 0 ∧ typeEntry.ident ≠ Identifier.id 0 ∧
            (typeEntry.ident ≠ RT_ICON ∨ Identifier.id 0 ≠ RT_GROUP_ICON) ∧
            (typeEntry.ident ≠ RT_CURSOR ∨ Identifier.id 0 ≠ RT_GROUP_CURSOR) then
          .ok rs
        else
          typeEntry.walk B rs (fun resourceEntry rs =>
            dirEntry.walk { resourceEntry with leaf := true } B rs
              (fun langEntry rs => do
                let data ← langEntry.readData B 0
                rs.Set typeEntry.ident resourceEntry.ident
                  (langEntry.ident.idVal % 2 ^ 16) (some data))))
      (expEntries (fun i => (typesGet rsO i).size) ts pB.length) acc =
      .ok (ts.foldl (fun a t =>
        (((typesGet rsO t).OrderedKeys.getD []).foldl (fun a1 r =>
          (((resGet (typesGet rsO t) r).OrderedKeys.getD []).foldl (fun a2 l =>
            a2.set t r l (some (dataGet (resGet (typesGet rsO t) r) l).Data)) a1))
          a)) acc)
  | [], _, _, _, _, _, _, _, _, _, _, _, _, _, _, _, _, _, _, _, _, _, _ => rfl
  | t :: ts, sB, sC, sD, pB, pC, pD, pF, qB, qC, qD, qF, acc, hsB, hsC, hsD, hNO,
      hB, hC, hD, hF, hfacts, htid => by
    have hf := hfacts t (by simp)
    have hks : (typesGet rsO t).OrderedKeys.getD [] =
        sortIdents (akeys (typesGet rsO t).Resources) := by rw [hf.1]; rfl
    have hkslen : ((typesGet rsO t).OrderedKeys.getD []).length =
        (typesGet rsO t).Resources.length := by rw [hks, sortIdents_akeys_length]
    have hsorted : List.Sorted idLE ((typesGet rsO t).OrderedKeys.getD []) := by
      rw [hks]
      exact sortIdents_sorted _
    have hnc2 : (typesGet rsO t).NamesCount =
        (((typesGet rsO t).OrderedKeys.getD []).takeWhile
          Identifier.isName).length := by
      rw [hks]
      exact hf.2.1
    have hOKr : ∀ r ∈ (typesGet rsO t).OrderedKeys.getD [],
        (resGet (typesGet rsO t) r).OrderedKeys =
          some (sortLangs (akeys (resGet (typesGet rsO t) r).Data)) := by
      intro r hr
      rw [hks] at hr
      exact (hf.2.2.2 _ (resGet_mem ((sortIdents_perm _).subset hr))).1
    have hgoodr : ∀ r ∈ (typesGet rsO t).OrderedKeys.getD [], goodKey B NO r := by
      intro r hr
      rw [hks] at hr
      exact (hf.2.2.2 _ (resGet_mem ((sortIdents_perm _).subset hr))).2.1
    have hchkr : ∀ r ∈ (typesGet rsO t).OrderedKeys.getD [],
        checkIdentifier r = .ok () := fun r hr => goodKey_check (hgoodr r hr)
    have hlbr : ∀ r ∈ (typesGet rsO t).OrderedKeys.getD [],
        (∀ l ∈ akeys (resGet (typesGet rsO t) r).Data, l < 2 ^ 16) ∧
          (resGet (typesGet rsO t) r).Data.length < 2 ^ 16 := by
      intro r hr
      rw [hks] at hr
      exact (hf.2.2.2 _ (resGet_mem ((sortIdents_perm _).subset hr))).2.2
    rw [resDirsLoop_cons] at hB
    rw [langDirsLoop_cons] at hC
    rw [dataIndexLoop_cons] at hD
    rw [dataLoop_cons] at hF
    have hinnerlen : (langDirsInner (typesGet rsO t)
        ((typesGet rsO t).OrderedKeys.getD []) sC).1.length =
        (((typesGet rsO t).OrderedKeys.getD []).map
          (fun i => (resGet (typesGet rsO t) i).size)).sum := by
      rw [(langDirsInner_spec _ _ _).1, sizes_eq_langs hOKr]
    have hdidxlen : (dataIndexRes (typesGet rsO t)
        ((typesGet rsO t).OrderedKeys.getD []) sD).1.length =
        sizeOfDataEntry * (((typesGet rsO t).OrderedKeys.getD []).map
          (langLen (typesGet rsO t))).sum := by
      rw [(dataIndexRes_spec _ _ _).1, dataIndexBytes_length, flatMap_length_langs]
    have hdataLen : (dataRes (typesGet rsO t)
        ((typesGet rsO t).OrderedKeys.getD [])).length =
        sumPadded (((typesGet rsO t).OrderedKeys.getD []).flatMap
          (fun r => ((resGet (typesGet rsO t) r).OrderedKeys.getD []).map
            (fun l => dataGet (resGet (typesGet rsO t) r) l))) := by
      rw [dataRes_spec, dataBytes_length]
    have hboundT : sB.offset + (((typesGet rsO t).OrderedKeys.getD []).map
        (fun i => (resGet (typesGet rsO t) i).size)).sum < 2 ^ 31 := by
      have hle : pC.length + (langDirsInner (typesGet rsO t)
          ((typesGet rsO t).OrderedKeys.getD []) sC).1.length ≤ B.length := by
        rw [hC, List.length_append, List.length_append, List.length_append]
        omega
      rw [hinnerlen] at hle
      rw [hsB]
      omega
    have hRT : dirEntry.readDirTable ⟨t, pB.length, false⟩ B =
        .ok (expEntries (fun i => (resGet (typesGet rsO t) i).size)
          ((typesGet rsO t).OrderedKeys.getD []) sB.offset) := by
      refine readDirTable_two_runs (fun i => (resGet (typesGet rsO t) i).size)
        (fun i => nameOff sB i.nameVal) _ ((typesGet rsO t).OrderedKeys.getD [])
        (typesGet rsO t).NamesCount sB.offset pB
        ((resDirsLoop rsO ts ((typesGet rsO t).write sB).2).1 ++ qB)
        rfl hsorted hnc2 ?_ rfl ?_ hgoodr ?_ hboundT
      · rw [hB, TypeEntry_write_fst]
        simp [List.append_assoc]
      · rw [hkslen]
        exact hf.2.2.1
      · intro i
        show nameOff sB i.nameVal = (alookup i.nameVal NO).getD 0
        rw [show nameOff sB i.nameVal =
          (alookup i.nameVal sB.nameOffset).getD 0 from rfl, hNO]
    simp only [expEntries, walkList]
    rw [if_neg (fun h => absurd rfl h.1)]
    show (dirEntry.walk ⟨t, pB.length, false⟩ B acc _) >>= _ = _
    simp only [dirEntry.walk]
    rw [hRT, except_bind_ok, hsB]
    have hwr := @walkRes B t (typesGet rsO t) hB31
      (goodKey_check (htid t (by simp)))
      ((typesGet rsO t).OrderedKeys.getD []) sC sD pC pD pF
      ((langDirsLoop rsO ts (langDirsInner (typesGet rsO t)
        ((typesGet rsO t).OrderedKeys.getD []) sC).2).1 ++ qC)
      ((dataIndexLoop rsO ts (dataIndexRes (typesGet rsO t)
        ((typesGet rsO t).OrderedKeys.getD []) sD).2).1 ++ qD)
      (dataLoop rsO ts ++ qF) acc hsC hsD
      (by rw [hC]; simp [List.append_assoc])
      (by rw [hD]; simp [List.append_assoc])
      (by rw [hF]; simp [List.append_assoc])
      hOKr hchkr hlbr
    simp only [dirEntry.walk] at hwr
    rw [hwr, except_bind_ok]
    have hwlen : ((typesGet rsO t).write sB).1.length = (typesGet rsO t).size := by
      rw [(TypeEntry_write_spec _ _).1, hkslen]
      unfold TypeEntry.size
      ring
    have hIH := @walkTypes B rsO NO hB31 ts ((typesGet rsO t).write sB).2
      (langDirsInner (typesGet rsO t) ((typesGet rsO t).OrderedKeys.getD []) sC).2
      (dataIndexRes (typesGet rsO t) ((typesGet rsO t).OrderedKeys.getD []) sD).2
      (pB ++ ((typesGet rsO t).write sB).1)
      (pC ++ (langDirsInner (typesGet rsO t)
        ((typesGet rsO t).OrderedKeys.getD []) sC).1)
      (pD ++ (dataIndexRes (typesGet rsO t)
        ((typesGet rsO t).OrderedKeys.getD []) sD).1)
      (pF ++ dataRes (typesGet rsO t) ((typesGet rsO t).OrderedKeys.getD []))
      qB qC qD qF
      (((typesGet rsO t).OrderedKeys.getD []).foldl (fun a1 r =>
        ((resGet (typesGet rsO t) r).OrderedKeys.getD []).foldl (fun a2 l =>
          a2.set t r l (some (dataGet (resGet (typesGet rsO t) r) l).Data)) a1)
        acc)
      (by rw [(TypeEntry_write_spec _ _).2]
          show sB.offset + _ = _
          rw [List.length_append, hinnerlen, hsB])
      (by rw [(langDirsInner_spec _ _ _).2]
          show sC.offset + _ = _
          rw [List.length_append, hdidxlen, hsC])
      (by rw [(dataIndexRes_spec _ _ _).2]
          show sD.offset + _ = _
          rw [List.length_append, hdataLen, hsD])
      (by rw [TypeEntry_write_nameOffset]; exact hNO)
      (by rw [hB]; simp [List.append_assoc])
      (by rw [hC]; simp [List.append_assoc])
      (by rw [hD]; simp [List.append_assoc])
      (by rw [hF]; simp [List.append_assoc])
      (fun x hx => hfacts x (by simp [hx]))
      (fun x hx => htid x (by simp [hx]))
    simp only [dirEntry.walk] at hIH
    rw [List.length_append, hwlen] at hIH
    rw [hIH, List.foldl_cons]

/-- An identifier the binary format can represent faithfully: an ordinal in
`[1, 2^16)`, or a non-empty name of fewer than `2^16` UTF-16 code units
(each below `2^16`). -/
def goodIdent (i : Identifier) : Prop :=
  (∃ v, i = .id v ∧ 1 ≤ v ∧ v < 2 ^ 16) ∨
  (∃ n, i = .name n ∧ n ≠ [] ∧ n.length < 2 ^ 16 ∧ ∀ u ∈ n, u < 2 ^ 16)

/-- Bounds under which the binary format can represent the set faithfully:
representable type and resource identifiers (`goodIdent`), languages and
per-level entry counts below `2^16`, and a section smaller than 2 GiB. -/
def Decodable (rs : ResourceSet) : Prop :=
  rs.Types.length < 2 ^ 16 ∧
  (∀ p ∈ rs.Types, goodIdent p.1 ∧
    p.2.Resources.length < 2 ^ 16 ∧
    ∀ q ∈ p.2.Resources, goodIdent q.1 ∧
      q.2.Data.length < 2 ^ 16 ∧ ∀ d ∈ q.2.Data, d.1 < 2 ^ 16) ∧
  (rs.write).1.length < 2 ^ 31

theorem Order_resources_mem {te : TypeEntry} {q : Identifier × ResourceEntry}
    (hq : q ∈ (te.Order).Resources) :
    ∃ q0 ∈ te.Resources, q.1 = q0.1 ∧ q.2.Data = q0.2.Data := by
  unfold TypeEntry.Order at hq
  cases hks : te.OrderedKeys with
  | some ks =>
    rw [hks] at hq
    exact ⟨q, hq, rfl, rfl⟩
  | none =>
    rw [hks] at hq
    obtain ⟨q0, hq0, rfl⟩ := List.mem_map.mp hq
    exact ⟨q0, hq0, rfl, ResourceEntry_order_Data q0.2⟩

/-- A type key that is a name is collected into the name table layout. -/
theorem typeKey_name_mem {rs : ResourceSet} {t : Identifier} {n : Name}
    (ht : t ∈ akeys (rsW rs).Types) (hn : t = .name n) :
    n ∈ allNames (rsW rs) := by
  have hp := typesGet_mem ht
  unfold allNames
  refine List.mem_flatten.mpr ⟨typeNames (t, typesGet (rsW rs) t),
    List.mem_map_of_mem _ hp, ?_⟩
  unfold typeNames
  rw [hn]
  exact List.mem_append_left _ (by simp)

/-- A resource key that is a name is collected into the name table layout
(it sits in the leading name run of its prepared type entry). -/
theorem resKey_name_mem {rs : ResourceSet} (hc : rs.Consistent) {t r : Identifier}
    {n : Name} (ht : t ∈ akeys (rsW rs).Types)
    (hr : r ∈ akeys (typesGet (rsW rs) t).Resources) (hn : r = .name n) :
    n ∈ allNames (rsW rs) := by
  have hp := typesGet_mem ht
  have hprep := (rsW_prepared hc).2 _ hp
  unfold allNames
  refine List.mem_flatten.mpr ⟨typeNames (t, typesGet (rsW rs) t),
    List.mem_map_of_mem _ hp, ?_⟩
  unfold typeNames
  refine List.mem_append_right _ ?_
  have hks : (typesGet (rsW rs) t).OrderedKeys.getD [] =
      sortIdents (akeys (typesGet (rsW rs) t).Resources) := by
    rw [hprep.1]
    rfl
  rw [hks, hprep.2.1, take_takeWhile_len]
  have hrs : r ∈ sortIdents (akeys (typesGet (rsW rs) t).Resources) :=
    ((sortIdents_perm _).mem_iff).mpr hr
  have hrtw : r ∈ (sortIdents (akeys (typesGet (rsW rs) t).Resources)).takeWhile
      Identifier.isName := by
    rw [(sorted_split _ (sortIdents_sorted _)).2]
    exact List.mem_filter.mpr ⟨hrs, by rw [hn]; rfl⟩
  refine List.mem_map.mpr ⟨r, hrtw, ?_⟩
  rw [hn]
  rfl

/-- A representable identifier whose name (if any) is in the table layout
is a decodable directory key of the serialized section. -/
theorem goodIdent_goodKey {rs : ResourceSet} (hc : rs.Consistent)
    (hB31 : (rs.write).1.length < 2 ^ 31) {i : Identifier} (hg : goodIdent i)
    (hmem : ∀ n, i = .name n → n ∈ allNames (rsW rs)) :
    goodKey (rs.write).1 (stage0 rs).nameOffset i := by
  rcases hg with h | ⟨n, hn, h1, h2, h3⟩
  · exact Or.inl h
  · obtain ⟨hr, hb⟩ := nameTable_ok hc hB31 n (hmem n hn) h2 h3
    exact Or.inr ⟨n, hn, h1, hr, hb⟩

/-- The per-type facts hold for every ordered type entry of a consistent,
bounded set. -/
theorem teFacts_of {rs : ResourceSet} (hc : rs.Consistent) (hd : Decodable rs) :
    ∀ t ∈ sortIdents (akeys rs.Types),
      teFacts (rs.write).1 (stage0 rs).nameOffset (typesGet (rsW rs) t) := by
  intro t ht
  have htk : t ∈ akeys (rsW rs).Types := by
    rw [rsW_keys]
    exact (sortIdents_perm _).subset ht
  have hmem := typesGet_mem htk
  have hprep := (rsW_prepared hc).2 _ hmem
  obtain ⟨p, hp, hpe⟩ := List.mem_map.mp (by
    rw [show (rsW rs).Types = rs.Types.map (fun p => (p.1, p.2.Order)) from rfl] at hmem
    exact hmem)
  have hte : typesGet (rsW rs) t = p.2.Order := (congrArg Prod.snd hpe).symm
  refine ⟨hprep.1, hprep.2.1, ?_, ?_⟩
  · have h1 : akeys (typesGet (rsW rs) t).Resources = akeys p.2.Resources := by
      rw [hte, TypeEntry_Order_keys]
    have h2 := congrArg List.length h1
    unfold akeys at h2
    rw [List.length_map, List.length_map] at h2
    rw [h2]
    exact (hd.2.1 p hp).2.1
  · intro q hq
    have hqk : q.1 ∈ akeys (typesGet (rsW rs) t).Resources :=
      List.mem_map_of_mem _ hq
    have hq' := hq
    rw [hte] at hq'
    obtain ⟨q0, hq0, he1, he2⟩ := Order_resources_mem hq'
    obtain ⟨hid, hlen, hls⟩ := (hd.2.1 p hp).2.2 q0 hq0
    refine ⟨hprep.2.2 q hq, ?_, ?_, ?_⟩
    · refine goodIdent_goodKey hc hd.2.2 (by rw [he1]; exact hid) ?_
      intro n hn
      exact resKey_name_mem hc htk hqk hn
    · intro l hl
      rw [he2] at hl
      obtain ⟨d, hd2, rfl⟩ := List.mem_map.mp hl
      exact hls d hd2
    · rw [he2]
      exact hlen

/-- Every sorted root key is a decodable directory key. -/
theorem rootKeys_good {rs : ResourceSet} (hc : rs.Consistent) (hd : Decodable rs) :
    ∀ t ∈ sortIdents (akeys rs.Types),
      goodKey (rs.write).1 (stage0 rs).nameOffset t := by
  intro t ht
  have htk : t ∈ akeys (rsW rs).Types := by
    rw [rsW_keys]
    exact (sortIdents_perm _).subset ht
  obtain ⟨p, hp, hpt⟩ := List.mem_map.mp ((sortIdents_perm _).subset ht)
  refine goodIdent_goodKey hc hd.2.2 (by rw [← hpt]; exact (hd.2.1 p hp).1) ?_
  intro n hn
  exact typeKey_name_mem htk hn

theorem writeTypeDir_fst (rs' : ResourceSet) (s : state) :
    (rs'.writeTypeDir s).1 =
      writeDirectoryTable s.namesCount (s.orderedKeys.length - s.namesCount) ++
      ((dirEntriesLoop (fun i => nameOff s i.nameVal) true
          (fun i => (typesGet rs' i).size) (s.orderedKeys.take s.namesCount)
          (s.offset + sizeOfDirTable + s.orderedKeys.length * sizeOfDirEntry)).1 ++
        (dirEntriesLoop Identifier.idVal false (fun i => (typesGet rs' i).size)
          (s.orderedKeys.drop s.namesCount)
          (dirEntriesLoop (fun i => nameOff s i.nameVal) true
            (fun i => (typesGet rs' i).size) (s.orderedKeys.take s.namesCount)
            (s.offset + sizeOfDirTable +
              s.orderedKeys.length * sizeOfDirEntry)).2).1) := by
  simp only [ResourceSet.writeTypeDir]
  rw [List.append_assoc]

/-- The pure reconstruction of the decoder: `set` every (type, id,
language, payload) of the ordered set, in emission order. -/
def replayFold (rsO : ResourceSet) (ts : List Identifier) (acc : ResourceSet) :
    ResourceSet :=
  ts.foldl (fun a t =>
    (((typesGet rsO t).OrderedKeys.getD []).foldl (fun a1 r =>
      (((resGet (typesGet rsO t) r).OrderedKeys.getD []).foldl (fun a2 l =>
        a2.set t r l (some (dataGet (resGet (typesGet rsO t) r) l).Data)) a1))
      a)) acc

/-- Decoding the serialization of a consistent, bounded set replays exactly
its (type, key, language, payload) content. -/
theorem decode_eq_replay {rs : ResourceSet} (hc : rs.Consistent)
    (hd : Decodable rs) :
    emptyRS.read (rs.write).1 0 (.id 0) =
      .ok (replayFold (rsW rs) (sortIdents (akeys rs.Types)) emptyRS) := by
  have hB31 := hd.2.2
  have hbytes : (rs.write).1 = (stageA rs).1 ++ (stageB rs).1 ++ (stageC rs).1 ++
      (stageD rs).1 ++ u16Bytes (stageD rs).2.namesData ++
      (rsW rs).writeData (stageD rs).2 := by
    rw [write_eq_stages]
  have hBr : (stageB rs).1 =
      (resDirsLoop (rsW rs) (sortIdents (akeys rs.Types)) (stageA rs).2).1 := by
    rw [stageB_eq, stageA_keys]
  have hCr : (stageC rs).1 =
      (langDirsLoop (rsW rs) (sortIdents (akeys rs.Types)) (stageB rs).2).1 := by
    rw [stageC_eq, stageB_keys]
  have hDr : (stageD rs).1 =
      (dataIndexLoop (rsW rs) (sortIdents (akeys rs.Types)) (stageS3 rs)).1 := by
    rw [stageD_eq, stageS3_keys]
  have hFr : (rsW rs).writeData (stageD rs).2 =
      dataLoop (rsW rs) (sortIdents (akeys rs.Types)) := by
    show dataLoop _ (stageD rs).2.orderedKeys = _
    rw [stageD_orderedKeys]
  have hbytes' : (rs.write).1 = (stageA rs).1 ++ (stageB rs).1 ++ (stageC rs).1 ++
      (stageD rs).1 ++ u16Bytes (stage0 rs).namesData ++
      dataLoop (rsW rs) (sortIdents (akeys rs.Types)) := by
    rw [hbytes, stageD_names, hFr]
  have hA : (stageA rs).1 =
      writeDirectoryTable (stage0 rs).namesCount
        ((sortIdents (akeys rs.Types)).length - (stage0 rs).namesCount) ++
      ((dirEntriesLoop (fun i => nameOff (stage0 rs) i.nameVal) true
          (fun i => (typesGet (rsW rs) i).size)
          ((sortIdents (akeys rs.Types)).take (stage0 rs).namesCount)
          (stageA rs).1.length).1 ++
        (dirEntriesLoop Identifier.idVal false (fun i => (typesGet (rsW rs) i).size)
          ((sortIdents (akeys rs.Types)).drop (stage0 rs).namesCount)
          (dirEntriesLoop (fun i => nameOff (stage0 rs) i.nameVal) true
            (fun i => (typesGet (rsW rs) i).size)
            ((sortIdents (akeys rs.Types)).take (stage0 rs).namesCount)
            (stageA rs).1.length).2).1) := by
    show ((rsW rs).writeTypeDir (stage0 rs)).1 = _
    rw [writeTypeDir_fst, stage0_keys]
    rw [show (stage0 rs).offset + sizeOfDirTable +
      (sortIdents (akeys rs.Types)).length * sizeOfDirEntry =
      (stageA rs).1.length from by rw [stage0_offset, stageA_len]; ring]
  have hsumB : ((sortIdents (akeys rs.Types)).map
      (fun i => (typesGet (rsW rs) i).size)).sum = (stageB rs).1.length := by
    rw [stageB_len, ← rsW_keys rs, rootSizes_sum (rsW_prepared hc),
      tableSizes_over_root (rsW_prepared hc)]
  have hsB : (stageA rs).2.offset = ((stageA rs).1 ++ (stageB rs).1).length := by
    rw [stageA_snd]
    show (stage0 rs).offset + sizeOfDirTable +
      sizeOfDirEntry * (stage0 rs).orderedKeys.length +
      ((stage0 rs).orderedKeys.map (fun i => (typesGet (rsW rs) i).size)).sum = _
    rw [stage0_offset, stage0_keys, hsumB, List.length_append, stageA_len]
    ring
  have hsC : (stageB rs).2.offset =
      ((stageA rs).1 ++ (stageB rs).1 ++ (stageC rs).1).length := by
    rw [stageB_offset hc, preDir_length hc]
  have hsD : (stageS3 rs).offset =
      ((stageA rs).1 ++ (stageB rs).1 ++ (stageC rs).1 ++ (stageD rs).1 ++
        u16Bytes (stage0 rs).namesData).length := by
    rw [stageS3_offset hc, preNames_length hc]
  have hJB : (rs.write).1 = (stageA rs).1 ++
      ((resDirsLoop (rsW rs) (sortIdents (akeys rs.Types)) (stageA rs).2).1 ++
        ((stageC rs).1 ++ ((stageD rs).1 ++ (u16Bytes (stage0 rs).namesData ++
          dataLoop (rsW rs) (sortIdents (akeys rs.Types)))))) := by
    rw [hbytes', ← hBr]
    simp [List.append_assoc]
  have hJC : (rs.write).1 = ((stageA rs).1 ++ (stageB rs).1) ++
      ((langDirsLoop (rsW rs) (sortIdents (akeys rs.Types)) (stageB rs).2).1 ++
        ((stageD rs).1 ++ (u16Bytes (stage0 rs).namesData ++
          dataLoop (rsW rs) (sortIdents (akeys rs.Types))))) := by
    rw [hbytes', ← hCr]
    simp [List.append_assoc]
  have hJD : (rs.write).1 = ((stageA rs).1 ++ (stageB rs).1 ++ (stageC rs).1) ++
      ((dataIndexLoop (rsW rs) (sortIdents (akeys rs.Types)) (stageS3 rs)).1 ++
        (u16Bytes (stage0 rs).namesData ++
          dataLoop (rsW rs) (sortIdents (akeys rs.Types)))) := by
    rw [hbytes', ← hDr]
    simp [List.append_assoc]
  have hJF : (rs.write).1 = ((stageA rs).1 ++ (stageB rs).1 ++ (stageC rs).1 ++
      (stageD rs).1 ++ u16Bytes (stage0 rs).namesData) ++
      (dataLoop (rsW rs) (sortIdents (akeys rs.Types)) ++ []) := by
    rw [hbytes']
    simp [List.append_assoc]
  have hK16 : (sortIdents (akeys rs.Types)).length < 2 ^ 16 := by
    rw [sortIdents_akeys_length]
    exact hd.1
  have hrootBound : (stageA rs).1.length + ((sortIdents (akeys rs.Types)).map
      (fun i => (typesGet (rsW rs) i).size)).sum < 2 ^ 31 := by
    have h2 : (stageA rs).1.length + (stageB rs).1.length ≤ (rs.write).1.length := by
      rw [hbytes]
      simp only [List.length_append]
      omega
    rw [hsumB]
    omega
  have hRTroot : dirEntry.readDirTable ⟨.id 0, 0, false⟩ (rs.write).1 =
      .ok (expEntries (fun i => (typesGet (rsW rs) i).size)
        (sortIdents (akeys rs.Types)) (stageA rs).1.length) := by
    refine readDirTable_two_runs (fun i => (typesGet (rsW rs) i).size)
      (fun i => nameOff (stage0 rs) i.nameVal) _ (sortIdents (akeys rs.Types))
      (stage0 rs).namesCount (stageA rs).1.length []
      ((resDirsLoop (rsW rs) (sortIdents (akeys rs.Types)) (stageA rs).2).1 ++
        ((stageC rs).1 ++ ((stageD rs).1 ++ (u16Bytes (stage0 rs).namesData ++
          dataLoop (rsW rs) (sortIdents (akeys rs.Types))))))
      rfl (sortIdents_sorted _) (stage0_namesCount rs) ?_ rfl hK16
      (rootKeys_good hc hd) (fun i => rfl) hrootBound
    rw [List.nil_append, ← hA]
    exact hJB
  show dirEntry.walk ⟨.id 0, 0, false⟩ (rs.write).1 emptyRS _ = _
  simp only [dirEntry.walk]
  rw [hRTroot, except_bind_ok]
  exact walkTypes hB31 (sortIdents (akeys rs.Types)) (stageA rs).2 (stageB rs).2
    (stageS3 rs) (stageA rs).1 ((stageA rs).1 ++ (stageB rs).1)
    ((stageA rs).1 ++ (stageB rs).1 ++ (stageC rs).1)
    ((stageA rs).1 ++ (stageB rs).1 ++ (stageC rs).1 ++ (stageD rs).1 ++
      u16Bytes (stage0 rs).namesData)
    ((stageC rs).1 ++ ((stageD rs).1 ++ (u16Bytes (stage0 rs).namesData ++
      dataLoop (rsW rs) (sortIdents (akeys rs.Types)))))
    ((stageD rs).1 ++ (u16Bytes (stage0 rs).namesData ++
      dataLoop (rsW rs) (sortIdents (akeys rs.Types))))
    (u16Bytes (stage0 rs).namesData ++
      dataLoop (rsW rs) (sortIdents (akeys rs.Types)))
    [] emptyRS hsB hsC hsD (stageA_nameOffset rs) hJB hJC hJD hJF
    (teFacts_of hc hd) (rootKeys_good hc hd)

/-! ### The replayed content equals the original content -/

theorem alookup_map_snd {κ ν μ : Type} [DecidableEq κ] (f : ν → μ) (k : κ) :
    ∀ l : List (κ × ν),
      alookup k (l.map (fun p => (p.1, f p.2))) = (alookup k l).map f
  | [] => rfl
  | (k', v) :: l => by
    show (if k' = k then some (f v) else _) = (if k' = k then some v else _).map f
    by_cases h : k' = k
    · rw [if_pos h, if_pos h]
      rfl
    · rw [if_neg h, if_neg h]
      exact alookup_map_snd f k l

theorem Get_rsW (rs : ResourceSet) (t r : Identifier) (l : Nat) :
    (rsW rs).Get t r l = rs.Get t r l := by
  rw [Get_eq, Get_eq]
  show (alookup t ((rs.order).1.Types)).bind _ = _
  rw [order_fst_Types, alookup_map_snd]
  cases ht : alookup t rs.Types with
  | none => rfl
  | some te =>
    simp only [Option.map_some', Option.some_bind]
    unfold TypeEntry.Order
    cases hks : te.OrderedKeys with
    | some ks => rfl
    | none =>
      show (alookup r (te.Resources.map (fun p => (p.1, p.2.order)))).bind _ = _
      rw [alookup_map_snd]
      cases hr : alookup r te.Resources with
      | none => rfl
      | some re =>
        simp only [Option.map_some', Option.some_bind]
        rw [ResourceEntry_order_Data]

theorem alookup_typesGet {rs : ResourceSet} {t : Identifier}
    (h : t ∈ akeys rs.Types) : alookup t rs.Types = some (typesGet rs t) := by
  obtain ⟨v, hv⟩ := mem_akeys_exists h
  rw [hv, typesGet, hv]
  rfl

theorem alookup_resGet {te : TypeEntry} {r : Identifier}
    (h : r ∈ akeys te.Resources) : alookup r te.Resources = some (resGet te r) := by
  obtain ⟨v, hv⟩ := mem_akeys_exists h
  rw [hv, resGet, hv]
  rfl

theorem alookup_dataGet {re : ResourceEntry} {l : Nat}
    (h : l ∈ akeys re.Data) : alookup l re.Data = some (dataGet re l) := by
  obtain ⟨v, hv⟩ := mem_akeys_exists h
  rw [hv, dataGet, hv]
  rfl

theorem Get_langFold (tI rI : Identifier) (re : ResourceEntry) :
    ∀ (ls : List Nat) (acc : ResourceSet) (t' r' : Identifier) (l' : Nat),
    (ls.foldl (fun a l => a.set tI rI l (some (dataGet re l).Data)) acc).Get t' r' l' =
      if t' = tI ∧ r' = rI ∧ l' ∈ ls then some (dataGet re l').Data
      else acc.Get t' r' l'
  | [], acc, t', r', l' => by simp
  | l :: ls, acc, t', r', l' => by
    rw [List.foldl_cons, Get_langFold tI rI re ls]
    by_cases h1 : t' = tI ∧ r' = rI ∧ l' ∈ ls
    · rw [if_pos h1, if_pos ⟨h1.1, h1.2.1, by simp [h1.2.2]⟩]
    · rw [if_neg h1]
      by_cases h2 : t' = tI ∧ r' = rI ∧ l' = l
      · rw [if_pos ⟨h2.1, h2.2.1, by simp [h2.2.2]⟩]
        obtain ⟨ha, hb, hce⟩ := h2
        rw [ha, hb, hce, Get_set_some_self]
      · rw [if_neg (by
          intro hcon
          rcases List.mem_cons.mp hcon.2.2 with hl | hl
          · exact h2 ⟨hcon.1, hcon.2.1, hl⟩
          · exact h1 ⟨hcon.1, hcon.2.1, hl⟩)]
        rw [Get_set_some_ne _ _ h2]

theorem Get_resFold (tI : Identifier) (te : TypeEntry) :
    ∀ (rks : List Identifier) (acc : ResourceSet) (t' r' : Identifier) (l' : Nat),
    (rks.foldl (fun a1 r => (((resGet te r).OrderedKeys.getD []).foldl (fun a2 l =>
      a2.set tI r l (some (dataGet (resGet te r) l).Data)) a1)) acc).Get t' r' l' =
      if t' = tI ∧ r' ∈ rks ∧ l' ∈ (resGet te r').OrderedKeys.getD []
      then some (dataGet (resGet te r') l').Data
      else acc.Get t' r' l'
  | [], acc, t', r', l' => by simp
  | r :: rks, acc, t', r', l' => by
    rw [List.foldl_cons, Get_resFold tI te rks, Get_langFold tI r (resGet te r)]
    by_cases h1 : t' = tI ∧ r' ∈ rks ∧ l' ∈ (resGet te r').OrderedKeys.getD []
    · rw [if_pos h1, if_pos ⟨h1.1, by simp [h1.2.1], h1.2.2⟩]
    · rw [if_neg h1]
      by_cases h2 : t' = tI ∧ r' = r ∧ l' ∈ (resGet te r').OrderedKeys.getD []
      · obtain ⟨ha, hb, hce⟩ := h2
        have hL : t' = tI ∧ r' = r ∧ l' ∈ (resGet te r).OrderedKeys.getD [] :=
          ⟨ha, hb, by rw [← hb]; exact hce⟩
        have hR : t' = tI ∧ r' ∈ r :: rks ∧
            l' ∈ (resGet te r').OrderedKeys.getD [] :=
          ⟨ha, by rw [hb]; exact List.mem_cons_self r rks, hce⟩
        rw [if_pos hL, if_pos hR, hb]
      · have hnL : ¬(t' = tI ∧ r' = r ∧
            l' ∈ (resGet te r).OrderedKeys.getD []) := by
          intro hcon
          exact h2 ⟨hcon.1, hcon.2.1, by rw [hcon.2.1]; exact hcon.2.2⟩
        have hnR : ¬(t' = tI ∧ r' ∈ r :: rks ∧
            l' ∈ (resGet te r').OrderedKeys.getD []) := by
          intro hcon
          rcases List.mem_cons.mp hcon.2.1 with hr | hr
          · exact h2 ⟨hcon.1, hr, hcon.2.2⟩
          · exact h1 ⟨hcon.1, hr, hcon.2.2⟩
        rw [if_neg hnL, if_neg hnR]

theorem Get_typeFold (rsO : ResourceSet) :
    ∀ (ts : List Identifier) (acc : ResourceSet) (t' r' : Identifier) (l' : Nat),
    (replayFold rsO ts acc).Get t' r' l' =
      if t' ∈ ts ∧ r' ∈ (typesGet rsO t').OrderedKeys.getD [] ∧
          l' ∈ (resGet (typesGet rsO t') r').OrderedKeys.getD []
      then some (dataGet (resGet (typesGet rsO t') r') l').Data
      else acc.Get t' r' l'
  | [], acc, t', r', l' => by simp [replayFold]
  | t :: ts, acc, t', r', l' => by
    show (replayFold rsO ts _).Get t' r' l' = _
    rw [Get_typeFold rsO ts, Get_resFold t (typesGet rsO t)]
    by_cases h1 : t' ∈ ts ∧ r' ∈ (typesGet rsO t').OrderedKeys.getD [] ∧
        l' ∈ (resGet (typesGet rsO t') r').OrderedKeys.getD []
    · rw [if_pos h1, if_pos ⟨by simp [h1.1], h1.2.1, h1.2.2⟩]
    · rw [if_neg h1]
      by_cases h2 : t' = t ∧ r' ∈ (typesGet rsO t').OrderedKeys.getD [] ∧
          l' ∈ (resGet (typesGet rsO t') r').OrderedKeys.getD []
      · obtain ⟨ha, hb, hce⟩ := h2
        have hL : t' = t ∧ r' ∈ (typesGet rsO t).OrderedKeys.getD [] ∧
            l' ∈ (resGet (typesGet rsO t) r').OrderedKeys.getD [] :=
          ⟨ha, by rw [← ha]; exact hb, by rw [← ha]; exact hce⟩
        have hR : t' ∈ t :: ts ∧ r' ∈ (typesGet rsO t').OrderedKeys.getD [] ∧
            l' ∈ (resGet (typesGet rsO t') r').OrderedKeys.getD [] :=
          ⟨by rw [ha]; exact List.mem_cons_self t ts, hb, hce⟩
        rw [if_pos hL, if_pos hR, ha]
      · have hnL : ¬(t' = t ∧ r' ∈ (typesGet rsO t).OrderedKeys.getD [] ∧
            l' ∈ (resGet (typesGet rsO t) r').OrderedKeys.getD []) := by
          intro hcon
          exact h2 ⟨hcon.1, by rw [hcon.1]; exact hcon.2.1,
            by rw [hcon.1]; exact hcon.2.2⟩
        have hnR : ¬(t' ∈ t :: ts ∧ r' ∈ (typesGet rsO t').OrderedKeys.getD [] ∧
            l' ∈ (resGet (typesGet rsO t') r').OrderedKeys.getD []) := by
          intro hcon
          rcases List.mem_cons.mp hcon.1 with ht | ht
          · exact h2 ⟨ht, hcon.2.1, hcon.2.2⟩
          · exact h1 ⟨ht, hcon.2.1, hcon.2.2⟩
        rw [if_neg hnL, if_neg hnR]

theorem replay_Get {rs : ResourceSet} (hc : rs.Consistent) :
    ∀ (t r : Identifier) (l : Nat),
    (replayFold (rsW rs) (sortIdents (akeys rs.Types)) emptyRS).Get t r l =
      rs.Get t r l := by
  intro t r l
  rw [Get_typeFold, ← Get_rsW rs t r l]
  have hp := rsW_prepared hc
  by_cases hcase : t ∈ sortIdents (akeys rs.Types) ∧
      r ∈ (typesGet (rsW rs) t).OrderedKeys.getD [] ∧
      l ∈ (resGet (typesGet (rsW rs) t) r).OrderedKeys.getD []
  · rw [if_pos hcase]
    obtain ⟨ht, hr, hl⟩ := hcase
    have htk : t ∈ akeys (rsW rs).Types := by
      rw [rsW_keys]
      exact (sortIdents_perm _).subset ht
    have hteprep := hp.2 _ (typesGet_mem htk)
    have hrk : r ∈ akeys (typesGet (rsW rs) t).Resources := by
      rw [hteprep.1] at hr
      simp only [Option.getD_some] at hr
      exact (sortIdents_perm _).subset hr
    have hreOK := hteprep.2.2 _ (resGet_mem hrk)
    have hlk : l ∈ akeys (resGet (typesGet (rsW rs) t) r).Data := by
      rw [hreOK] at hl
      simp only [Option.getD_some] at hl
      exact (sortLangs_perm _).subset hl
    rw [Get_eq, alookup_typesGet htk, Option.some_bind, alookup_resGet hrk,
      Option.some_bind, alookup_dataGet hlk, Option.map_some']
  · rw [if_neg hcase]
    show emptyRS.Get t r l = _
    rw [show emptyRS.Get t r l = none from rfl, Get_eq]
    by_cases ht : t ∈ akeys (rsW rs).Types
    case neg => rw [(alookup_none_iff t _).mpr ht, Option.none_bind]
    case pos =>
      rw [alookup_typesGet ht, Option.some_bind]
      have htsort : t ∈ sortIdents (akeys rs.Types) := by
        rw [rsW_keys] at ht
        exact ((sortIdents_perm _).mem_iff).mpr ht
      have hteprep := hp.2 _ (typesGet_mem ht)
      by_cases hr : r ∈ akeys (typesGet (rsW rs) t).Resources
      case neg => rw [(alookup_none_iff r _).mpr hr, Option.none_bind]
      case pos =>
        rw [alookup_resGet hr, Option.some_bind]
        have hrsort : r ∈ (typesGet (rsW rs) t).OrderedKeys.getD [] := by
          rw [hteprep.1]
          simp only [Option.getD_some]
          exact ((sortIdents_perm _).mem_iff).mpr hr
        have hreOK := hteprep.2.2 _ (resGet_mem hr)
        by_cases hl : l ∈ akeys (resGet (typesGet (rsW rs) t) r).Data
        case neg => rw [(alookup_none_iff l _).mpr hl, Option.map_none']
        case pos =>
          exfalso
          apply hcase
          refine ⟨htsort, hrsort, ?_⟩
          rw [hreOK]
          simp only [Option.getD_some]
          exact ((sortLangs_perm _).mem_iff).mpr hl

instance (i : Identifier) : Decidable (∃ v, i = .id v ∧ 1 ≤ v ∧ v < 2 ^ 16) :=
  match i with
  | .id v => decidable_of_iff (1 ≤ v ∧ v < 2 ^ 16)
      ⟨fun h => ⟨v, rfl, h.1, h.2⟩, fun ⟨w, hw, h1, h2⟩ => by
        cases hw
        exact ⟨h1, h2⟩⟩
  | .name n => isFalse (fun ⟨v, hv, _⟩ => by cases hv)

instance (i : Identifier) : Decidable (goodIdent i) :=
  match i with
  | .id v => decidable_of_iff (1 ≤ v ∧ v < 2 ^ 16)
      ⟨fun h => Or.inl ⟨v, rfl, h.1, h.2⟩, fun h => by
        rcases h with ⟨w, hw, h1, h2⟩ | ⟨n, hn, _⟩
        · cases hw
          exact ⟨h1, h2⟩
        · cases hn⟩
  | .name n => decidable_of_iff (n ≠ [] ∧ n.length < 2 ^ 16 ∧ ∀ u ∈ n, u < 2 ^ 16)
      ⟨fun h => Or.inr ⟨n, rfl, h.1, h.2.1, h.2.2⟩, fun h => by
        rcases h with ⟨w, hw, _⟩ | ⟨m, hm, h1, h2, h3⟩
        · cases hw
        · cases hm
          exact ⟨h1, h2, h3⟩⟩

instance (rs : ResourceSet) : Decidable (Decodable rs) := by
  unfold Decodable
  infer_instance

/-- A sample set mixing name and ordinal identifiers at both key levels:
a type named "Hi", and type 3 holding a resource named "B" and resource 2. -/
def namedRes : ResourceSet :=
  ((emptyRS.set (.name [72, 105]) (.id 1) 0 (some [1, 2, 3])).set (.id 3)
    (.name [66]) 1033 (some [4, 5])).set (.id 3) (.id 2) 0 (some [6])

/-- C1, corrected: the unrestricted claim fails — a 65536-unit type name
serializes with a truncated 16-bit length field and decoding rejects the
read-back empty name (see the counterexample). For every consistent set
whose identifiers are representable — ordinals in `[1, 2^16)` or non-empty
names of fewer than `2^16` UTF-16 code units (each unit below `2^16`) —
with languages and per-level entry counts below `2^16` and a serialized
section smaller than `2^31` bytes, decoding the serialization (base
address 0, no type filter) succeeds and yields exactly the same
(type, key, language) triples with byte-identical payloads. -/
theorem c1_round_trip (rs : ResourceSet) (hc : rs.Consistent) (hd : Decodable rs) :
    ∃ T, emptyRS.read (rs.write).1 0 (.id 0) = .ok T ∧
      ∀ (t r : Identifier) (l : Nat), T.Get t r l = rs.Get t r l :=
  ⟨replayFold (rsW rs) (sortIdents (akeys rs.Types)) emptyRS,
    decode_eq_replay hc hd, replay_Get hc⟩

set_option maxRecDepth 4096 in
theorem c1_round_trip_witness :
    namedRes.Consistent ∧ Decodable namedRes ∧
    (∃ T, emptyRS.read (namedRes.write).1 0 (.id 0) = .ok T ∧
      ∀ (t r : Identifier) (l : Nat), T.Get t r l = namedRes.Get t r l) :=
  ⟨by decide, by decide, c1_round_trip namedRes (by decide) (by decide)⟩

end Winres
